import Mathlib

/-!
Verification development for the CineSync reconciliation engine
(`src/MediaHub/processors/symlink_creator.py`).

The Python module is shallowly embedded: the filesystem, the processed-file
ledger, the per-file reconciler `process_file` and the orchestrator
`create_symlinks` become pure Lean functions over explicit state, and the
regular expressions of the classifier are implemented directly over
`List Char`.  External collaborators that are not part of the embedded module
(`db_utils`, `file_utils`, the metadata resolvers `process_show` /
`process_movie`, the configuration provider) are modelled from the
specification and marked as such in their doc comments.  The thread pool of
the orchestrator is modelled by its sequential schedule: all tasks are
dispatched first (as the submission loop does), then executed in dispatch
order (one admissible order of `as_completed`).
-/

namespace CineSync

/-- Absolute filesystem paths, as lists of components (`os.sep`-split). -/
abbrev Path := List String

/-- Rendering of a path as the string the Python code manipulates
(`os.path.join` of the components, with a leading separator). -/
def pathStr (p : Path) : String :=
  "/" ++ String.intercalate "/" p

/-- Basename of a path (`os.path.basename`). -/
def lastStr (p : Path) : String :=
  (p.getLast?).getD ""

/-- A filesystem node: a regular file, a directory, or a symbolic link
carrying its target (`os.readlink`). -/
inductive FNode where
  | file : FNode
  | dir : FNode
  | symlink (target : Path) : FNode
  deriving DecidableEq, Repr

/-- The filesystem, as an association list from absolute paths to nodes. -/
structure FS where
  entries : List (Path × FNode)
  deriving DecidableEq, Repr

namespace FS

/-- Node stored at a path, if any (first match in the association list). -/
def lookup (fs : FS) (p : Path) : Option FNode :=
  (fs.entries.find? (fun e => e.1 == p)).map (·.2)

/-- Python `os.path.islink`. -/
def islink (fs : FS) (p : Path) : Bool :=
  match fs.lookup p with
  | some (.symlink _) => true
  | _ => false

/-- Python `os.readlink` (none when the path is not a symlink). -/
def readlink (fs : FS) (p : Path) : Option Path :=
  match fs.lookup p with
  | some (.symlink t) => some t
  | _ => none

/-- Python `os.path.exists`: follows a symbolic link, so a link whose target
is missing does not exist.  Link targets in this development are regular
source files, so one dereference step suffices. -/
def pexists (fs : FS) (p : Path) : Bool :=
  match fs.lookup p with
  | some (.symlink t) => (fs.lookup t).isSome
  | some _ => true
  | none => false

/-- Python `os.path.isfile` on a plain file. -/
def isfile (fs : FS) (p : Path) : Bool :=
  match fs.lookup p with
  | some .file => true
  | _ => false

/-- Names of the direct children of a directory, in entry order
(`os.listdir`). -/
def listdir (fs : FS) (p : Path) : List String :=
  fs.entries.filterMap (fun e =>
    match e.1.dropLast == p, e.1.getLast? with
    | true, some n => some n
    | _, _ => none)

/-- Remove the entry at a path (`os.remove` of a link, `os.rmdir` of an
empty directory). -/
def remove (fs : FS) (p : Path) : FS :=
  ⟨fs.entries.filter (fun e => !(e.1 == p))⟩

/-- Insert a node at a path, replacing any previous entry. -/
def set (fs : FS) (p : Path) (n : FNode) : FS :=
  ⟨(p, n) :: fs.entries.filter (fun e => !(e.1 == p))⟩

/-- Create a symbolic link (`os.symlink(src, dest)` stores `src` as the
target of the new link at `dest`). -/
def symlink (fs : FS) (dest src : Path) : FS :=
  fs.set dest (.symlink src)

/-- All non-strict prefixes of a path except the empty root, shortest
first. -/
def prefixes (p : Path) : List Path :=
  (List.range p.length).map (fun i => p.take (i + 1))

/-- One step of `os.makedirs`: create the directory if nothing is there
yet. -/
def mkdirStep (acc : FS) (q : Path) : FS :=
  match acc.lookup q with
  | some _ => acc
  | none => acc.set q .dir

/-- Python `os.makedirs(path, exist_ok=True)`: create every missing
ancestor directory; entries that already exist are left untouched. -/
def mkdirp (fs : FS) (p : Path) : FS :=
  (prefixes p).foldl mkdirStep fs

/-- The files below a root, in entry order: the per-file units that
`os.walk` yields (directories are walked into, not yielded). -/
def walkFiles (fs : FS) (root : Path) : List Path :=
  fs.entries.filterMap (fun e =>
    match e.2 with
    | .dir => none
    | _ => if root ≠ e.1 ∧ root <+: e.1 then some e.1 else none)

end FS

/-- One processed-file ledger record: destination path, external id and
season number (spec section 3, `ProcessedFileRecord`). -/
structure LRec where
  dest : Path
  tmdb : Option Nat
  season : Option Nat
  deriving DecidableEq, Repr

/-- The processed-file ledger, keyed by source path.

Modelled from the spec: the ledger itself lives in `db_utils`, which is not
part of the embedded sources; the spec describes it as a persistent mapping
from source path to destination path plus metadata (sections 3 and 4.3). -/
abbrev Ledger := List (Path × LRec)

/-- Modelled from the spec: `lookup(source_path) -> destination_path |
absent` (spec section 4.3); `get_destination_path` in `db_utils`. -/
def get_destination_path (led : Ledger) (src : Path) : Option Path :=
  ((led.find? (fun e => e.1 == src)).map (·.2)).map (·.dest)

/-- Modelled from the spec: `record(source_path, destination_path,
external_id, season)` is an idempotent upsert (spec section 4.3);
`save_processed_file` in `db_utils`. -/
def save_processed_file (led : Ledger) (src dest : Path)
    (tmdb season : Option Nat) : Ledger :=
  (src, ⟨dest, tmdb, season⟩) :: led.filter (fun e => ¬ e.1 == src)

/-- Modelled from the spec: `rename(old_destination, new_destination)`
updates the record matching `old_destination` in place (spec section 4.3);
`update_renamed_file` in `db_utils`. -/
def update_renamed_file (led : Ledger) (oldDest newDest : Path) : Ledger :=
  led.map (fun e => if e.2.dest == oldDest then (e.1, ⟨newDest, e.2.tmdb, e.2.season⟩) else e)

/-- Modelled from the spec: the record of already-processed source paths
used by the orchestrator's skip check; `load_processed_files` in
`db_utils`. -/
def load_processed_files (led : Ledger) : List Path :=
  led.map (·.1)

/-- Source paths holding a record in the ledger. -/
def ledgerKeys (led : Ledger) : List Path :=
  led.map (·.1)

/-- Modelled from the spec: the force path looks up a prior link for this
source via the ledger and verifies a matching target on disk (spec section
4.4 step 1); `get_existing_symlink_info` in `db_utils`. -/
def get_existing_symlink_info (fs : FS) (led : Ledger) (src : Path) : Option Path :=
  match get_destination_path led src with
  | some d => if fs.islink d ∧ fs.readlink d = some src then some d else none
  | none => none

/-- Modelled from the spec: scan-mode destination index, built by walking
the destination tree and recording every symbolic link (spec section 4.2);
`build_dest_index` in `file_utils`. -/
def build_dest_index (fs : FS) (destDir : Path) : List Path :=
  fs.entries.filterMap (fun e =>
    match e.2 with
    | .symlink _ => if destDir ≠ e.1 ∧ destDir <+: e.1 then some e.1 else none
    | _ => none)

/-! ## Regular-expression matchers

The classifier's patterns (`symlink_creator.py` lines 182, 212-222) are
implemented directly over `List Char`.  A matcher maps a suffix to the list
of possible remainders after consuming a match, which models the
backtracking of the Python `re` engine; a pattern matches at a position iff
that list is non-empty.  All patterns are compiled with `re.IGNORECASE`, so
letters are compared after `Char.toLower`. -/

/-- Word characters for the `\b` and `\w` classes. -/
def isWordC (c : Char) : Bool :=
  c.isAlphanum || c = '_'

/-- Whitespace for the `\s` class. -/
def isSpaceC (c : Char) : Bool :=
  c = ' ' || c = '\t' || c = '\n' || c = '\r' || c = '\x0b' || c = '\x0c'

/-- Hexadecimal digits for the `[a-f0-9]` class under `re.IGNORECASE`. -/
def isHexC (c : Char) : Bool :=
  c.isDigit || ('a' ≤ c.toLower ∧ c.toLower ≤ 'f')

/-- Any character, as matched by `.` (newlines do not occur in basenames). -/
def isAnyC (c : Char) : Bool :=
  c ≠ '\n'

/-- Consume one character satisfying a class. -/
def pChar (q : Char → Bool) : List Char → List (List Char)
  | [] => []
  | c :: r => if q c then [r] else []

/-- Consume a literal, case-insensitively. -/
def pLitAux : List Char → List Char → List (List Char)
  | [], s => [s]
  | _ :: _, [] => []
  | l :: lr, c :: cr => if c.toLower = l.toLower then pLitAux lr cr else []

/-- Consume a literal given as a string, case-insensitively. -/
def pLit (lit : String) (s : List Char) : List (List Char) :=
  pLitAux lit.toList s

/-- Sequencing of matchers (all backtracking alternatives are kept). -/
def pSeq (a b : List Char → List (List Char)) (s : List Char) : List (List Char) :=
  (a s).flatMap b

/-- Alternation of matchers. -/
def pAlt (a b : List Char → List (List Char)) (s : List Char) : List (List Char) :=
  a s ++ b s

/-- `x?` (an optional matcher). -/
def pOpt (a : List Char → List (List Char)) (s : List Char) : List (List Char) :=
  a s ++ [s]

/-- `q*` for a character class: every possible number of consumed
characters. -/
def pStarCh (q : Char → Bool) : List Char → List (List Char)
  | [] => [[]]
  | c :: r => (c :: r) :: (if q c then pStarCh q r else [])

/-- `q+` for a character class. -/
def pPlusCh (q : Char → Bool) (s : List Char) : List (List Char) :=
  match s with
  | [] => []
  | c :: r => if q c then pStarCh q r else []

/-- Exactly `n` characters of a class. -/
def pCount (q : Char → Bool) : Nat → List Char → List (List Char)
  | 0, s => [s]
  | n + 1, s => pSeq (pChar q) (pCount q n) s

/-- Between `lo` and `hi` characters of a class (`q{lo,hi}`). -/
def pRange (q : Char → Bool) (lo hi : Nat) (s : List Char) : List (List Char) :=
  ((List.range (hi + 1)).filter (fun k => lo ≤ k)).flatMap (fun k => pCount q k s)

/-- A negative lookahead `(?!...)`: succeeds without consuming anything
when `bad` does not match at this position. -/
def pNegLA (bad : List Char → List (List Char)) (s : List Char) : List (List Char) :=
  if (bad s).isEmpty then [s] else []

/-- Trailing `\b` after a word character: the next character must not be a
word character (or the string must end). -/
def pEndB : List Char → List (List Char)
  | [] => [[]]
  | c :: r => if isWordC c then [] else [c :: r]

/-- A matcher succeeds at this position iff it leaves at least one
remainder. -/
def pHits (a : List Char → List (List Char)) (s : List Char) : Bool :=
  ¬ (a s).isEmpty

/-- A `\b` to the left of a word character: the previous character (head of
the reversed prefix) must not be a word character. -/
def boundaryPre (pre : List Char) : Bool :=
  match pre with
  | [] => true
  | c :: _ => ¬ isWordC c

/-- The lookbehind `(?<!\d{3})`: the three characters before this position
are not all digits. -/
def lb3 (pre : List Char) : Bool :=
  match pre with
  | a :: b :: c :: _ => ¬ (a.isDigit ∧ b.isDigit ∧ c.isDigit)
  | _ => true

/-- Generic scanner: `re.search` tries every start position; `step`
receives the reversed prefix (for lookbehinds and `\b`) and the suffix. -/
def scanAux (step : List Char → List Char → Bool) : List Char → List Char → Bool
  | pre, [] => step pre []
  | pre, c :: rest => step pre (c :: rest) || scanAux step (c :: pre) rest

/-- Run a scanner over a string. -/
def reSearch (step : List Char → List Char → Bool) (s : String) : Bool :=
  scanAux step [] s.toList

/-- The negative lookahead shared by the three `\s-` episode alternatives:
`(?!1080p|720p|480p|2160p|\d+Kbps|\d{4}|\d+bit)`. -/
def dashNegLA (s : List Char) : List (List Char) :=
  pNegLA (pAlt (pLit "1080p") (pAlt (pLit "720p") (pAlt (pLit "480p")
    (pAlt (pLit "2160p") (pAlt (pSeq (pPlusCh Char.isDigit) (pLit "Kbps"))
      (pAlt (pCount Char.isDigit 4) (pSeq (pPlusCh Char.isDigit) (pLit "bit")))))))) s

/-- `\d{2,3}(?!Kbps)`, the digit block of the `\s-` episode alternatives. -/
def dashDigits (s : List Char) : List (List Char) :=
  pSeq (pRange Char.isDigit 2 3) (pNegLA (pLit "Kbps")) s

/-- `S\d{1,2}\.?E\d{2}`. -/
def epAlt1 (s : List Char) : List (List Char) :=
  pSeq (pLit "s") (pSeq (pRange Char.isDigit 1 2) (pSeq (pOpt (pLit "."))
    (pSeq (pLit "e") (pCount Char.isDigit 2)))) s

/-- `S\d{1,2}\s*\d{2}`. -/
def epAlt2 (s : List Char) : List (List Char) :=
  pSeq (pLit "s") (pSeq (pRange Char.isDigit 1 2) (pSeq (pStarCh isSpaceC)
    (pCount Char.isDigit 2))) s

/-- `S\d{2}E\d{2}` (and its redundant lower-case twin under
`re.IGNORECASE`). -/
def epAlt3 (s : List Char) : List (List Char) :=
  pSeq (pLit "s") (pSeq (pCount Char.isDigit 2) (pSeq (pLit "e")
    (pCount Char.isDigit 2))) s

/-- The body of `(?<!\d{3})\b[1-9][0-9]?x[0-9]{1,2}\b(?!\d{3})` (the
lookbehind and leading `\b` are checked against the reversed prefix by the
scanner). -/
def epAlt5 (s : List Char) : List (List Char) :=
  pSeq (pChar (fun c => c.isDigit ∧ c ≠ '0')) (pSeq (pOpt (pChar Char.isDigit))
    (pSeq (pLit "x") (pSeq (pRange Char.isDigit 1 2)
      (pSeq pEndB (pNegLA (pCount Char.isDigit 3)))))) s

/-- `[0-9]+e[0-9]+`. -/
def epAlt6 (s : List Char) : List (List Char) :=
  pSeq (pPlusCh Char.isDigit) (pSeq (pLit "e") (pPlusCh Char.isDigit)) s

/-- The body of `\bep\.?\s*\d{1,2}\b` (three case variants in the source,
identical under `re.IGNORECASE`). -/
def epAlt7 (s : List Char) : List (List Char) :=
  pSeq (pLit "ep") (pSeq (pOpt (pLit ".")) (pSeq (pStarCh isSpaceC)
    (pSeq (pRange Char.isDigit 1 2) pEndB))) s

/-- `S\d{2}\sE\d{2}`. -/
def epAlt8 (s : List Char) : List (List Char) :=
  pSeq (pLit "s") (pSeq (pCount Char.isDigit 2) (pSeq (pChar isSpaceC)
    (pSeq (pLit "e") (pCount Char.isDigit 2)))) s

/-- `MINI[- ]SERIES|MINISERIES`. -/
def miniAlt (s : List Char) : List (List Char) :=
  pSeq (pLit "mini") (pAlt (pSeq (pChar (fun c => c = '-' ∨ c = ' ')) (pLit "series"))
    (pLit "series")) s

/-- `\s-\s(?!...)\d{2,3}(?!Kbps)`. -/
def epAlt10a (s : List Char) : List (List Char) :=
  pSeq (pChar isSpaceC) (pSeq (pLit "-") (pSeq (pChar isSpaceC)
    (pSeq dashNegLA dashDigits))) s

/-- `\s-(?!...)\d{2,3}(?!Kbps)`. -/
def epAlt10b (s : List Char) : List (List Char) :=
  pSeq (pChar isSpaceC) (pSeq (pLit "-") (pSeq dashNegLA dashDigits)) s

/-- `\s-\s*(?!...)\d{2,3}(?!Kbps)`. -/
def epAlt10c (s : List Char) : List (List Char) :=
  pSeq (pChar isSpaceC) (pSeq (pLit "-") (pSeq (pStarCh isSpaceC)
    (pSeq dashNegLA dashDigits))) s

/-- `[Ee]pisode\s*\d{2}`. -/
def epAlt11 (s : List Char) : List (List Char) :=
  pSeq (pLit "episode") (pSeq (pStarCh isSpaceC) (pCount Char.isDigit 2)) s

/-- `[Ee]p\s*\d{2}`. -/
def epAlt12 (s : List Char) : List (List Char) :=
  pSeq (pLit "ep") (pSeq (pStarCh isSpaceC) (pCount Char.isDigit 2)) s

/-- `Season_-\d{2}`. -/
def epAlt13 (s : List Char) : List (List Char) :=
  pSeq (pLit "season_-") (pCount Char.isDigit 2) s

/-- The body of `\bSeason\d+\b`. -/
def epAlt14 (s : List Char) : List (List Char) :=
  pSeq (pLit "season") (pSeq (pPlusCh Char.isDigit) pEndB) s

/-- The body of `\bE\d+\b`. -/
def epAlt15 (s : List Char) : List (List Char) :=
  pSeq (pLit "e") (pSeq (pPlusCh Char.isDigit) pEndB) s

/-- `series\.\d+\.\d+of\d+`. -/
def epAlt16 (s : List Char) : List (List Char) :=
  pSeq (pLit "series.") (pSeq (pPlusCh Char.isDigit) (pSeq (pLit ".")
    (pSeq (pPlusCh Char.isDigit) (pSeq (pLit "of") (pPlusCh Char.isDigit))))) s

/-- `Episode\s+(\d+)\s+(.*?)\.(\w+)`. -/
def epAlt17 (s : List Char) : List (List Char) :=
  pSeq (pLit "episode") (pSeq (pPlusCh isSpaceC) (pSeq (pPlusCh Char.isDigit)
    (pSeq (pPlusCh isSpaceC) (pSeq (pStarCh isAnyC) (pSeq (pLit ".")
      (pPlusCh isWordC)))))) s

/-- The body of `\b\d{2}x\d{2}\b`. -/
def epAlt18 (s : List Char) : List (List Char) :=
  pSeq (pCount Char.isDigit 2) (pSeq (pLit "x") (pSeq (pCount Char.isDigit 2) pEndB)) s

/-- One position of the episode-marker regex (`symlink_creator.py` line
213): the disjunction of all its alternatives, with `\b` and lookbehind
conditions checked against the reversed prefix. -/
def episodeStep (pre suf : List Char) : Bool :=
  pHits epAlt1 suf || pHits epAlt2 suf || pHits epAlt3 suf ||
  (lb3 pre && boundaryPre pre && pHits epAlt5 suf) ||
  pHits epAlt6 suf ||
  (boundaryPre pre && pHits epAlt7 suf) ||
  pHits epAlt8 suf || pHits miniAlt suf ||
  pHits epAlt10a suf || pHits epAlt10b suf || pHits epAlt10c suf ||
  pHits epAlt11 suf || pHits epAlt12 suf || pHits epAlt13 suf ||
  (boundaryPre pre && pHits epAlt14 suf) ||
  (boundaryPre pre && pHits epAlt15 suf) ||
  pHits epAlt16 suf || pHits epAlt17 suf ||
  (boundaryPre pre && pHits epAlt18 suf)

/-- `re.search` of the episode-marker regex over a basename
(`episode_match`, line 212). -/
def episodeSearch (s : String) : Bool :=
  reSearch episodeStep s

/-- `re.search(r"(MINI[- ]SERIES|MINISERIES)", file)` (`mini_series_match`,
line 217). -/
def miniSeriesSearch (s : String) : Bool :=
  reSearch (fun _ suf => pHits miniAlt suf) s

/-- One position of the anime episode pattern
`\s-\s\d{2,3}\s|\d{2,3}v\d+` (line 220). -/
def animeEpisodeStep (suf : List Char) : Bool :=
  pHits (pSeq (pChar isSpaceC) (pSeq (pLit "-") (pSeq (pChar isSpaceC)
    (pSeq (pRange Char.isDigit 2 3) (pChar isSpaceC))))) suf ||
  pHits (pSeq (pRange Char.isDigit 2 3) (pSeq (pLit "v") (pPlusCh Char.isDigit))) suf

/-- `re.search` of the anime episode pattern over a basename. -/
def animeEpisodeSearch (s : String) : Bool :=
  reSearch (fun _ suf => animeEpisodeStep suf) s

/-- One position of the season-folder pattern `\b(s\d{2})\b` (line 222). -/
def seasonStep (pre suf : List Char) : Bool :=
  boundaryPre pre &&
  pHits (pSeq (pLit "s") (pSeq (pCount Char.isDigit 2) pEndB)) suf

/-- `re.search` of the season-folder pattern over the full source path. -/
def seasonSearch (s : String) : Bool :=
  reSearch seasonStep s

/-- The bare-hash pattern `^[a-f0-9]{32}(\.[^.]+$|\[.+?\]\.)` (line 182),
anchored at the start of the basename.  The first alternative must consume
the string to its end (the `$`). -/
def hashSearch (s : String) : Bool :=
  ((pCount isHexC 32 s.toList).flatMap (fun rest =>
      (pSeq (pLit ".") (pPlusCh (fun c => c ≠ '.')) rest).filter (·.isEmpty) ++
      pSeq (pLit "[") (pSeq (pPlusCh isAnyC) (pLit "].")) rest)).isEmpty = false

/-! ## The reconciler's state, environment and observable events -/

/-- OS behaviour of `os.symlink` for a given (source, destination) pair:
success, `FileExistsError`, another `OSError`, or an unrelated exception
(the three `except` arms of `symlink_creator.py` lines 371-389). -/
inductive OsErr where
  | fileExists : OsErr
  | osError (m : String) : OsErr
  | otherExn (m : String) : OsErr
  deriving DecidableEq, Repr

/-- Observable effects of a reconciliation pass, in temporal order: emitted
log messages (with their level), filesystem mutations, ledger writes, and
the downstream notification hook. -/
inductive Event where
  | msg (text level : String) : Event
  | fsRemove (p : Path) : Event
  | fsRmdir (p : Path) : Event
  | fsMkdirs (p : Path) : Event
  | fsSymlink (dest src : Path) : Event
  | ledgerSave (src dest : Path) (tmdb season : Option Nat) : Event
  | ledgerRename (oldDest newDest : Path) : Event
  | plexRefresh (dest : Path) : Event
  deriving DecidableEq, Repr

/-- An INFO-level log message. -/
def mI (t : String) : Event := .msg t "INFO"

/-- A DEBUG-level log message. -/
def mD (t : String) : Event := .msg t "DEBUG"

/-- A WARNING-level log message. -/
def mW (t : String) : Event := .msg t "WARNING"

/-- An ERROR-level log message. -/
def mE (t : String) : Event := .msg t "ERROR"

/-- Return behaviour of `process_file`: Python `None`, the success tuple
`(dest_file, True, src_file)`, or a propagated exception. -/
inductive PFResult where
  | pynone : PFResult
  | created (dest src : Path) : PFResult
  | raised (e : String) : PFResult
  deriving DecidableEq, Repr

/-- Result of the show resolver: destination path (possibly unresolved),
external id, season number and the is-extra flag. -/
structure ShowRes where
  dest : Option Path
  tmdb : Option Nat
  season : Option Nat
  isExtra : Bool
  deriving DecidableEq, Repr

/-- Result of the movie resolver: destination path and external id. -/
structure MovieRes where
  dest : Option Path
  tmdb : Option Nat
  deriving DecidableEq, Repr

/-- The environment of external collaborators, modelled from the spec
(section 6): the recognized-media-type filter and junk-size predicate of
`file_utils`, the configurable anime pattern list, the metadata resolvers
(`resolve_show(path, hints)` / `resolve_movie(path, hints)`, keyed on the
source path since all other hints are constant within a run; a `.error`
models an unexpected exception escaping the resolver), the OS response to
`os.symlink`, and the Plex notification configuration. -/
structure Env where
  knownType : String → Bool
  skipExtrasFolder : Bool
  animePatterns : String → Bool
  isJunkFile : String → Path → Bool
  resolveShow : Path → Except String ShowRes
  resolveMovie : Path → Except String MovieRes
  osFault : Path → Path → Option OsErr
  plexUpdate : Bool
  plexToken : Bool

/-- The per-file arguments of `process_file` (the `args` tuple of
`symlink_creator.py` lines 29-47; `root`, `dest_dir`, `actual_dir` and the
configuration booleans are consumed only by the out-of-scope resolvers). -/
structure Args where
  src : Path
  file : String
  destIndex : List Path
  tmdbId : Option Nat
  imdbId : Option Nat
  tvdbId : Option Nat
  forceShow : Bool
  forceMovie : Bool
  seasonNumber : Option Nat
  episodeNumber : Option Nat
  forceExtra : Bool
  deriving DecidableEq, Repr

/-- The mutable world: filesystem, ledger, and the process-wide
`error_event` flag. -/
structure St where
  fs : FS
  ledger : Ledger
  errorFlag : Bool
  deriving DecidableEq, Repr

/-! ## The reconciler `process_file`, stage by stage -/

/-- Force-mode removal of the existing symlink and pruning of up to two
levels of newly-empty parent directories (`symlink_creator.py` lines
66-112). -/
def pfForce (fs : FS) (led : Ledger) (src : Path) (file : String) : FS × List Event :=
  match get_existing_symlink_info fs led src with
  | none => (fs, [])
  | some p =>
    let parent := p.dropLast
    let pp := parent.dropLast
    let fs1 := fs.remove p
    let ev1 := [mD ("Force mode: Found existing symlink at " ++ pathStr p),
                Event.fsRemove p,
                mI ("Force mode: Initiating reprocessing of " ++ file)]
    if (fs1.listdir parent).isEmpty then
      let fs2 := fs1.remove parent
      let ev2 := ev1 ++ [mI ("Deleting empty directory: " ++ pathStr parent),
                         Event.fsRmdir parent]
      if (fs2.listdir pp).isEmpty then
        (fs2.remove pp, ev2 ++ [mI ("Deleting empty directory: " ++ pathStr pp),
                                Event.fsRmdir pp])
      else (fs2, ev2)
    else (fs1, ev1)

/-- Continuation of a reconciliation stage: either an early bare `return`
(Python `None`) or fall-through to the next stage. -/
inductive Flow where
  | exit (st : St) (ev : List Event) : Flow
  | cont (st : St) (ev : List Event) : Flow

/-- The first link in a directory that resolves to the given source
(the `os.listdir` loop of lines 119-135). -/
def findRenamedName (fs : FS) (dir : Path) (src : Path) : Option String :=
  (fs.listdir dir).find? (fun n =>
    fs.islink (dir ++ [n]) && fs.readlink (dir ++ [n]) == some src)

/-- The already-processed / rename-detection check against the ledger
(`symlink_creator.py` lines 114-153). -/
def pfLedgerCheck (st : St) (src : Path) (force : Bool) : Flow :=
  match get_destination_path st.ledger src with
  | none => .cont st []
  | some d =>
    if force then .cont st []
    else if ¬ st.fs.pexists d then
      let dirPath := d.dropLast
      match if st.fs.pexists dirPath then findRenamedName st.fs dirPath src else none with
      | some n =>
        let newPath := dirPath ++ [n]
        .exit ⟨st.fs, update_renamed_file st.ledger d newPath, st.errorFlag⟩
          [mI ("Detected renamed file: " ++ pathStr d ++ " -> " ++ pathStr newPath),
           Event.ledgerRename d newPath]
      | none => .cont st [mI ("Destination file missing. Re-processing: " ++ pathStr src)]
    else
      .exit st [mI ("File already processed. Source: " ++ pathStr src ++
                    ", Existing destination: " ++ pathStr d)]

/-- The destination-index conflict check: a live link in the index already
resolving to this source is recorded and the file skipped
(`symlink_creator.py` lines 156-174). -/
def pfIndexCheck (st : St) (a : Args) (force : Bool) : Flow :=
  match a.destIndex.find? (fun p => st.fs.islink p && st.fs.readlink p == some a.src) with
  | none => .cont st []
  | some p =>
    if force then .cont st []
    else
      .exit ⟨st.fs, save_processed_file st.ledger a.src p a.tmdbId none, st.errorFlag⟩
        [mI ("Symlink already exists for " ++ a.file),
         Event.ledgerSave a.src p a.tmdbId none]

/-- Outcome of the show-detection logic: the `is_show` / `is_anime_show`
flags and the emitted classification message. -/
structure Detect where
  isShow : Bool
  isAnime : Bool
  ev : List Event
  deriving DecidableEq, Repr

/-- The show-detection logic (`symlink_creator.py` lines 195-251): the
override flags first, then the season-folder pattern against the full
path, then the episode-marker / mini-series patterns against the basename,
then the anime patterns. -/
def pfDetect (env : Env) (a : Args) : Detect :=
  if a.forceShow then
    ⟨true, false, [mI ("Processing as show based on Force Show flag: " ++ a.file)]⟩
  else if a.forceMovie then
    ⟨false, false, [mI ("Processing as movie based on Force Movie flag: " ++ a.file)]⟩
  else if seasonSearch (pathStr a.src) then
    ⟨true, false, [mD ("Processing as show based on directory structure: " ++ pathStr a.src)]⟩
  else if episodeSearch a.file || miniSeriesSearch a.file then
    ⟨true, false, [mD ("Processing as show based on file pattern: " ++ pathStr a.src)]⟩
  else if animeEpisodeSearch a.file || env.animePatterns a.file then
    ⟨false, true, [mD ("Processing as show based on anime pattern: " ++ pathStr a.src)]⟩
  else ⟨false, false, []⟩

/-- The classification block: the bare-hash rejection (lines 181-193),
the show detection (lines 195-251), then the size-based junk rejection
(lines 253-259).  An `error` is an early bare return. -/
def pfClassify (env : Env) (a : Args) : Except (List Event) Detect :=
  if hashSearch a.file ∧ a.tmdbId = none ∧ a.imdbId = none then
    .error [mI ("Skipping file with hash lacking media identifiers: " ++ a.file)]
  else
    let d := pfDetect env a
    if env.isJunkFile a.file a.src then
      .error (d.ev ++ [mD ("Skipping Junk files: " ++ a.file ++ " based on size")])
    else .ok d

/-- Outcome of the metadata-resolution block. -/
inductive ResOut where
  | raisedR (e : String) : ResOut
  | extraSkip (ev : List Event) : ResOut
  | resolved (dest : Option Path) (tmdb season : Option Nat) : ResOut
  deriving Repr

/-- The resolution block (`symlink_creator.py` lines 262-305): the show or
movie resolver is invoked according to the detection result; a resolver
exception propagates; an extra is skipped when configured so. -/
def pfResolve (env : Env) (a : Args) (isShow isAnime : Bool) : ResOut :=
  if isShow || isAnime then
    match env.resolveShow a.src with
    | .error e => .raisedR e
    | .ok r =>
      if r.isExtra ∧ ¬ a.forceExtra ∧ env.skipExtrasFolder then
        .extraSkip [mI ("Skipping symlink creation for extra file: " ++ a.file)]
      else .resolved r.dest r.tmdb r.season
  else
    match env.resolveMovie a.src with
    | .error e => .raisedR e
    | .ok r => .resolved r.dest r.tmdb a.seasonNumber

/-- The guarded `os.symlink` call with its exception handlers
(`symlink_creator.py` lines 357-391): on success the link is created, then
the ledger is written, then the Plex hook fires, and the success tuple is
returned; `FileExistsError` is a benign race; other errors are logged and
the file is skipped. -/
def pfCreate (env : Env) (st : St) (a : Args) (dest : Path)
    (tmdb season : Option Nat) : St × List Event × PFResult :=
  match env.osFault a.src dest with
  | none =>
    (⟨st.fs.symlink dest a.src, save_processed_file st.ledger a.src dest tmdb season,
      st.errorFlag⟩,
     [Event.fsSymlink dest a.src,
      mI ("Created symlink: " ++ pathStr dest ++ " -> " ++ pathStr a.src),
      Event.ledgerSave a.src dest tmdb season] ++
       (if env.plexUpdate ∧ env.plexToken then [Event.plexRefresh dest] else []),
     .created dest a.src)
  | some .fileExists =>
    (st, [mW ("File already exists: " ++ pathStr dest ++ ". Skipping symlink creation.")],
     .pynone)
  | some (.osError m) =>
    (st, [mE ("Error creating symlink for " ++ pathStr a.src ++ ": " ++ m)], .pynone)
  | some (.otherExn m) =>
    (st, [mE ("Task failed with exception: " ++ m)], .pynone)

/-- The link-materialization block (`symlink_creator.py` lines 307-391):
unresolved destination, `os.makedirs`, the correct-link and stale-link
checks, the occupied-by-a-regular-file check, then creation. -/
def pfMaterialize (env : Env) (st : St) (a : Args) (dest? : Option Path)
    (tmdb season : Option Nat) : St × List Event × PFResult :=
  match dest? with
  | none =>
    (st, [mW ("Destination file path is None for " ++ a.file ++ ". Skipping.")], .pynone)
  | some dest =>
    let fs1 := st.fs.mkdirp dest.dropLast
    let ev1 := [Event.fsMkdirs dest.dropLast]
    match fs1.readlink dest with
    | some tgt =>
      if tgt = a.src then
        (⟨fs1, save_processed_file st.ledger a.src dest tmdb none, st.errorFlag⟩,
         ev1 ++ [mI ("Symlink already exists and is correct: " ++ pathStr dest ++
                     " -> " ++ pathStr a.src),
                 Event.ledgerSave a.src dest tmdb none],
         .pynone)
      else
        let fs2 := fs1.remove dest
        let ev2 := ev1 ++ [mI ("Updating existing symlink: " ++ pathStr dest ++ " -> " ++
                               pathStr a.src ++ " (was: " ++ pathStr tgt ++ ")"),
                           Event.fsRemove dest]
        if fs2.pexists dest ∧ ¬ fs2.islink dest then
          (⟨fs2, st.ledger, st.errorFlag⟩,
           ev2 ++ [mI ("File already exists at destination: " ++ lastStr dest)], .pynone)
        else
          let c := pfCreate env ⟨fs2, st.ledger, st.errorFlag⟩ a dest tmdb season
          (c.1, ev2 ++ c.2.1, c.2.2)
    | none =>
      if fs1.pexists dest ∧ ¬ fs1.islink dest then
        (⟨fs1, st.ledger, st.errorFlag⟩,
         ev1 ++ [mI ("File already exists at destination: " ++ lastStr dest)], .pynone)
      else
        let c := pfCreate env ⟨fs1, st.ledger, st.errorFlag⟩ a dest tmdb season
        (c.1, ev1 ++ c.2.1, c.2.2)

/-- The body of the reconciler after the error-flag, known-type and force
checks: the ledger check, the index check, classification, resolution and
materialization, in source order. -/
def pfMain (env : Env) (st1 : St) (a : Args) (force : Bool) :
    St × List Event × PFResult :=
  match pfLedgerCheck st1 a.src force with
  | .exit st2 ev2 => (st2, ev2, .pynone)
  | .cont st2 ev2 =>
    match pfIndexCheck st2 a force with
    | .exit st3 ev3 => (st3, ev2 ++ ev3, .pynone)
    | .cont st3 ev3 =>
      match pfClassify env a with
      | .error ev4 => (st3, ev2 ++ ev3 ++ ev4, .pynone)
      | .ok det =>
        match pfResolve env a det.isShow det.isAnime with
        | .raisedR e => (st3, ev2 ++ ev3 ++ det.ev, .raised e)
        | .extraSkip ev5 => (st3, ev2 ++ ev3 ++ det.ev ++ ev5, .pynone)
        | .resolved dest tm sn =>
          let m := pfMaterialize env st3 a dest tm sn
          (m.1, ev2 ++ ev3 ++ det.ev ++ m.2.1, m.2.2)

/-- The per-file reconciler `process_file` (`symlink_creator.py` lines
28-391), as the composition of its stages in source order. -/
def process_file (env : Env) (st0 : St) (a : Args) (force : Bool) :
    St × List Event × PFResult :=
  if st0.errorFlag then (st0, [], .pynone)
  else if ¬ env.knownType a.file then
    (st0, [mI ("Skipping unsupported file type: " ++ a.file)], .pynone)
  else
    let fp := if force then pfForce st0.fs st0.ledger a.src a.file else (st0.fs, [])
    let m := pfMain env ⟨fp.1, st0.ledger, st0.errorFlag⟩ a force
    (m.1, fp.2 ++ m.2.1, m.2.2)

/-! ## The orchestrator `create_symlinks` -/

/-- The summary value described by the spec for the entry point:
`create_symlinks(sources, destination, options) -> Summary{processed_count,
total_count}`.  This definition follows the spec's words (section 6) and is
the refinement target against which the embedded return behaviour of
`create_symlinks` is compared. -/
structure Summary where
  processed_count : Nat
  total_count : Nat
  deriving DecidableEq, Repr

/-- The run-constant arguments of `create_symlinks` (`symlink_creator.py`
lines 394-409); `monitor` is `mode == "monitor"`. -/
structure CSArgs where
  srcDirs : List Path
  destDir : Path
  force : Bool
  monitor : Bool
  tmdbId : Option Nat
  imdbId : Option Nat
  tvdbId : Option Nat
  forceShow : Bool
  forceMovie : Bool
  seasonNumber : Option Nat
  episodeNumber : Option Nat
  forceExtra : Bool

/-- The per-file `args` tuple built at dispatch (lines 554-572). -/
def mkTaskArgs (cs : CSArgs) (destIndex : List Path) (src : Path) : Args :=
  ⟨src, lastStr src, destIndex, cs.tmdbId, cs.imdbId, cs.tvdbId,
   cs.forceShow, cs.forceMovie, cs.seasonNumber, cs.episodeNumber, cs.forceExtra⟩

/-- The first counting pass over the sources (lines 435-441). -/
def countTotal (env : Env) (fs : FS) (srcDirs : List Path) : Nat :=
  srcDirs.foldl (fun n d =>
    if fs.isfile d then n + 1
    else n + ((fs.walkFiles d).filter (fun p => env.knownType (lastStr p))).length) 0

/-- Accumulator of the dispatch phase: submitted tasks, the
`processed_files` counter, emitted messages, and whether the walk aborted
on a set error flag (the early `return` of line 527). -/
structure DispAcc where
  tasks : List Args
  ctr : Nat
  evs : List Event
  aborted : Bool
  deriving Repr

/-- The per-file dispatch loop inside one directory walk (lines 516-581):
the error-flag check, the already-processed skip of line 531
(create mode, non-force), the progress counter and message, and task
submission. -/
def dispatchFiles (cs : CSArgs) (flag : Bool) (log : List Path) (total : Nat)
    (destIndex : List Path) : List Path → DispAcc → DispAcc
  | [], acc => acc
  | p :: rest, acc =>
    if flag then
      { acc with
        evs := acc.evs ++ [mW "Stopping further processing due to an earlier error."],
        aborted := true }
    else if ¬ cs.monitor ∧ p ∈ log ∧ ¬ cs.force then
      dispatchFiles cs flag log total destIndex rest acc
    else
      dispatchFiles cs flag log total destIndex rest
        { tasks := acc.tasks ++ [mkTaskArgs cs destIndex p],
          ctr := acc.ctr + 1,
          evs := acc.evs ++ [mI ("Processing file " ++ toString (acc.ctr + 1) ++ "/" ++
                                 toString total ++ ": " ++ lastStr p)],
          aborted := acc.aborted }

/-- The dispatch phase over all source roots (lines 451-581): a single
path is submitted directly; a directory is scanned, its destination index
built (scan mode; the filesystem is unchanged during dispatch, so every
snapshot equals the run's initial one), and its files dispatched. -/
def dispatchDirs (cs : CSArgs) (fs : FS) (flag : Bool) (log : List Path)
    (total : Nat) : List Path → DispAcc → DispAcc
  | [], acc => acc
  | d :: rest, acc =>
    if acc.aborted then acc
    else
      let destIndex := build_dest_index fs cs.destDir
      if fs.isfile d then
        dispatchDirs cs fs flag log total rest
          { acc with tasks := acc.tasks ++ [mkTaskArgs cs destIndex d] }
      else
        let acc1 : DispAcc :=
          { acc with evs := acc.evs ++ [mI ("Scanning source directory: " ++ pathStr d)] }
        dispatchDirs cs fs flag log total rest
          (dispatchFiles cs flag log total destIndex (fs.walkFiles d) acc1)

/-- Accumulator of the completion phase (the `as_completed` loop, lines
584-626): world state, the `processed_files` counter, messages, executed
task results, and whether the loop returned early on a set error flag. -/
structure CompAcc where
  st : St
  ctr : Nat
  evs : List Event
  results : List PFResult
  halted : Bool

/-- The completion loop (lines 584-626): before each result the error flag
is checked (early `return` of line 593); a task exception is logged and
sets the flag (lines 619-626); a success tuple bumps the counter and is
logged (lines 596-617). -/
def completeTasks (env : Env) (cs : CSArgs) : List Args → CompAcc → CompAcc
  | [], acc => acc
  | t :: rest, acc =>
    if acc.st.errorFlag then
      { acc with
        evs := acc.evs ++ [mE "Error detected during task execution. Stopping all tasks."],
        halted := true }
    else
      let r := process_file env acc.st t cs.force
      match r.2.2 with
      | .raised e =>
        completeTasks env cs rest
          { st := ⟨r.1.fs, r.1.ledger, true⟩,
            ctr := acc.ctr,
            evs := acc.evs ++ r.2.1 ++ [mE ("Error processing task: " ++ e)],
            results := acc.results ++ [r.2.2],
            halted := acc.halted }
      | .created d s =>
        completeTasks env cs rest
          { st := r.1,
            ctr := acc.ctr + 1,
            evs := acc.evs ++ r.2.1 ++
              [mI ("Successfully processed: " ++ lastStr d),
               mD ("Created symlink: " ++ pathStr d ++ " -> " ++ pathStr s)],
            results := acc.results ++ [r.2.2],
            halted := acc.halted }
      | .pynone =>
        completeTasks env cs rest
          { st := r.1, ctr := acc.ctr, evs := acc.evs ++ r.2.1,
            results := acc.results ++ [r.2.2], halted := acc.halted }

/-- The observable outcome of one `create_symlinks` call: final world
state, the full event trace, the `processed_files` and `total_files`
counters, the number of dispatched tasks, the executed task results, the
two early-return flags, and the Python return value.  The source function
has no `return` statement carrying a value — every `return` is bare and
the function otherwise falls off its end — so the returned value is always
`None`, recorded here as `none : Option Summary`. -/
structure CSOut where
  st : St
  events : List Event
  counter : Nat
  total : Nat
  dispatched : Nat
  results : List PFResult
  abortedDispatch : Bool
  halted : Bool
  returnValue : Option Summary

/-- The orchestrator `create_symlinks` (`symlink_creator.py` lines
394-634) in its auto-select batch configuration, under the sequential
schedule: destination-root creation, ledger load, the counting pass, the
start message, dispatch, completion, and the completion message (emitted
only when the completion loop was not halted by the error flag).  When the
dispatch walk aborts on a set error flag, the already-submitted tasks
would each observe the flag and return immediately, so the model drops
them without effect. -/
def create_symlinks (env : Env) (cs : CSArgs) (st0 : St) : CSOut :=
  let st1 : St := ⟨st0.fs.mkdirp cs.destDir, st0.ledger, st0.errorFlag⟩
  let log := load_processed_files st1.ledger
  let total := countTotal env st1.fs cs.srcDirs
  let ev0 := [mI ("Starting to process " ++ toString total ++ " files...")]
  let disp := dispatchDirs cs st1.fs st1.errorFlag log total cs.srcDirs ⟨[], 0, [], false⟩
  if disp.aborted then
    { st := st1, events := ev0 ++ disp.evs, counter := disp.ctr, total := total,
      dispatched := disp.tasks.length, results := [], abortedDispatch := true,
      halted := false, returnValue := none }
  else
    let c := completeTasks env cs disp.tasks ⟨st1, disp.ctr, [], [], false⟩
    { st := c.st,
      events := ev0 ++ disp.evs ++ c.evs ++
        (if c.halted then [] else
          [mI ("Processing completed. Successfully processed " ++
               toString c.ctr ++ " files.")]),
      counter := c.ctr, total := total, dispatched := disp.tasks.length,
      results := c.results, abortedDispatch := false, halted := c.halted,
      returnValue := none }

/-! ## Basic lemmas about the filesystem model -/

/-- Strictly-below relation on paths. -/
def IsUnder (root p : Path) : Prop :=
  root <+: p ∧ root ≠ p

instance (root p : Path) : Decidable (IsUnder root p) := by
  unfold IsUnder; infer_instance

namespace FS

theorem find?_filter_ne (l : List (Path × FNode)) (p q : Path) (h : q ≠ p) :
    (l.filter (fun e => !(e.1 == p))).find? (fun e => e.1 == q) =
      l.find? (fun e => e.1 == q) := by
  induction l with
  | nil => rfl
  | cons e rest ih =>
    by_cases hep : e.1 = p
    · have h1 : (!(e.1 == p)) = false := by simp [hep]
      have h2 : (e.1 == q) = false := by simp [hep, Ne.symm h]
      rw [List.filter_cons, if_neg (by simp [h1]), List.find?_cons_of_neg _ (by simp [h2]), ih]
    · have h1 : (!(e.1 == p)) = true := by simp [hep]
      rw [List.filter_cons, if_pos (by simp [h1])]
      by_cases heq : e.1 = q
      · rw [List.find?_cons_of_pos _ (by simp [heq]), List.find?_cons_of_pos _ (by simp [heq])]
      · rw [List.find?_cons_of_neg _ (by simp [heq]), List.find?_cons_of_neg _ (by simp [heq]), ih]

theorem find?_filter_self (l : List (Path × FNode)) (p : Path) :
    (l.filter (fun e => !(e.1 == p))).find? (fun e => e.1 == p) = none := by
  induction l with
  | nil => rfl
  | cons e rest ih =>
    by_cases hep : e.1 = p
    · rw [List.filter_cons, if_neg (by simp [hep])]
      exact ih
    · rw [List.filter_cons, if_pos (by simp [hep]), List.find?_cons_of_neg _ (by simp [hep]), ih]

theorem lookup_set (fs : FS) (p : Path) (n : FNode) (q : Path) :
    (fs.set p n).lookup q = if q = p then some n else fs.lookup q := by
  by_cases h : q = p
  · subst h
    rw [if_pos rfl]
    show (List.find? _ ((q, n) :: _)).map _ = _
    rw [List.find?_cons_of_pos _ (by simp)]
    rfl
  · rw [if_neg h]
    show (List.find? _ ((p, n) :: _)).map _ = _
    rw [List.find?_cons_of_neg _ (by simp [Ne.symm h]), find?_filter_ne fs.entries p q h]
    rfl

theorem lookup_remove (fs : FS) (p q : Path) :
    (fs.remove p).lookup q = if q = p then none else fs.lookup q := by
  unfold FS.remove FS.lookup
  by_cases h : q = p
  · subst h
    rw [if_pos rfl, find?_filter_self]
    rfl
  · rw [if_neg h, find?_filter_ne fs.entries p q h]

theorem lookup_symlink (fs : FS) (dest src q : Path) :
    (fs.symlink dest src).lookup q =
      if q = dest then some (.symlink src) else fs.lookup q := by
  simp [FS.symlink, lookup_set]

/-- When no entry carries the key, the filter underlying `set` and `remove`
is the identity. -/
theorem filter_ne_eq_self (fs : FS) (p : Path) (h : fs.lookup p = none) :
    fs.entries.filter (fun e => !(e.1 == p)) = fs.entries := by
  have hfind : fs.entries.find? (fun e => e.1 == p) = none := by
    unfold FS.lookup at h
    cases hf : fs.entries.find? (fun e => e.1 == p) with
    | none => rfl
    | some e => rw [hf] at h; cases h
  refine List.filter_eq_self.mpr (fun e he => ?_)
  have := List.find?_eq_none.mp hfind e he
  simpa using this

theorem set_of_lookup_none (fs : FS) (p : Path) (n : FNode) (h : fs.lookup p = none) :
    (fs.set p n).entries = (p, n) :: fs.entries := by
  show (p, n) :: _ = _
  rw [filter_ne_eq_self fs p h]

/-- A `mkdirStep` fold never disturbs an existing entry. -/
theorem lookup_foldl_mkdirStep_of_some (L : List Path) (q : Path) (n : FNode) :
    ∀ fs : FS, fs.lookup q = some n → (L.foldl mkdirStep fs).lookup q = some n := by
  induction L with
  | nil => intro fs h; simpa using h
  | cons x rest ih =>
    intro fs h
    simp only [List.foldl_cons]
    refine ih (fs.mkdirStep x) ?_
    unfold mkdirStep
    cases hx : fs.lookup x with
    | some m => exact h
    | none =>
      have hqx : q ≠ x := fun he => by rw [he] at h; rw [h] at hx; cases hx
      rw [lookup_set, if_neg hqx]; exact h

/-- A `mkdirStep` fold only adds entries. -/
theorem lookup_foldl_mkdirStep_none (L : List Path) (q : Path) (fs : FS)
    (h : (L.foldl mkdirStep fs).lookup q = none) : fs.lookup q = none := by
  cases hq : fs.lookup q with
  | none => rfl
  | some n => rw [lookup_foldl_mkdirStep_of_some L q n fs hq] at h; cases h

/-- Entries added by a `mkdirStep` fold are directories. -/
theorem lookup_foldl_mkdirStep_new (L : List Path) (q : Path) :
    ∀ fs : FS, fs.lookup q = none → (L.foldl mkdirStep fs).lookup q ≠ none →
      (L.foldl mkdirStep fs).lookup q = some .dir := by
  induction L with
  | nil => intro fs h0 h1; exact absurd h0 h1
  | cons x rest ih =>
    intro fs h0 h1
    simp only [List.foldl_cons] at h1 ⊢
    by_cases hqx : q = x
    · subst hqx
      have hset : (fs.mkdirStep q).lookup q = some .dir := by
        unfold mkdirStep
        rw [h0, lookup_set, if_pos rfl]
      exact lookup_foldl_mkdirStep_of_some rest q .dir _ hset
    · refine ih (fs.mkdirStep x) ?_ h1
      unfold mkdirStep
      cases hx : fs.lookup x with
      | some m => exact h0
      | none => rw [lookup_set, if_neg hqx]; exact h0

/-- After a `mkdirStep` fold, every listed path has an entry. -/
theorem lookup_foldl_mkdirStep_ready (L : List Path) (q : Path) (hq : q ∈ L) :
    ∀ fs : FS, ((L.foldl mkdirStep fs).lookup q).isSome := by
  induction L with
  | nil => cases hq
  | cons x rest ih =>
    intro fs
    simp only [List.foldl_cons]
    rcases List.mem_cons.mp hq with h | h
    · subst h
      have hset : ∃ n, (fs.mkdirStep q).lookup q = some n := by
        unfold mkdirStep
        cases hx : fs.lookup q with
        | some m => exact ⟨m, hx⟩
        | none => exact ⟨.dir, by rw [lookup_set, if_pos rfl]⟩
      obtain ⟨n, hn⟩ := hset
      rw [lookup_foldl_mkdirStep_of_some rest q n _ hn]
      rfl
    · exact ih h (fs.mkdirStep x)

/-- A `mkdirStep` fold over already-present paths is the identity. -/
theorem foldl_mkdirStep_eq_self (L : List Path) :
    ∀ fs : FS, (∀ q ∈ L, (fs.lookup q).isSome) → L.foldl mkdirStep fs = fs := by
  induction L with
  | nil => intro fs _; rfl
  | cons x rest ih =>
    intro fs hall
    have hx : fs.mkdirStep x = fs := by
      unfold mkdirStep
      cases hx : fs.lookup x with
      | some m => rfl
      | none => exact absurd (hall x (by simp)) (by simp [hx])
    simp only [List.foldl_cons, hx]
    exact ih fs (fun q hq => hall q (by simp [hq]))

/-- `mkdirp` never disturbs an existing entry. -/
theorem lookup_mkdirp_of_some (fs : FS) (p q : Path) (n : FNode)
    (h : fs.lookup q = some n) : (fs.mkdirp p).lookup q = some n :=
  lookup_foldl_mkdirStep_of_some _ q n fs h

/-- `mkdirp` only adds entries. -/
theorem lookup_mkdirp_none (fs : FS) (p q : Path)
    (h : (fs.mkdirp p).lookup q = none) : fs.lookup q = none :=
  lookup_foldl_mkdirStep_none _ q fs h

/-- Entries added by `mkdirp` are directories. -/
theorem lookup_mkdirp_new (fs : FS) (p q : Path)
    (h0 : fs.lookup q = none) (h1 : (fs.mkdirp p).lookup q ≠ none) :
    (fs.mkdirp p).lookup q = some .dir :=
  lookup_foldl_mkdirStep_new _ q fs h0 h1

/-- After `mkdirp p`, every prefix of `p` has an entry. -/
theorem mkdirp_ready (fs : FS) (p q : Path) (hq : q ∈ prefixes p) :
    ((fs.mkdirp p).lookup q).isSome :=
  lookup_foldl_mkdirStep_ready _ q hq fs

/-- `mkdirp` over an already-complete directory chain is the identity. -/
theorem mkdirp_eq_self (fs : FS) (p : Path)
    (h : ∀ q ∈ prefixes p, (fs.lookup q).isSome) : fs.mkdirp p = fs :=
  foldl_mkdirStep_eq_self _ fs h

/-- `readlink` is unchanged by `mkdirp` (added entries are directories). -/
theorem readlink_mkdirp (fs : FS) (p q : Path) :
    (fs.mkdirp p).readlink q = fs.readlink q := by
  unfold readlink
  cases hq : fs.lookup q with
  | some n => rw [lookup_mkdirp_of_some fs p q n hq]
  | none =>
    cases hq2 : (fs.mkdirp p).lookup q with
    | none => rfl
    | some n =>
      have := lookup_mkdirp_new fs p q hq (by simp [hq2])
      rw [hq2] at this
      cases this
      rfl

theorem walkFiles_cons_dir (l : List (Path × FNode)) (p root : Path) :
    FS.walkFiles ⟨(p, .dir) :: l⟩ root = FS.walkFiles ⟨l⟩ root := by
  simp [FS.walkFiles, List.filterMap_cons]

theorem walkFiles_cons_not_under (l : List (Path × FNode)) (p : Path) (n : FNode)
    (root : Path) (h : ¬ (root ≠ p ∧ root <+: p)) :
    FS.walkFiles ⟨(p, n) :: l⟩ root = FS.walkFiles ⟨l⟩ root := by
  cases n <;> simp [FS.walkFiles, List.filterMap_cons, h]

theorem filterMap_filter_of_none (f : (Path × FNode) → Option Path) (p : Path)
    (hp : ∀ n, f (p, n) = none) (l : List (Path × FNode)) :
    (l.filter (fun e => !(e.1 == p))).filterMap f = l.filterMap f := by
  induction l with
  | nil => rfl
  | cons e rest ih =>
    by_cases hep : e.1 = p
    · rw [List.filter_cons, if_neg (by simp [hep]), ih, List.filterMap_cons]
      rcases e with ⟨q, n⟩
      simp only at hep
      subst hep
      rw [hp n]
    · rw [List.filter_cons, if_pos (by simp [hep]), List.filterMap_cons,
        List.filterMap_cons, ih]

theorem walkFiles_filter_not_under (l : List (Path × FNode)) (root p : Path)
    (h : ¬ (root ≠ p ∧ root <+: p)) :
    FS.walkFiles ⟨l.filter (fun e => !(e.1 == p))⟩ root = FS.walkFiles ⟨l⟩ root := by
  unfold FS.walkFiles
  refine filterMap_filter_of_none _ p (fun n => ?_) l
  cases n <;> simp [h]

/-- Removing an entry outside a root leaves that root's walk unchanged. -/
theorem walkFiles_remove_not_under (fs : FS) (root p : Path)
    (h : ¬ (root ≠ p ∧ root <+: p)) :
    (fs.remove p).walkFiles root = fs.walkFiles root := by
  show FS.walkFiles ⟨fs.entries.filter _⟩ root = _
  exact walkFiles_filter_not_under fs.entries root p h

/-- A `mkdirStep` leaves every walk unchanged. -/
theorem walkFiles_mkdirStep (fs : FS) (q root : Path) :
    (fs.mkdirStep q).walkFiles root = fs.walkFiles root := by
  unfold mkdirStep
  cases h : fs.lookup q with
  | some n => rfl
  | none =>
    have he := set_of_lookup_none fs q .dir h
    show FS.walkFiles (fs.set q FNode.dir) root = _
    unfold FS.walkFiles
    rw [he, List.filterMap_cons]

/-- `mkdirp` leaves every walk unchanged. -/
theorem walkFiles_mkdirp (fs : FS) (p root : Path) :
    (fs.mkdirp p).walkFiles root = fs.walkFiles root := by
  unfold FS.mkdirp
  generalize prefixes p = L
  induction L generalizing fs with
  | nil => rfl
  | cons x rest ih =>
    simp only [List.foldl_cons]
    rw [ih (fs.mkdirStep x), walkFiles_mkdirStep]

/-- Creating a link at a fresh path outside a root leaves that root's walk
unchanged. -/
theorem walkFiles_symlink_not_under (fs : FS) (dest src root : Path)
    (h0 : fs.lookup dest = none) (h : ¬ (root ≠ dest ∧ root <+: dest)) :
    (fs.symlink dest src).walkFiles root = fs.walkFiles root := by
  have he := set_of_lookup_none fs dest (.symlink src) h0
  show FS.walkFiles (fs.set dest (FNode.symlink src)) root = _
  unfold FS.walkFiles
  rw [he, List.filterMap_cons]
  simp [h]

end FS

/-! ## Basic lemmas about the ledger model -/

theorem find?_ledger_eq_none_iff (led : Ledger) (src : Path) :
    led.find? (fun e => e.1 == src) = none ↔ src ∉ ledgerKeys led := by
  rw [List.find?_eq_none]
  constructor
  · intro h hmem
    obtain ⟨e, he, hk⟩ := List.mem_map.mp hmem
    exact h e he (by simp [hk])
  · intro h e he
    simp only [beq_iff_eq]
    intro hk
    exact h (List.mem_map.mpr ⟨e, he, hk⟩)

theorem gdp_eq_none_iff (led : Ledger) (src : Path) :
    get_destination_path led src = none ↔ src ∉ ledgerKeys led := by
  unfold get_destination_path
  cases hf : led.find? (fun e => e.1 == src) with
  | none =>
    simp only [hf, Option.map_none']
    exact iff_of_true (by simp) ((find?_ledger_eq_none_iff led src).mp hf)
  | some e =>
    simp only [hf, Option.map_some']
    refine iff_of_false (by simp) (fun hmem => ?_)
    have := (find?_ledger_eq_none_iff led src).mpr hmem
    rw [hf] at this
    cases this

theorem mem_keys_save (led : Ledger) (src dest : Path) (t n : Option Nat) (k : Path) :
    k ∈ ledgerKeys (save_processed_file led src dest t n) ↔
      k = src ∨ k ∈ ledgerKeys led := by
  unfold save_processed_file ledgerKeys
  simp only [List.map_cons, List.mem_cons]
  constructor
  · rintro (h | h)
    · exact Or.inl h
    · obtain ⟨e, he, hk⟩ := List.mem_map.mp h
      exact Or.inr (List.mem_map.mpr ⟨e, (List.mem_filter.mp he).1, hk⟩)
  · rintro (h | h)
    · exact Or.inl h
    · by_cases hks : k = src
      · exact Or.inl hks
      · obtain ⟨e, he, hk⟩ := List.mem_map.mp h
        refine Or.inr (List.mem_map.mpr ⟨e, List.mem_filter.mpr ⟨he, ?_⟩, hk⟩)
        subst hk
        simp [hks]

theorem keys_update_renamed (led : Ledger) (a b : Path) :
    ledgerKeys (update_renamed_file led a b) = ledgerKeys led := by
  unfold update_renamed_file ledgerKeys
  induction led with
  | nil => rfl
  | cons e rest ih =>
    simp only [List.map_cons, ih]
    congr 1
    split <;> rfl

theorem gdp_save_self (led : Ledger) (src dest : Path) (t n : Option Nat) :
    get_destination_path (save_processed_file led src dest t n) src = some dest := by
  unfold get_destination_path save_processed_file
  rw [List.find?_cons_of_pos _ (by simp)]
  rfl

/-- The rename operation rewrites the destination recorded for a source
whose record matched the old destination. -/
theorem gdp_update_renamed (led : Ledger) (src a b : Path)
    (h : get_destination_path led src = some a) :
    get_destination_path (update_renamed_file led a b) src = some b := by
  induction led with
  | nil => simp [get_destination_path, List.find?] at h
  | cons e rest ih =>
    by_cases hk : e.1 = src
    · have hd : e.2.dest = a := by
        unfold get_destination_path at h
        rw [List.find?_cons_of_pos _ (by simp [hk])] at h
        simpa using h
      unfold get_destination_path update_renamed_file
      rw [List.map_cons, if_pos (by simp [hd] : (e.2.dest == a) = true),
        List.find?_cons_of_pos _ (by simp [hk])]
      rfl
    · have h2 : get_destination_path rest src = some a := by
        unfold get_destination_path at h ⊢
        rwa [List.find?_cons_of_neg _ (by simp [hk])] at h
      have goal2 := ih h2
      unfold get_destination_path update_renamed_file at goal2 ⊢
      rw [List.map_cons]
      split
      · rw [List.find?_cons_of_neg _ (by simp [hk])]
        exact goal2
      · rw [List.find?_cons_of_neg _ (by simp [hk])]
        exact goal2

/-! ## Stage-level facts about the reconciler -/

/-- State carried by a stage continuation. -/
def Flow.state : Flow → St
  | .exit s _ => s
  | .cont s _ => s

/-- Events emitted by a stage. -/
def Flow.events : Flow → List Event
  | .exit _ e => e
  | .cont _ e => e

/-- Whether a trace contains a link-creation effect. -/
def hasSymlinkEv (ev : List Event) : Bool :=
  ev.any (fun e => match e with | .fsSymlink _ _ => true | _ => false)

theorem hasSymlinkEv_append (a b : List Event) :
    hasSymlinkEv (a ++ b) = (hasSymlinkEv a || hasSymlinkEv b) :=
  List.any_append

/-- The force-mode block never creates a link. -/
theorem pfForce_no_symlink (fs : FS) (led : Ledger) (src : Path) (file : String) :
    hasSymlinkEv (pfForce fs led src file).2 = false := by
  unfold pfForce
  split
  · rfl
  · dsimp only
    split
    · split <;> simp [hasSymlinkEv, mD, mI]
    · simp [hasSymlinkEv, mD, mI]

/-- The ledger check keeps the filesystem and the error flag, keeps the set
of recorded sources, and never creates a link. -/
theorem pfLedgerCheck_facts (st : St) (src : Path) (force : Bool) :
    (pfLedgerCheck st src force).state.fs = st.fs ∧
    (pfLedgerCheck st src force).state.errorFlag = st.errorFlag ∧
    ledgerKeys (pfLedgerCheck st src force).state.ledger = ledgerKeys st.ledger ∧
    hasSymlinkEv (pfLedgerCheck st src force).events = false := by
  simp only [pfLedgerCheck]
  split
  · exact ⟨rfl, rfl, rfl, rfl⟩
  · split
    · exact ⟨rfl, rfl, rfl, rfl⟩
    · split
      · split
        · exact ⟨rfl, rfl, keys_update_renamed _ _ _,
            by simp [Flow.events, hasSymlinkEv, mI]⟩
        · exact ⟨rfl, rfl, rfl, by simp [Flow.events, hasSymlinkEv, mI]⟩
      · exact ⟨rfl, rfl, rfl, by simp [Flow.events, hasSymlinkEv, mI]⟩

/-- A missing ledger record makes the ledger check fall through with no
effect. -/
theorem pfLedgerCheck_none (st : St) (src : Path) (force : Bool)
    (h : get_destination_path st.ledger src = none) :
    pfLedgerCheck st src force = .cont st [] := by
  unfold pfLedgerCheck
  rw [h]

/-- The index check keeps the filesystem and the error flag, only grows the
set of recorded sources, and never creates a link. -/
theorem pfIndexCheck_facts (st : St) (a : Args) (force : Bool) :
    (pfIndexCheck st a force).state.fs = st.fs ∧
    (pfIndexCheck st a force).state.errorFlag = st.errorFlag ∧
    (∀ k, k ∈ ledgerKeys st.ledger →
      k ∈ ledgerKeys (pfIndexCheck st a force).state.ledger) ∧
    hasSymlinkEv (pfIndexCheck st a force).events = false := by
  unfold pfIndexCheck
  split
  · exact ⟨rfl, rfl, fun k hk => hk, rfl⟩
  · split
    · exact ⟨rfl, rfl, fun k hk => hk, rfl⟩
    · refine ⟨rfl, rfl, fun k hk => ?_, by simp [Flow.events, hasSymlinkEv, mI]⟩
      exact (mem_keys_save _ _ _ _ _ _).mpr (Or.inr hk)

/-- A missed index lookup makes the index check fall through with no
effect. -/
theorem pfIndexCheck_none (st : St) (a : Args) (force : Bool)
    (h : a.destIndex.find?
      (fun p => st.fs.islink p && st.fs.readlink p == some a.src) = none) :
    pfIndexCheck st a force = .cont st [] := by
  unfold pfIndexCheck
  rw [h]

/-- The detection stage emits only messages. -/
theorem pfDetect_no_symlink (env : Env) (a : Args) :
    hasSymlinkEv (pfDetect env a).ev = false := by
  unfold pfDetect
  split
  · simp [hasSymlinkEv, mI]
  · split
    · simp [hasSymlinkEv, mI]
    · split
      · simp [hasSymlinkEv, mD]
      · split
        · simp [hasSymlinkEv, mD]
        · split
          · simp [hasSymlinkEv, mD]
          · rfl

/-- A classification rejection emits only messages. -/
theorem pfClassify_error_no_symlink (env : Env) (a : Args) (ev : List Event)
    (h : pfClassify env a = .error ev) : hasSymlinkEv ev = false := by
  unfold pfClassify at h
  split at h
  · cases h
    simp [hasSymlinkEv, mI]
  · split at h
    · cases h
      rw [hasSymlinkEv_append, pfDetect_no_symlink]
      simp [hasSymlinkEv, mD]
    · cases h

/-- An extras skip emits only messages. -/
theorem pfResolve_extraSkip_no_symlink (env : Env) (a : Args) (s1 s2 : Bool)
    (ev : List Event) (h : pfResolve env a s1 s2 = .extraSkip ev) :
    hasSymlinkEv ev = false := by
  unfold pfResolve at h
  split at h
  · split at h
    · cases h
    · split at h
      · cases h
        simp [hasSymlinkEv, mI]
      · cases h
  · split at h
    · cases h
    · cases h

/-- Successful creation: the link is made, then the ledger written, then
the notification hook fired, and the success tuple returned. -/
theorem pfCreate_ok (env : Env) (st : St) (a : Args) (dest : Path)
    (t s : Option Nat) (h : env.osFault a.src dest = none) :
    pfCreate env st a dest t s =
      (⟨st.fs.symlink dest a.src, save_processed_file st.ledger a.src dest t s,
        st.errorFlag⟩,
       [Event.fsSymlink dest a.src,
        mI ("Created symlink: " ++ pathStr dest ++ " -> " ++ pathStr a.src),
        Event.ledgerSave a.src dest t s] ++
         (if env.plexUpdate ∧ env.plexToken then [Event.plexRefresh dest] else []),
       .created dest a.src) := by
  unfold pfCreate
  rw [h]

/-- A failed creation leaves the state unchanged, returns `None`, and
creates no link. -/
theorem pfCreate_fault (env : Env) (st : St) (a : Args) (dest : Path)
    (t s : Option Nat) (f : OsErr) (h : env.osFault a.src dest = some f) :
    (pfCreate env st a dest t s).1 = st ∧
    (pfCreate env st a dest t s).2.2 = .pynone ∧
    hasSymlinkEv (pfCreate env st a dest t s).2.1 = false := by
  unfold pfCreate
  rw [h]
  cases f <;> exact ⟨rfl, rfl, by simp [hasSymlinkEv, mW, mE]⟩

/-- The materialization stage preserves the error flag, and its trace
carries a link-creation event exactly when it returns the success tuple. -/
theorem pfMaterialize_facts (env : Env) (st : St) (a : Args) (d? : Option Path)
    (t s : Option Nat) :
    (pfMaterialize env st a d? t s).1.errorFlag = st.errorFlag ∧
    (hasSymlinkEv (pfMaterialize env st a d? t s).2.1 = true ↔
      ∃ d src, (pfMaterialize env st a d? t s).2.2 = .created d src) := by
  simp only [pfMaterialize]
  split
  · exact ⟨rfl, by simp [hasSymlinkEv, mW]⟩
  · rename_i dest
    split
    · split
      · refine ⟨rfl, ?_⟩
        simp [hasSymlinkEv, mI]
      · split
        · refine ⟨rfl, ?_⟩
          simp [hasSymlinkEv, mI]
        · cases hf : env.osFault a.src dest with
          | none =>
            rw [pfCreate_ok env _ a dest t s hf]
            refine ⟨rfl, ?_⟩
            constructor
            · intro _
              exact ⟨dest, a.src, rfl⟩
            · intro _
              rw [hasSymlinkEv_append]
              simp [hasSymlinkEv, mI]
          | some f =>
            obtain ⟨h1, h2, h3⟩ := pfCreate_fault env _ a dest t s f hf
            refine ⟨by rw [h1], ?_⟩
            rw [hasSymlinkEv_append, h3, h2]
            simp [hasSymlinkEv, mI]
    · split
      · refine ⟨rfl, ?_⟩
        simp [hasSymlinkEv, mI]
      · cases hf : env.osFault a.src dest with
        | none =>
          rw [pfCreate_ok env _ a dest t s hf]
          refine ⟨rfl, ?_⟩
          constructor
          · intro _
            exact ⟨dest, a.src, rfl⟩
          · intro _
            rw [hasSymlinkEv_append]
            simp [hasSymlinkEv]
        | some f =>
          obtain ⟨h1, h2, h3⟩ := pfCreate_fault env _ a dest t s f hf
          refine ⟨by rw [h1], ?_⟩
          rw [hasSymlinkEv_append, h3, h2]
          simp [hasSymlinkEv]

/-- A successful classification returns the detection result itself. -/
theorem pfClassify_ok_det (env : Env) (a : Args) (det : Detect)
    (h : pfClassify env a = .ok det) : det = pfDetect env a := by
  simp only [pfClassify] at h
  split at h
  · cases h
  · split at h
    · cases h
    · exact (Except.ok.inj h).symm

/-- The reconciler never touches the process-wide error flag. -/
theorem pfMain_flag (env : Env) (st1 : St) (a : Args) (force : Bool) :
    (pfMain env st1 a force).1.errorFlag = st1.errorFlag := by
  unfold pfMain
  split
  · rename_i st2 ev2 heq
    have h := (pfLedgerCheck_facts st1 a.src force).2.1
    rw [heq] at h
    exact h
  · rename_i st2 ev2 heq
    have h2 := (pfLedgerCheck_facts st1 a.src force).2.1
    rw [heq] at h2
    simp only [Flow.state] at h2
    split
    · rename_i st3 ev3 heq3
      have h3 := (pfIndexCheck_facts st2 a force).2.1
      rw [heq3] at h3
      simp only [Flow.state] at h3
      exact h3.trans h2
    · rename_i st3 ev3 heq3
      have h3 := (pfIndexCheck_facts st2 a force).2.1
      rw [heq3] at h3
      simp only [Flow.state] at h3
      split
      · exact h3.trans h2
      · split
        · exact h3.trans h2
        · exact h3.trans h2
        · rename_i det _ dest tm sn heq5
          dsimp only
          rw [(pfMaterialize_facts env st3 a dest tm sn).1, h3, h2]

/-- `process_file` never touches the process-wide error flag. -/
theorem process_file_flag (env : Env) (st0 : St) (a : Args) (force : Bool) :
    (process_file env st0 a force).1.errorFlag = st0.errorFlag := by
  unfold process_file
  split
  · rfl
  · split
    · rfl
    · exact pfMain_flag env _ a force

/-- The reconciler's trace carries a link-creation event exactly when it
returns the success tuple. -/
theorem pfMain_symlink_iff (env : Env) (st1 : St) (a : Args) (force : Bool) :
    hasSymlinkEv (pfMain env st1 a force).2.1 = true ↔
      ∃ d s, (pfMain env st1 a force).2.2 = .created d s := by
  unfold pfMain
  split
  · rename_i st2 ev2 heq
    have h := (pfLedgerCheck_facts st1 a.src force).2.2.2
    rw [heq] at h
    simp only [Flow.events] at h
    simp [h]
  · rename_i st2 ev2 heq
    have h2 := (pfLedgerCheck_facts st1 a.src force).2.2.2
    rw [heq] at h2
    simp only [Flow.events] at h2
    split
    · rename_i st3 ev3 heq3
      have h3 := (pfIndexCheck_facts st2 a force).2.2.2
      rw [heq3] at h3
      simp only [Flow.events] at h3
      simp [hasSymlinkEv_append, h2, h3]
    · rename_i st3 ev3 heq3
      have h3 := (pfIndexCheck_facts st2 a force).2.2.2
      rw [heq3] at h3
      simp only [Flow.events] at h3
      split
      · rename_i ev4 heq4
        have h4 := pfClassify_error_no_symlink env a ev4 heq4
        simp [hasSymlinkEv_append, h2, h3, h4]
      · rename_i det heq4
        have hdet : hasSymlinkEv det.ev = false := by
          rw [pfClassify_ok_det env a det heq4]
          exact pfDetect_no_symlink env a
        split
        · simp [hasSymlinkEv_append, h2, h3, hdet]
        · rename_i ev5 heq5
          have h5 := pfResolve_extraSkip_no_symlink env a det.isShow det.isAnime ev5 heq5
          simp [hasSymlinkEv_append, h2, h3, hdet, h5]
        · rename_i dest tm sn heq5
          dsimp only
          have hm := (pfMaterialize_facts env st3 a dest tm sn).2
          simp [hasSymlinkEv_append, h2, h3, hdet, hm]

/-- The trace of `process_file` carries a link-creation event exactly when
the call returns the success tuple. -/
theorem process_file_symlink_iff (env : Env) (st0 : St) (a : Args) (force : Bool) :
    hasSymlinkEv (process_file env st0 a force).2.1 = true ↔
      ∃ d s, (process_file env st0 a force).2.2 = .created d s := by
  unfold process_file
  split
  · simp [hasSymlinkEv]
  · split
    · simp [hasSymlinkEv, mI]
    · dsimp only
      rw [hasSymlinkEv_append]
      have hfev : hasSymlinkEv
          (if force then pfForce st0.fs st0.ledger a.src a.file
           else (st0.fs, [])).2 = false := by
        split
        · exact pfForce_no_symlink st0.fs st0.ledger a.src a.file
        · rfl
      rw [hfev]
      simp [pfMain_symlink_iff]

/-- A classification rejection forces the reconciler to return `None`. -/
theorem pfMain_classify_error (env : Env) (st1 : St) (a : Args) (force : Bool)
    (ev : List Event) (h : pfClassify env a = .error ev) :
    (pfMain env st1 a force).2.2 = .pynone := by
  unfold pfMain
  split
  · rfl
  · split
    · rfl
    · rw [h]

/-- A classification rejection forces `process_file` to return `None`. -/
theorem process_file_classify_error (env : Env) (st0 : St) (a : Args) (force : Bool)
    (ev : List Event) (h : pfClassify env a = .error ev) :
    (process_file env st0 a force).2.2 = .pynone := by
  unfold process_file
  split
  · rfl
  · split
    · rfl
    · exact pfMain_classify_error env _ a force ev h

/-- A run that did not return the success tuple created no link. -/
theorem process_file_no_symlink_of_pynone (env : Env) (st0 : St) (a : Args)
    (force : Bool) (h : (process_file env st0 a force).2.2 = .pynone) :
    hasSymlinkEv (process_file env st0 a force).2.1 = false := by
  cases hb : hasSymlinkEv (process_file env st0 a force).2.1 with
  | false => rfl
  | true =>
    obtain ⟨d, s, hc⟩ := (process_file_symlink_iff env st0 a force).mp hb
    rw [h] at hc
    cases hc

/-! ## Concrete worlds used by the witnesses and counterexamples -/

/-- Suffix test on the character lists (used instead of `String.endsWith`
so that concrete runs evaluate by `decide`). -/
def extIs (suf f : String) : Bool :=
  suf.data.isSuffixOf f.data

/-- A concrete environment: `.mkv` files are recognized, nothing is junk,
every basename matches the configurable anime pattern list, the resolvers
return fixed destinations, the OS never fails, and the Plex hook is
configured. -/
def envA : Env :=
  { knownType := fun f => extIs ".mkv" f
    skipExtrasFolder := true
    animePatterns := fun _ => true
    isJunkFile := fun _ _ => false
    resolveShow := fun _ => .ok ⟨some ["dest", "Shows", "A", "S1", "e.mkv"], some 7, some 1, false⟩
    resolveMovie := fun _ => .ok ⟨some ["dest", "Movies", "M", "m.mkv"], some 9⟩
    osFault := fun _ _ => none
    plexUpdate := true
    plexToken := true }

/-- The empty world. -/
def stEmpty : St := ⟨⟨[]⟩, [], false⟩

/-- Per-file arguments with no overrides and no external identifiers. -/
def plainArgs (src : Path) : Args :=
  { src := src
    file := lastStr src
    destIndex := []
    tmdbId := none
    imdbId := none
    tvdbId := none
    forceShow := false
    forceMovie := false
    seasonNumber := none
    episodeNumber := none
    forceExtra := false }

/-! ## C2 — classifier rule ordering -/

/-- C2: without override flags the detector tests the season-folder pattern
against the full path first, then the episode-marker and mini-series
patterns against the basename, then the anime patterns, and the first
match wins: a path matching the season pattern is classified Show via the
directory rule whatever the anime patterns say, and the anime branch can
fire only when the season and episode patterns both failed. -/
theorem C2_classifier_ordering (env : Env) (a : Args)
    (h1 : a.forceShow = false) (h2 : a.forceMovie = false) :
    (seasonSearch (pathStr a.src) = true →
      pfDetect env a = ⟨true, false,
        [mD ("Processing as show based on directory structure: " ++ pathStr a.src)]⟩) ∧
    ((pfDetect env a).isAnime = true →
      seasonSearch (pathStr a.src) = false ∧ episodeSearch a.file = false ∧
        miniSeriesSearch a.file = false) := by
  constructor
  · intro hs
    unfold pfDetect
    rw [if_neg (by simp [h1]), if_neg (by simp [h2]), if_pos hs]
  · intro ha
    unfold pfDetect at ha
    rw [if_neg (by simp [h1]), if_neg (by simp [h2])] at ha
    by_cases hs : seasonSearch (pathStr a.src) = true
    · rw [if_pos hs] at ha
      cases ha
    · rw [if_neg hs] at ha
      by_cases he : (episodeSearch a.file || miniSeriesSearch a.file) = true
      · rw [if_pos he] at ha
        cases ha
      · rw [if_neg he] at ha
        have hor : (episodeSearch a.file || miniSeriesSearch a.file) = false := by
          cases hcase : (episodeSearch a.file || miniSeriesSearch a.file) with
          | false => rfl
          | true => exact absurd hcase he
        have hboth := Bool.or_eq_false_iff.mp hor
        exact ⟨by simpa using hs, hboth.1, hboth.2⟩

/-- Arguments for the C2 witness: the spec's own example path, whose
basename also matches the (always-matching) anime pattern list of
`envA`. -/
def argsC2 : Args := plainArgs ["media", "Show Name", "S01", "My.Show.S01E02.mkv"]

/-- Witness for C2 at the spec's example: the path segment `S01` triggers
the directory rule even though `envA`'s anime pattern list matches the
basename. -/
theorem C2_classifier_ordering_witness :
    pfDetect envA argsC2 = ⟨true, false,
      [mD ("Processing as show based on directory structure: " ++ pathStr argsC2.src)]⟩ :=
  (C2_classifier_ordering envA argsC2 rfl rfl).1 (by decide)

/-! ## C3 — bare-hash rejection -/

/-- C3: a file whose basename matches the bare-hash pattern and that has
neither a TMDb nor an IMDb identifier is rejected by the classification
stage and the reconciler returns without creating any link. -/
theorem C3_hash_rejection (env : Env) (st : St) (a : Args) (force : Bool)
    (hh : hashSearch a.file = true) (ht : a.tmdbId = none) (hi : a.imdbId = none) :
    pfClassify env a = .error
      [mI ("Skipping file with hash lacking media identifiers: " ++ a.file)] ∧
    (process_file env st a force).2.2 = .pynone ∧
    hasSymlinkEv (process_file env st a force).2.1 = false := by
  have hcl : pfClassify env a = .error
      [mI ("Skipping file with hash lacking media identifiers: " ++ a.file)] := by
    unfold pfClassify
    rw [if_pos ⟨hh, ht, hi⟩]
  have hres := process_file_classify_error env st a force _ hcl
  exact ⟨hcl, hres, process_file_no_symlink_of_pynone env st a force hres⟩

/-- Arguments for the C3 witness: the spec's hash-named example file. -/
def argsC3 : Args := plainArgs ["src", "d41d8cd98f00b204e9800998ecf8427e.mkv"]

/-- Witness for C3 at the spec's example file. -/
theorem C3_hash_rejection_witness :
    hashSearch "d41d8cd98f00b204e9800998ecf8427e.mkv" = true ∧
    (process_file envA stEmpty argsC3 false).2.2 = .pynone ∧
    hasSymlinkEv (process_file envA stEmpty argsC3 false).2.1 = false :=
  ⟨by decide,
   (C3_hash_rejection envA stEmpty argsC3 false (by decide) rfl rfl).2.1,
   (C3_hash_rejection envA stEmpty argsC3 false (by decide) rfl rfl).2.2⟩

namespace FS

theorem islink_eq_isSome_readlink (fs : FS) (q : Path) :
    fs.islink q = (fs.readlink q).isSome := by
  unfold islink readlink
  cases h : fs.lookup q with
  | none => rfl
  | some n => cases n <;> rfl

theorem lookup_foldl_mkdirStep_not_mem (L : List Path) (q : Path) (hq : q ∉ L) :
    ∀ fs : FS, (L.foldl mkdirStep fs).lookup q = fs.lookup q := by
  induction L with
  | nil => intro fs; rfl
  | cons x rest ih =>
    intro fs
    simp only [List.foldl_cons]
    rw [ih (by intro h; exact hq (by simp [h]))]
    unfold mkdirStep
    cases hx : fs.lookup x with
    | some n => rfl
    | none =>
      rw [lookup_set, if_neg (fun h => hq (by simp [h]))]

theorem lookup_mkdirp_not_prefix (fs : FS) (p q : Path) (h : q ∉ prefixes p) :
    (fs.mkdirp p).lookup q = fs.lookup q :=
  lookup_foldl_mkdirStep_not_mem _ q h fs

theorem mem_prefixes_length_le (p q : Path) (h : q ∈ prefixes p) :
    q.length ≤ p.length := by
  unfold prefixes at h
  obtain ⟨i, _, hq⟩ := List.mem_map.mp h
  subst hq
  simp

theorem self_not_mem_prefixes_dropLast (p : Path) : p ∉ prefixes p.dropLast := by
  intro h
  have hle := mem_prefixes_length_le p.dropLast p h
  cases p with
  | nil => cases h
  | cons x xs =>
    rw [List.length_dropLast] at hle
    simp only [List.length_cons] at hle
    omega

end FS

/-! ## C5 — no clobber of regular files (corrected: the skip is reported at
INFO level, not WARNING) -/

/-- Whether a trace contains a message of a given level. -/
def hasLevel (ev : List Event) (lvl : String) : Bool :=
  ev.any (fun e => match e with | .msg _ l => l == lvl | _ => false)

/-- C5 (amended): when the computed destination is occupied by an existing
non-link entry, materialization creates no link, leaves the ledger and the
occupying entry untouched, and reports the skip as an INFO-level message. -/
theorem C5_no_clobber (env : Env) (st : St) (a : Args) (dest : Path)
    (t s : Option Nat)
    (hnl : (st.fs.mkdirp dest.dropLast).readlink dest = none)
    (hex : (st.fs.mkdirp dest.dropLast).pexists dest = true) :
    pfMaterialize env st a (some dest) t s =
      (⟨st.fs.mkdirp dest.dropLast, st.ledger, st.errorFlag⟩,
       [Event.fsMkdirs dest.dropLast,
        Event.msg ("File already exists at destination: " ++ lastStr dest) "INFO"],
       .pynone) ∧
    (st.fs.mkdirp dest.dropLast).lookup dest = st.fs.lookup dest := by
  constructor
  · simp only [pfMaterialize]
    rw [hnl]
    rw [if_pos ⟨hex, by rw [FS.islink_eq_isSome_readlink, hnl]; simp⟩]
    rfl
  · exact FS.lookup_mkdirp_not_prefix st.fs dest.dropLast dest
      (FS.self_not_mem_prefixes_dropLast dest)

/-- The filesystem for the C5 counterexample: a regular file already sits
at the destination that `envA`'s show resolver computes. -/
def stC5 : St :=
  ⟨⟨[(["src"], .dir), (["src", "occupied.mkv"], .file),
     (["dest"], .dir), (["dest", "Shows"], .dir), (["dest", "Shows", "A"], .dir),
     (["dest", "Shows", "A", "S1"], .dir),
     (["dest", "Shows", "A", "S1", "e.mkv"], .file)]⟩, [], false⟩

/-- Counterexample for C5 as stated: at a concrete input whose destination
is occupied by a regular file, the skip is reported — but at level INFO;
the trace contains no WARNING-level message at all.  (No link is created
and the occupying file is untouched, as the claim also says.) -/
theorem C5_counterexample :
    Event.msg ("File already exists at destination: " ++ "e.mkv") "INFO"
        ∈ (process_file envA stC5 (plainArgs ["src", "occupied.mkv"]) false).2.1 ∧
    hasLevel (process_file envA stC5 (plainArgs ["src", "occupied.mkv"]) false).2.1
        "WARNING" = false ∧
    (process_file envA stC5 (plainArgs ["src", "occupied.mkv"]) false).2.2 = .pynone ∧
    (process_file envA stC5 (plainArgs ["src", "occupied.mkv"]) false).1.fs.lookup
        ["dest", "Shows", "A", "S1", "e.mkv"] = some .file :=
  ⟨by decide, by decide, by decide, by decide⟩

/-- Witness for C5 (amended) at the counterexample world. -/
theorem C5_no_clobber_witness :
    pfMaterialize envA stC5 (plainArgs ["src", "occupied.mkv"])
        (some ["dest", "Shows", "A", "S1", "e.mkv"]) (some 7) (some 1) =
      (⟨stC5.fs.mkdirp ["dest", "Shows", "A", "S1", "e.mkv"].dropLast, stC5.ledger,
        stC5.errorFlag⟩,
       [Event.fsMkdirs ["dest", "Shows", "A", "S1", "e.mkv"].dropLast,
        Event.msg ("File already exists at destination: " ++
          lastStr ["dest", "Shows", "A", "S1", "e.mkv"]) "INFO"],
       .pynone) :=
  (C5_no_clobber envA stC5 (plainArgs ["src", "occupied.mkv"])
    ["dest", "Shows", "A", "S1", "e.mkv"] (some 7) (some 1)
    (by decide) (by decide)).1

/-! ## C7 — junk rejection (corrected: the extension check runs before any
pattern test, but the size-based junk check runs after pattern detection —
still before resolution and link creation) -/

/-- C7 (amended): the unknown-extension rejection is applied before
anything else (even the force path) and produces no link; the size-based
junk rejection is applied directly after pattern detection — before the
resolvers run — and a junk file never produces a link. -/
theorem C7_junk_rejection (env : Env) (st : St) (a : Args) (force : Bool) :
    (st.errorFlag = false → env.knownType a.file = false →
      process_file env st a force =
        (st, [mI ("Skipping unsupported file type: " ++ a.file)], .pynone)) ∧
    (env.isJunkFile a.file a.src = true →
      ¬ (hashSearch a.file = true ∧ a.tmdbId = none ∧ a.imdbId = none) →
      pfClassify env a = .error
        ((pfDetect env a).ev ++ [mD ("Skipping Junk files: " ++ a.file ++ " based on size")])) ∧
    (env.isJunkFile a.file a.src = true →
      (process_file env st a force).2.2 = .pynone ∧
      hasSymlinkEv (process_file env st a force).2.1 = false) := by
  refine ⟨?_, ?_, ?_⟩
  · intro hflag hk
    unfold process_file
    rw [if_neg (by simp [hflag]), if_pos (by simp [hk])]
  · intro hjunk hh
    simp only [pfClassify]
    rw [if_neg hh, if_pos hjunk]
  · intro hjunk
    have herr : ∃ ev, pfClassify env a = .error ev := by
      simp only [pfClassify]
      by_cases hh : hashSearch a.file = true ∧ a.tmdbId = none ∧ a.imdbId = none
      · exact ⟨_, by rw [if_pos hh]⟩
      · exact ⟨_, by rw [if_neg hh, if_pos hjunk]⟩
    obtain ⟨ev, herr⟩ := herr
    have hres := process_file_classify_error env st a force ev herr
    exact ⟨hres, process_file_no_symlink_of_pynone env st a force hres⟩

/-- The environment for the C7 counterexample: every file is below the
size threshold. -/
def envC7 : Env := { envA with isJunkFile := fun _ _ => true }

/-- Counterexample for C7 as stated: at a concrete undersized file in a
season folder, the emitted trace shows the season-directory pattern being
tested (and matching) BEFORE the size-based junk rejection — the junk rule
is not applied before the pattern rules, it is applied after them. -/
theorem C7_counterexample :
    (process_file envC7 stEmpty (plainArgs ["media", "ShowY", "S01", "clip.mkv"]) false).2.1 =
      [mD ("Processing as show based on directory structure: " ++
        pathStr ["media", "ShowY", "S01", "clip.mkv"]),
       mD ("Skipping Junk files: " ++ "clip.mkv" ++ " based on size")] ∧
    (process_file envC7 stEmpty (plainArgs ["media", "ShowY", "S01", "clip.mkv"]) false).2.2 =
      .pynone :=
  ⟨by decide, by decide⟩

/-! ## C8 — temporal ordering on success -/

/-- Inversion of a successful materialization: success can only come from
the guarded `os.symlink` block, whose effects appear in the trace in the
order link-creation, ledger write, notification hook. -/
theorem pfMaterialize_created (env : Env) (st : St) (a : Args) (d? : Option Path)
    (t s : Option Nat) (d src : Path)
    (h : (pfMaterialize env st a d? t s).2.2 = .created d src) :
    d? = some d ∧ src = a.src ∧ env.osFault a.src d = none ∧
    ∃ pre,
      (pfMaterialize env st a d? t s).2.1 =
        pre ++ ([Event.fsSymlink d a.src,
          mI ("Created symlink: " ++ pathStr d ++ " -> " ++ pathStr a.src),
          Event.ledgerSave a.src d t s] ++
         (if env.plexUpdate ∧ env.plexToken then [Event.plexRefresh d] else [])) ∧
      hasSymlinkEv pre = false ∧
      (pfMaterialize env st a d? t s).1.ledger =
        save_processed_file st.ledger a.src d t s := by
  cases d? with
  | none => cases h
  | some dest =>
    simp only [pfMaterialize] at h ⊢
    cases heqt : (st.fs.mkdirp dest.dropLast).readlink dest with
    | some tgt =>
      rw [heqt] at h
      dsimp only at h ⊢
      by_cases htgt : tgt = a.src
      · rw [if_pos htgt] at h
        cases h
      · rw [if_neg htgt] at h ⊢
        by_cases hocc : ((st.fs.mkdirp dest.dropLast).remove dest).pexists dest = true ∧
            ¬ ((st.fs.mkdirp dest.dropLast).remove dest).islink dest = true
        · rw [if_pos hocc] at h
          cases h
        · rw [if_neg hocc] at h ⊢
          cases hf : env.osFault a.src dest with
          | some f =>
            obtain ⟨_, hres, _⟩ := pfCreate_fault env
              ⟨(st.fs.mkdirp dest.dropLast).remove dest, st.ledger, st.errorFlag⟩
              a dest t s f hf
            rw [hres] at h
            cases h
          | none =>
            rw [pfCreate_ok _ _ _ _ _ _ hf] at h ⊢
            obtain ⟨hd, hsrc⟩ := PFResult.created.inj h
            subst hd
            subst hsrc
            refine ⟨rfl, rfl, hf, ?_⟩
            refine ⟨[Event.fsMkdirs dest.dropLast,
              mI ("Updating existing symlink: " ++ pathStr dest ++ " -> " ++
                pathStr a.src ++ " (was: " ++ pathStr tgt ++ ")"),
              Event.fsRemove dest], rfl, by simp [hasSymlinkEv, mI], rfl⟩
    | none =>
      rw [heqt] at h
      dsimp only at h ⊢
      by_cases hocc : (st.fs.mkdirp dest.dropLast).pexists dest = true ∧
          ¬ (st.fs.mkdirp dest.dropLast).islink dest = true
      · rw [if_pos hocc] at h
        cases h
      · rw [if_neg hocc] at h ⊢
        cases hf : env.osFault a.src dest with
        | some f =>
          obtain ⟨_, hres, _⟩ := pfCreate_fault env
            ⟨st.fs.mkdirp dest.dropLast, st.ledger, st.errorFlag⟩ a dest t s f hf
          rw [hres] at h
          cases h
        | none =>
          rw [pfCreate_ok _ _ _ _ _ _ hf] at h ⊢
          obtain ⟨hd, hsrc⟩ := PFResult.created.inj h
          subst hd
          subst hsrc
          exact ⟨rfl, rfl, hf, ⟨[Event.fsMkdirs dest.dropLast], rfl,
            by simp [hasSymlinkEv], rfl⟩⟩

/-- Lift of the success inversion through the reconciler body. -/
theorem pfMain_created (env : Env) (st1 : St) (a : Args) (force : Bool)
    (d s : Path) (h : (pfMain env st1 a force).2.2 = .created d s) :
    s = a.src ∧ env.osFault a.src d = none ∧
    ∃ pre t sn,
      (pfMain env st1 a force).2.1 =
        pre ++ ([Event.fsSymlink d a.src,
          mI ("Created symlink: " ++ pathStr d ++ " -> " ++ pathStr a.src),
          Event.ledgerSave a.src d t sn] ++
         (if env.plexUpdate ∧ env.plexToken then [Event.plexRefresh d] else [])) ∧
      hasSymlinkEv pre = false ∧
      get_destination_path (pfMain env st1 a force).1.ledger a.src = some d := by
  unfold pfMain at h ⊢
  split at h
  · cases h
  · rename_i st2 ev2 heq
    have h2 := (pfLedgerCheck_facts st1 a.src force).2.2.2
    rw [heq] at h2
    simp only [Flow.events] at h2
    split at h
    · cases h
    · rename_i st3 ev3 heq3
      have h3 := (pfIndexCheck_facts st2 a force).2.2.2
      rw [heq3] at h3
      simp only [Flow.events] at h3
      split at h
      · cases h
      · rename_i det heq4
        have hdet : hasSymlinkEv det.ev = false := by
          rw [pfClassify_ok_det env a det heq4]
          exact pfDetect_no_symlink env a
        split at h
        · cases h
        · cases h
        · rename_i dest tm sn heq5
          dsimp only at h ⊢
          obtain ⟨hd?, hsrc, hok, pre0, hev, hpre0, hled⟩ :=
            pfMaterialize_created env st3 a dest tm sn d s h
          refine ⟨hsrc, hok, ev2 ++ ev3 ++ det.ev ++ pre0, tm, sn, ?_, ?_, ?_⟩
          · rw [hev]
            simp only [List.append_assoc]
          · simp only [hasSymlinkEv_append, h2, h3, hdet, hpre0, Bool.or_self]
          · rw [hled]
            subst hsrc
            exact gdp_save_self st3.ledger a.src d tm sn

/-- C8: whenever `process_file` returns the success tuple
`(dest, created, src)`, the source is the file's own path and the trace
shows — in order — the symbolic-link creation, then the ledger write that
records it, then (when configured) the notification hook, with no
link event before them; the final ledger maps the source to the created
destination. -/
theorem C8_success_ordering (env : Env) (st0 : St) (a : Args) (force : Bool)
    (d s : Path) (h : (process_file env st0 a force).2.2 = .created d s) :
    s = a.src ∧
    ∃ pre t sn,
      (process_file env st0 a force).2.1 =
        pre ++ ([Event.fsSymlink d a.src,
          mI ("Created symlink: " ++ pathStr d ++ " -> " ++ pathStr a.src),
          Event.ledgerSave a.src d t sn] ++
         (if env.plexUpdate ∧ env.plexToken then [Event.plexRefresh d] else [])) ∧
      hasSymlinkEv pre = false ∧
      get_destination_path (process_file env st0 a force).1.ledger a.src = some d := by
  by_cases hf : st0.errorFlag = true
  · unfold process_file at h
    rw [if_pos hf] at h
    cases h
  · by_cases hk : ¬ env.knownType a.file = true
    · unfold process_file at h
      rw [if_neg hf, if_pos hk] at h
      cases h
    · unfold process_file at h ⊢
      rw [if_neg hf, if_neg hk] at h ⊢
      dsimp only at h ⊢
      obtain ⟨hsrc, _, pre1, t, sn, hev, hpre1, hled⟩ := pfMain_created env _ a force d s h
      refine ⟨hsrc, (if force then pfForce st0.fs st0.ledger a.src a.file
        else (st0.fs, [])).2 ++ pre1, t, sn, ?_, ?_, hled⟩
      · rw [hev]
        simp only [List.append_assoc]
      · have hfev : hasSymlinkEv
            (if force then pfForce st0.fs st0.ledger a.src a.file
             else (st0.fs, [])).2 = false := by
          split
          · exact pfForce_no_symlink st0.fs st0.ledger a.src a.file
          · rfl
        simp only [hasSymlinkEv_append, hfev, hpre1, Bool.or_self]

/-- The world for the C8 witness: one plain source file and an empty
destination tree. -/
def stC8 : St :=
  ⟨⟨[(["src"], .dir), (["src", "x.mkv"], .file), (["dest"], .dir)]⟩, [], false⟩

/-- Arguments for the C8 witness. -/
def argsC8 : Args := plainArgs ["src", "x.mkv"]

/-- Witness for C8: a concrete successful run of the reconciler, with the
Plex hook configured. -/
theorem C8_success_ordering_witness :
    (["src", "x.mkv"] : Path) = argsC8.src ∧
    ∃ pre t sn,
      (process_file envA stC8 argsC8 false).2.1 =
        pre ++ ([Event.fsSymlink ["dest", "Shows", "A", "S1", "e.mkv"] argsC8.src,
          mI ("Created symlink: " ++ pathStr ["dest", "Shows", "A", "S1", "e.mkv"] ++
            " -> " ++ pathStr argsC8.src),
          Event.ledgerSave argsC8.src ["dest", "Shows", "A", "S1", "e.mkv"] t sn] ++
         (if envA.plexUpdate ∧ envA.plexToken then
            [Event.plexRefresh ["dest", "Shows", "A", "S1", "e.mkv"]] else [])) ∧
      hasSymlinkEv pre = false ∧
      get_destination_path (process_file envA stC8 argsC8 false).1.ledger argsC8.src =
        some ["dest", "Shows", "A", "S1", "e.mkv"] :=
  C8_success_ordering envA stC8 argsC8 false ["dest", "Shows", "A", "S1", "e.mkv"]
    ["src", "x.mkv"] (by decide)

/-! ## C4 — rename detection -/

/-- Without force, once past the flag and file-type guards, `process_file`
is exactly its main body. -/
theorem process_file_noforce (env : Env) (st0 : St) (a : Args)
    (hf : st0.errorFlag = false) (hk : env.knownType a.file = true) :
    process_file env st0 a false = pfMain env st0 a false := by
  unfold process_file
  rw [if_neg (by simp [hf]), if_neg (by simp [hk])]
  rfl

/-- C4: when the ledger records a destination `A` for the source, `A` is
gone from disk, and the scan of `A`'s former directory finds a link (named
`n`) that resolves to the source, the non-force run performs exactly the
rename update: the filesystem is untouched, the ledger record now maps the
source to the found link, and no link is created. -/
theorem C4_rename_detection (env : Env) (st : St) (a : Args) (A : Path) (n : String)
    (hflag : st.errorFlag = false) (hknown : env.knownType a.file = true)
    (hled : get_destination_path st.ledger a.src = some A)
    (hmiss : st.fs.pexists A = false)
    (hdir : st.fs.pexists A.dropLast = true)
    (hfound : findRenamedName st.fs A.dropLast a.src = some n) :
    process_file env st a false =
      (⟨st.fs, update_renamed_file st.ledger A (A.dropLast ++ [n]), st.errorFlag⟩,
       [mI ("Detected renamed file: " ++ pathStr A ++ " -> " ++
          pathStr (A.dropLast ++ [n])),
        Event.ledgerRename A (A.dropLast ++ [n])],
       .pynone) ∧
    get_destination_path (process_file env st a false).1.ledger a.src =
      some (A.dropLast ++ [n]) ∧
    hasSymlinkEv (process_file env st a false).2.1 = false := by
  have hlc : pfLedgerCheck st a.src false =
      .exit ⟨st.fs, update_renamed_file st.ledger A (A.dropLast ++ [n]), st.errorFlag⟩
        [mI ("Detected renamed file: " ++ pathStr A ++ " -> " ++
          pathStr (A.dropLast ++ [n])),
         Event.ledgerRename A (A.dropLast ++ [n])] := by
    simp only [pfLedgerCheck]
    rw [hled]
    dsimp only
    rw [if_neg (by simp), if_pos (by simp [hmiss]), if_pos hdir, hfound]
  have hE : process_file env st a false =
      (⟨st.fs, update_renamed_file st.ledger A (A.dropLast ++ [n]), st.errorFlag⟩,
       [mI ("Detected renamed file: " ++ pathStr A ++ " -> " ++
          pathStr (A.dropLast ++ [n])),
        Event.ledgerRename A (A.dropLast ++ [n])],
       .pynone) := by
    rw [process_file_noforce env st a hflag hknown]
    unfold pfMain
    rw [hlc]
  refine ⟨hE, ?_, ?_⟩
  · rw [hE]
    exact gdp_update_renamed st.ledger a.src A (A.dropLast ++ [n]) hled
  · rw [hE]
    simp [hasSymlinkEv, mI]

/-- The world for the C4 witness: the recorded destination is gone and a
renamed link to the source sits in its former directory. -/
def stC4 : St :=
  ⟨⟨[(["src"], .dir), (["src", "a.mkv"], .file),
     (["dest"], .dir), (["dest", "ShowX"], .dir),
     (["dest", "ShowX", "b.mkv"], .symlink ["src", "a.mkv"])]⟩,
   [(["src", "a.mkv"], ⟨["dest", "ShowX", "a.mkv"], some 3, none⟩)], false⟩

/-- Witness for C4 at a concrete world. -/
theorem C4_rename_detection_witness :
    process_file envA stC4 (plainArgs ["src", "a.mkv"]) false =
      (⟨stC4.fs,
        update_renamed_file stC4.ledger ["dest", "ShowX", "a.mkv"]
          (["dest", "ShowX", "a.mkv"].dropLast ++ ["b.mkv"]),
        stC4.errorFlag⟩,
       [mI ("Detected renamed file: " ++ pathStr ["dest", "ShowX", "a.mkv"] ++ " -> " ++
          pathStr (["dest", "ShowX", "a.mkv"].dropLast ++ ["b.mkv"])),
        Event.ledgerRename ["dest", "ShowX", "a.mkv"]
          (["dest", "ShowX", "a.mkv"].dropLast ++ ["b.mkv"])],
       .pynone) :=
  (C4_rename_detection envA stC4 (plainArgs ["src", "a.mkv"])
    ["dest", "ShowX", "a.mkv"] "b.mkv" rfl (by decide) (by decide) (by decide)
    (by decide) (by decide)).1

/-! ## C10 — force-mode removal is not rolled back -/

namespace FS

theorem islink_remove (fs : FS) (p q : Path) :
    (fs.remove p).islink q = if q = p then false else fs.islink q := by
  unfold islink
  rw [lookup_remove]
  by_cases h : q = p
  · rw [if_pos h, if_pos h]
  · rw [if_neg h, if_neg h]

theorem islink_mkdirp (fs : FS) (p q : Path) :
    (fs.mkdirp p).islink q = fs.islink q := by
  rw [islink_eq_isSome_readlink, islink_eq_isSome_readlink, readlink_mkdirp]

end FS

/-- In force mode, once the force flag finds a prior link, the trace shows
its removal. -/
theorem pfForce_remove_mem (fs : FS) (led : Ledger) (src : Path) (file : String)
    (P : Path) (hex : get_existing_symlink_info fs led src = some P) :
    Event.fsRemove P ∈ (pfForce fs led src file).2 := by
  simp only [pfForce]
  rw [hex]
  dsimp only
  split
  · split <;> simp
  · simp

/-- The force block leaves no link at the removed path. -/
theorem pfForce_islink_false (fs : FS) (led : Ledger) (src : Path) (file : String)
    (P : Path) (hex : get_existing_symlink_info fs led src = some P) :
    (pfForce fs led src file).1.islink P = false := by
  simp only [pfForce]
  rw [hex]
  dsimp only
  split
  · split
    · simp [FS.islink_remove]
    · simp [FS.islink_remove]
  · simp [FS.islink_remove]

/-- Materialization that did not return the success tuple never turns the
given path into a link it was not already. -/
theorem pfMaterialize_islink_false (env : Env) (st : St) (a : Args)
    (d? : Option Path) (t s : Option Nat) (P : Path)
    (hP : st.fs.islink P = false)
    (hres : (pfMaterialize env st a d? t s).2.2 = .pynone) :
    (pfMaterialize env st a d? t s).1.fs.islink P = false := by
  cases d? with
  | none => exact hP
  | some dest =>
    simp only [pfMaterialize] at hres ⊢
    have hP1 : ((st.fs.mkdirp dest.dropLast)).islink P = false := by
      rw [FS.islink_mkdirp]
      exact hP
    have hP2 : ((st.fs.mkdirp dest.dropLast).remove dest).islink P = false := by
      rw [FS.islink_remove]
      split
      · rfl
      · exact hP1
    cases heqt : (st.fs.mkdirp dest.dropLast).readlink dest with
    | some tgt =>
      rw [heqt] at hres
      dsimp only at hres ⊢
      by_cases htgt : tgt = a.src
      · rw [if_pos htgt]
        exact hP1
      · rw [if_neg htgt] at hres ⊢
        by_cases hocc : ((st.fs.mkdirp dest.dropLast).remove dest).pexists dest = true ∧
            ¬ ((st.fs.mkdirp dest.dropLast).remove dest).islink dest = true
        · rw [if_pos hocc]
          exact hP2
        · rw [if_neg hocc] at hres ⊢
          cases hf : env.osFault a.src dest with
          | none =>
            rw [pfCreate_ok _ _ _ _ _ _ hf] at hres
            cases hres
          | some f =>
            obtain ⟨h1, _, _⟩ := pfCreate_fault env
              ⟨(st.fs.mkdirp dest.dropLast).remove dest, st.ledger, st.errorFlag⟩
              a dest t s f hf
            rw [h1]
            exact hP2
    | none =>
      rw [heqt] at hres
      dsimp only at hres ⊢
      by_cases hocc : (st.fs.mkdirp dest.dropLast).pexists dest = true ∧
          ¬ (st.fs.mkdirp dest.dropLast).islink dest = true
      · rw [if_pos hocc]
        exact hP1
      · rw [if_neg hocc] at hres ⊢
        cases hf : env.osFault a.src dest with
        | none =>
          rw [pfCreate_ok _ _ _ _ _ _ hf] at hres
          cases hres
        | some f =>
          obtain ⟨h1, _, _⟩ := pfCreate_fault env
            ⟨st.fs.mkdirp dest.dropLast, st.ledger, st.errorFlag⟩ a dest t s f hf
          rw [h1]
          exact hP1

/-- A reconciler body that did not return the success tuple never turns
the given path into a link it was not already. -/
theorem pfMain_islink_false (env : Env) (st1 : St) (a : Args) (force : Bool)
    (P : Path) (hP : st1.fs.islink P = false)
    (hres : (pfMain env st1 a force).2.2 = .pynone) :
    (pfMain env st1 a force).1.fs.islink P = false := by
  cases heq : pfLedgerCheck st1 a.src force with
  | exit st2 ev2 =>
    have hfs := (pfLedgerCheck_facts st1 a.src force).1
    rw [heq] at hfs
    simp only [Flow.state] at hfs
    unfold pfMain
    rw [heq]
    dsimp only
    rw [hfs]
    exact hP
  | cont st2 ev2 =>
    have hfs2 := (pfLedgerCheck_facts st1 a.src force).1
    rw [heq] at hfs2
    simp only [Flow.state] at hfs2
    unfold pfMain at hres ⊢
    rw [heq] at hres ⊢
    dsimp only at hres ⊢
    cases heq3 : pfIndexCheck st2 a force with
    | exit st3 ev3 =>
      have hfs3 := (pfIndexCheck_facts st2 a force).1
      rw [heq3] at hfs3
      simp only [Flow.state] at hfs3
      dsimp only
      rw [hfs3, hfs2]
      exact hP
    | cont st3 ev3 =>
      have hfs3 := (pfIndexCheck_facts st2 a force).1
      rw [heq3] at hfs3
      simp only [Flow.state] at hfs3
      rw [heq3] at hres
      dsimp only at hres ⊢
      cases heq4 : pfClassify env a with
      | error ev4 =>
        dsimp only
        rw [hfs3, hfs2]
        exact hP
      | ok det =>
        rw [heq4] at hres
        dsimp only at hres ⊢
        cases heq5 : pfResolve env a det.isShow det.isAnime with
        | raisedR e =>
          rw [heq5] at hres
          cases hres
        | extraSkip ev5 =>
          dsimp only
          rw [hfs3, hfs2]
          exact hP
        | resolved dest tm sn =>
          rw [heq5] at hres
          dsimp only at hres ⊢
          exact pfMaterialize_islink_false env st3 a dest tm sn P
            (by rw [hfs3, hfs2]; exact hP) hres

/-- C10: in force mode, a prior link found for the source is removed in
the force block — before any classification happens — and when the
subsequent processing produces no new link the removal stands: the run
ends with no link at the removed path and no link-creation event at all. -/
theorem C10_force_removal (env : Env) (st : St) (a : Args) (P : Path)
    (hflag : st.errorFlag = false) (hknown : env.knownType a.file = true)
    (hex : get_existing_symlink_info st.fs st.ledger a.src = some P) :
    (∃ rest, (process_file env st a true).2.1 =
        (pfForce st.fs st.ledger a.src a.file).2 ++ rest ∧
      Event.fsRemove P ∈ (pfForce st.fs st.ledger a.src a.file).2) ∧
    ((process_file env st a true).2.2 = .pynone →
      hasSymlinkEv (process_file env st a true).2.1 = false ∧
      (process_file env st a true).1.fs.islink P = false) := by
  have hE : process_file env st a true =
      ((pfMain env ⟨(pfForce st.fs st.ledger a.src a.file).1, st.ledger,
          st.errorFlag⟩ a true).1,
       (pfForce st.fs st.ledger a.src a.file).2 ++
         (pfMain env ⟨(pfForce st.fs st.ledger a.src a.file).1, st.ledger,
           st.errorFlag⟩ a true).2.1,
       (pfMain env ⟨(pfForce st.fs st.ledger a.src a.file).1, st.ledger,
         st.errorFlag⟩ a true).2.2) := by
    unfold process_file
    rw [if_neg (by simp [hflag]), if_neg (by simp [hknown])]
    rfl
  constructor
  · refine ⟨(pfMain env ⟨(pfForce st.fs st.ledger a.src a.file).1, st.ledger,
      st.errorFlag⟩ a true).2.1, ?_, pfForce_remove_mem st.fs st.ledger a.src a.file P hex⟩
    rw [hE]
  · intro hres
    refine ⟨process_file_no_symlink_of_pynone env st a true hres, ?_⟩
    rw [hE] at hres ⊢
    exact pfMain_islink_false env _ a true P
      (pfForce_islink_false st.fs st.ledger a.src a.file P hex) hres

/-- The environment for the C10 witness: everything is junk by size. -/
def envC10 : Env := { envA with isJunkFile := fun _ _ => true }

/-- The world for the C10 witness: the ledger and destination tree hold a
prior link for the source. -/
def stC10 : St :=
  ⟨⟨[(["src"], .dir), (["src", "y.mkv"], .file),
     (["dest"], .dir), (["dest", "Shows"], .dir), (["dest", "Shows", "Old"], .dir),
     (["dest", "Shows", "Old", "y.mkv"], .symlink ["src", "y.mkv"])]⟩,
   [(["src", "y.mkv"], ⟨["dest", "Shows", "Old", "y.mkv"], some 5, none⟩)], false⟩

/-- Witness for C10: the forced run removes the prior link, then rejects
the file as junk, and ends with no link at all for the source. -/
theorem C10_force_removal_witness :
    Event.fsRemove ["dest", "Shows", "Old", "y.mkv"]
        ∈ (pfForce stC10.fs stC10.ledger ["src", "y.mkv"] "y.mkv").2 ∧
    (process_file envC10 stC10 (plainArgs ["src", "y.mkv"]) true).2.2 = .pynone ∧
    hasSymlinkEv (process_file envC10 stC10 (plainArgs ["src", "y.mkv"]) true).2.1 = false ∧
    (process_file envC10 stC10 (plainArgs ["src", "y.mkv"]) true).1.fs.islink
      ["dest", "Shows", "Old", "y.mkv"] = false := by
  have h := C10_force_removal envC10 stC10 (plainArgs ["src", "y.mkv"])
    ["dest", "Shows", "Old", "y.mkv"] rfl (by decide) (by decide)
  have hres : (process_file envC10 stC10 (plainArgs ["src", "y.mkv"]) true).2.2 =
      .pynone := by decide
  obtain ⟨⟨rest, _, hmem⟩, himp⟩ := h
  obtain ⟨hns, hlk⟩ := himp hres
  exact ⟨hmem, hres, hns, hlk⟩

/-! ## C1 — the entry point's return contract -/

/-- Concrete orchestrator arguments shared by the witnesses. -/
def csA : CSArgs :=
  { srcDirs := [["src"]]
    destDir := ["dest"]
    force := false
    monitor := false
    tmdbId := none
    imdbId := none
    tvdbId := none
    forceShow := false
    forceMovie := false
    seasonNumber := none
    episodeNumber := none
    forceExtra := false }

/-- Counterexample for C1 as stated: at a concrete call, `create_symlinks`
returns `None` — not a `Summary{processed_count, total_count}` value. -/
theorem C1_counterexample :
    (create_symlinks envA csA stEmpty).returnValue = none ∧
    (create_symlinks envA csA stEmpty).returnValue ≠
      some ⟨(create_symlinks envA csA stEmpty).counter,
            (create_symlinks envA csA stEmpty).total⟩ :=
  ⟨by decide, by decide⟩

/-- C1 (amended): every call of `create_symlinks` returns `None`; the
counts reach the caller only through emitted messages — the run always
starts with a message stating the total, and when neither the dispatch
walk nor the completion loop was cut short by the error flag it ends with
a completion message stating the processed counter. -/
theorem C1_return_contract (env : Env) (cs : CSArgs) (st0 : St) :
    (create_symlinks env cs st0).returnValue = none ∧
    mI ("Starting to process " ++ toString (create_symlinks env cs st0).total ++
        " files...") ∈ (create_symlinks env cs st0).events ∧
    ((create_symlinks env cs st0).abortedDispatch = false →
     (create_symlinks env cs st0).halted = false →
      mI ("Processing completed. Successfully processed " ++
          toString (create_symlinks env cs st0).counter ++ " files.")
        ∈ (create_symlinks env cs st0).events) := by
  unfold create_symlinks
  dsimp only
  split
  · refine ⟨rfl, by simp, ?_⟩
    intro habort _
    cases habort
  · refine ⟨rfl, by simp, ?_⟩
    intro _ hhalt
    dsimp only at hhalt
    rw [if_neg (by simp [hhalt])]
    simp

/-- Witness for C1 (amended) at a concrete call. -/
theorem C1_return_contract_witness :
    (create_symlinks envA csA stEmpty).returnValue = none ∧
    mI ("Starting to process " ++ toString (create_symlinks envA csA stEmpty).total ++
        " files...") ∈ (create_symlinks envA csA stEmpty).events ∧
    mI ("Processing completed. Successfully processed " ++
        toString (create_symlinks envA csA stEmpty).counter ++ " files.")
      ∈ (create_symlinks envA csA stEmpty).events :=
  ⟨(C1_return_contract envA csA stEmpty).1,
   (C1_return_contract envA csA stEmpty).2.1,
   (C1_return_contract envA csA stEmpty).2.2 (by decide) (by decide)⟩

/-! ## C6 — error isolation and the global error flag -/

/-- Once the flag is set, the completion loop halts immediately: state and
results are left as they are. -/
theorem completeTasks_flag_stop (env : Env) (cs : CSArgs) (tasks : List Args)
    (acc : CompAcc) (h : acc.st.errorFlag = true) :
    (completeTasks env cs tasks acc).st = acc.st ∧
    (completeTasks env cs tasks acc).results = acc.results := by
  cases tasks with
  | nil => exact ⟨rfl, rfl⟩
  | cons t rest =>
    unfold completeTasks
    rw [if_pos h]
    exact ⟨rfl, rfl⟩

/-- The completion loop only appends to the executed-results list. -/
theorem completeTasks_results_prefix (env : Env) (cs : CSArgs) (tasks : List Args) :
    ∀ acc : CompAcc, ∃ added,
      (completeTasks env cs tasks acc).results = acc.results ++ added := by
  induction tasks with
  | nil => intro acc; exact ⟨[], by simp [completeTasks]⟩
  | cons t rest ih =>
    intro acc
    simp only [completeTasks]
    split
    · exact ⟨[], by simp⟩
    · split
      · rename_i e heq
        obtain ⟨added, hadd⟩ := ih _
        exact ⟨(process_file env acc.st t cs.force).2.2 :: added, by
          rw [hadd]; simp⟩
      · rename_i d s heq
        obtain ⟨added, hadd⟩ := ih _
        exact ⟨(process_file env acc.st t cs.force).2.2 :: added, by
          rw [hadd]; simp⟩
      · rename_i heq
        obtain ⟨added, hadd⟩ := ih _
        exact ⟨(process_file env acc.st t cs.force).2.2 :: added, by
          rw [hadd]; simp⟩

/-- When no executed task raised, the flag stays clear, the loop never
halts, and every dispatched task is executed. -/
theorem completeTasks_all_ok (env : Env) (cs : CSArgs) (tasks : List Args) :
    ∀ acc : CompAcc, acc.st.errorFlag = false → acc.halted = false →
      (∀ e, PFResult.raised e ∉ (completeTasks env cs tasks acc).results) →
      (completeTasks env cs tasks acc).st.errorFlag = false ∧
      (completeTasks env cs tasks acc).results.length =
        acc.results.length + tasks.length ∧
      (completeTasks env cs tasks acc).halted = false := by
  induction tasks with
  | nil =>
    intro acc h1 h2 _
    exact ⟨h1, by simp [completeTasks], h2⟩
  | cons t rest ih =>
    intro acc h1 h2 hnr
    simp only [completeTasks] at hnr ⊢
    rw [if_neg (by simp [h1])] at hnr ⊢
    cases heq : (process_file env acc.st t cs.force).2.2 with
    | raised e =>
      rw [heq] at hnr
      dsimp only at hnr ⊢
      exfalso
      obtain ⟨added, hadd⟩ := completeTasks_results_prefix env cs rest
        ⟨⟨(process_file env acc.st t cs.force).1.fs,
          (process_file env acc.st t cs.force).1.ledger, true⟩,
         acc.ctr,
         acc.evs ++ (process_file env acc.st t cs.force).2.1 ++
           [mE ("Error processing task: " ++ e)],
         acc.results ++ [PFResult.raised e], acc.halted⟩
      refine hnr e ?_
      rw [hadd]
      simp
    | created d s =>
      rw [heq] at hnr
      dsimp only at hnr ⊢
      have hflag : ((process_file env acc.st t cs.force).1).errorFlag = false :=
        (process_file_flag env acc.st t cs.force).trans h1
      obtain ⟨hA, hB, hC⟩ := ih
        ⟨(process_file env acc.st t cs.force).1, acc.ctr + 1,
         acc.evs ++ (process_file env acc.st t cs.force).2.1 ++
           [mI ("Successfully processed: " ++ lastStr d),
            mD ("Created symlink: " ++ pathStr d ++ " -> " ++ pathStr s)],
         acc.results ++ [PFResult.created d s], acc.halted⟩ hflag h2 hnr
      refine ⟨hA, ?_, hC⟩
      rw [hB]
      simp only [List.length_append, List.length_cons, List.length_nil]
      omega
    | pynone =>
      rw [heq] at hnr
      dsimp only at hnr ⊢
      have hflag : ((process_file env acc.st t cs.force).1).errorFlag = false :=
        (process_file_flag env acc.st t cs.force).trans h1
      obtain ⟨hA, hB, hC⟩ := ih
        ⟨(process_file env acc.st t cs.force).1, acc.ctr,
         acc.evs ++ (process_file env acc.st t cs.force).2.1,
         acc.results ++ [PFResult.pynone], acc.halted⟩ hflag h2 hnr
      refine ⟨hA, ?_, hC⟩
      rw [hB]
      simp only [List.length_append, List.length_cons, List.length_nil]
      omega

/-- A raised result among the executed tasks forces the flag. -/
theorem completeTasks_raised_flag (env : Env) (cs : CSArgs) (tasks : List Args) :
    ∀ acc : CompAcc,
      (∃ e, PFResult.raised e ∈ (completeTasks env cs tasks acc).results) →
      (completeTasks env cs tasks acc).st.errorFlag = true ∨
      (∃ e, PFResult.raised e ∈ acc.results) := by
  induction tasks with
  | nil =>
    intro acc h
    exact Or.inr (by simpa [completeTasks] using h)
  | cons t rest ih =>
    intro acc h
    simp only [completeTasks] at h ⊢
    by_cases hflag : acc.st.errorFlag = true
    · rw [if_pos hflag] at h ⊢
      exact Or.inl hflag
    · rw [if_neg hflag] at h ⊢
      cases heq : (process_file env acc.st t cs.force).2.2 with
      | raised e =>
        rw [heq] at h
        dsimp only at h ⊢
        left
        have := completeTasks_flag_stop env cs rest
          ⟨⟨(process_file env acc.st t cs.force).1.fs,
            (process_file env acc.st t cs.force).1.ledger, true⟩,
           acc.ctr,
           acc.evs ++ (process_file env acc.st t cs.force).2.1 ++
             [mE ("Error processing task: " ++ e)],
           acc.results ++ [PFResult.raised e], acc.halted⟩ rfl
        rw [this.1]
      | created d s =>
        rw [heq] at h
        dsimp only at h ⊢
        rcases ih _ h with hl | ⟨e, hr⟩
        · exact Or.inl hl
        · rcases List.mem_append.mp hr with hr2 | hr2
          · exact Or.inr ⟨e, hr2⟩
          · simp at hr2
      | pynone =>
        rw [heq] at h
        dsimp only at h ⊢
        rcases ih _ h with hl | ⟨e, hr⟩
        · exact Or.inl hl
        · rcases List.mem_append.mp hr with hr2 | hr2
          · exact Or.inr ⟨e, hr2⟩
          · simp at hr2

/-- With the flag clear, the per-file dispatch loop never aborts. -/
theorem dispatchFiles_no_abort (cs : CSArgs) (log : List Path) (total : Nat)
    (idx : List Path) (files : List Path) :
    ∀ acc : DispAcc, acc.aborted = false →
      (dispatchFiles cs false log total idx files acc).aborted = false := by
  induction files with
  | nil => intro acc h; exact h
  | cons p rest ih =>
    intro acc h
    simp only [dispatchFiles]
    rw [if_neg (by simp)]
    split
    · exact ih acc h
    · exact ih _ h

/-- With the flag clear, the dispatch phase never aborts. -/
theorem dispatchDirs_no_abort (cs : CSArgs) (fs : FS) (log : List Path)
    (total : Nat) (dirs : List Path) :
    ∀ acc : DispAcc, acc.aborted = false →
      (dispatchDirs cs fs false log total dirs acc).aborted = false := by
  induction dirs with
  | nil => intro acc h; exact h
  | cons d rest ih =>
    intro acc h
    simp only [dispatchDirs]
    rw [if_neg (by simp [h])]
    split
    · exact ih _ h
    · exact ih _ (dispatchFiles_no_abort cs log total _ _ _ h)

/-- C6: an OS-level error during link creation is logged and the file is
skipped without touching the state or the global flag; a run none of whose
executed tasks raised keeps the flag clear and executes every dispatched
task; a raised resolution exception among the executed tasks sets the
global flag (halting the completion loop and any not-yet-started task). -/
theorem C6_error_isolation (env : Env) (cs : CSArgs) (st0 : St)
    (h0 : st0.errorFlag = false) :
    (∀ (st : St) (a : Args) (dest : Path) (t s : Option Nat) (m : String),
      env.osFault a.src dest = some (.osError m) →
      pfCreate env st a dest t s =
        (st, [mE ("Error creating symlink for " ++ pathStr a.src ++ ": " ++ m)],
         .pynone)) ∧
    ((∀ e, PFResult.raised e ∉ (create_symlinks env cs st0).results) →
      (create_symlinks env cs st0).st.errorFlag = false ∧
      (create_symlinks env cs st0).results.length =
        (create_symlinks env cs st0).dispatched) ∧
    (∀ e, PFResult.raised e ∈ (create_symlinks env cs st0).results →
      (create_symlinks env cs st0).st.errorFlag = true) := by
  refine ⟨?_, ?_, ?_⟩
  · intro st a dest t s m h
    unfold pfCreate
    rw [h]
  · intro hnr
    unfold create_symlinks at hnr ⊢
    dsimp only at hnr ⊢
    rw [h0] at hnr ⊢
    rw [if_neg (by simp [dispatchDirs_no_abort])] at hnr ⊢
    obtain ⟨hA, hB, _⟩ := completeTasks_all_ok env cs _ _ rfl rfl hnr
    exact ⟨hA, by rw [hB]; simp⟩
  · intro e hmem
    unfold create_symlinks at hmem ⊢
    dsimp only at hmem ⊢
    rw [h0] at hmem ⊢
    rw [if_neg (by simp [dispatchDirs_no_abort])] at hmem ⊢
    rcases completeTasks_raised_flag env cs _ _ ⟨e, hmem⟩ with hl | ⟨e2, hr⟩
    · exact hl
    · cases hr

/-- The environment for the C6 witness: the show resolver raises. -/
def envC6 : Env := { envA with resolveShow := fun _ => .error "boom" }

/-- The world for the C6 witness: one source file that will hit the
raising resolver. -/
def stC6 : St :=
  ⟨⟨[(["src"], .dir), (["src", "z.mkv"], .file), (["dest"], .dir)]⟩, [], false⟩

/-- Witness for C6: a concrete run in which the one executed task raised,
so the global flag ends set. -/
theorem C6_error_isolation_witness :
    PFResult.raised "boom" ∈ (create_symlinks envC6 csA stC6).results ∧
    (create_symlinks envC6 csA stC6).st.errorFlag = true :=
  ⟨by decide,
   (C6_error_isolation envC6 csA stC6 rfl).2.2 "boom" (by decide)⟩

/-! ## C9 — idempotence of a second batch run

The second-run analysis works with the pure per-source routing function
below: classification and resolution read only the environment and the
per-file arguments, never the mutable state, so the way a source file is
routed is a function of the source path and the run configuration. -/

/-- Pure routing outcome of one source file under a run configuration. -/
inductive Route where
  | unknown : Route
  | rejected : Route
  | extra : Route
  | raisedR (e : String) : Route
  | noDest : Route
  | dest (d : Path) : Route
  deriving DecidableEq, Repr

/-- The route of a source file: the unsupported-type check, the
classification block and the resolution block, none of which read the
mutable state. -/
def routeOf (env : Env) (cs : CSArgs) (src : Path) : Route :=
  if env.knownType (lastStr src) then
    match pfClassify env (mkTaskArgs cs [] src) with
    | .error _ => .rejected
    | .ok det =>
      match pfResolve env (mkTaskArgs cs [] src) det.isShow det.isAnime with
      | .raisedR e => .raisedR e
      | .extraSkip _ => .extra
      | .resolved none _ _ => .noDest
      | .resolved (some d) _ _ => .dest d
  else .unknown

/-- The classification block ignores the destination index. -/
theorem pfClassify_idx (env : Env) (cs : CSArgs) (idx : List Path) (src : Path) :
    pfClassify env (mkTaskArgs cs idx src) = pfClassify env (mkTaskArgs cs [] src) :=
  rfl

/-- The resolution block ignores the destination index. -/
theorem pfResolve_idx (env : Env) (cs : CSArgs) (idx : List Path) (src : Path)
    (b1 b2 : Bool) :
    pfResolve env (mkTaskArgs cs idx src) b1 b2 =
      pfResolve env (mkTaskArgs cs [] src) b1 b2 :=
  rfl

/-- All files below the source roots: the sources a batch run walks. -/
def walkedSrcs (fs : FS) (dirs : List Path) : List Path :=
  dirs.flatMap fs.walkFiles

/-- The run invariant: every prefix of the destination root has an entry,
and every symbolic link strictly below the destination root records a
walked source that routes exactly to that link's path and is recorded in
the ledger. -/
def Inv (env : Env) (cs : CSArgs) (W : List Path) (s : St) : Prop :=
  (∀ q ∈ FS.prefixes cs.destDir, (s.fs.lookup q).isSome = true) ∧
  (∀ p t, IsUnder cs.destDir p → s.fs.readlink p = some t →
    t ∈ ledgerKeys s.ledger ∧ t ∈ W ∧ routeOf env cs t = .dest p)

/-- A source is settled when, if it routes to a destination and is not
recorded in the ledger, that destination's directory chain exists and the
destination is either occupied by a non-link entry or empty with the OS
refusing the link. -/
def Settled (env : Env) (cs : CSArgs) (s : St) (src : Path) : Prop :=
  ∀ d, routeOf env cs src = .dest d → src ∉ ledgerKeys s.ledger →
    (∀ q ∈ FS.prefixes d.dropLast, (s.fs.lookup q).isSome = true) ∧
    ((∃ n, s.fs.lookup d = some n ∧ ∀ t, n ≠ FNode.symlink t) ∨
     (s.fs.lookup d = none ∧ env.osFault src d ≠ none))

/-- What one reconciliation step does to the state: the invariant is
preserved, ledger keys only grow, filesystem entries are never removed or
replaced, new entries sit only on the step's own route (its destination's
directory chain or the destination itself), and walks of trees separated
from the destination root are unchanged. -/
def StepOK (env : Env) (cs : CSArgs) (W : List Path) (src : Path) (s s' : St) : Prop :=
  Inv env cs W s' ∧
  (∀ k, k ∈ ledgerKeys s.ledger → k ∈ ledgerKeys s'.ledger) ∧
  (∀ q n, s.fs.lookup q = some n → s'.fs.lookup q = some n) ∧
  (∀ q, ¬ IsUnder cs.destDir q → s'.fs.lookup q = s.fs.lookup q) ∧
  (∀ q, s.fs.lookup q = none → s'.fs.lookup q ≠ none →
    ∃ d, routeOf env cs src = .dest d ∧ (q ∈ FS.prefixes d.dropLast ∨ q = d)) ∧
  (∀ root, ¬ root <+: cs.destDir → ¬ cs.destDir <+: root →
    s'.fs.walkFiles root = s.fs.walkFiles root) ∧
  Settled env cs s' src

namespace FS

theorem readlink_congr (fs1 fs2 : FS) (p : Path)
    (h : fs1.lookup p = fs2.lookup p) : fs1.readlink p = fs2.readlink p := by
  unfold readlink
  rw [h]

theorem isfile_congr (fs1 fs2 : FS) (p : Path)
    (h : fs1.lookup p = fs2.lookup p) : fs1.isfile p = fs2.isfile p := by
  unfold isfile
  rw [h]

/-- A nonempty prefix of a path is among its `prefixes`. -/
theorem mem_prefixes_of_prefix (p q : Path) (hne : q ≠ []) (hpre : q <+: p) :
    q ∈ prefixes p := by
  unfold prefixes
  refine List.mem_map.mpr ⟨q.length - 1, ?_, ?_⟩
  · have hlen : q.length ≤ p.length := hpre.length_le
    have hq : 0 < q.length := List.length_pos.mpr hne
    exact List.mem_range.mpr (by omega)
  · have hq : 0 < q.length := List.length_pos.mpr hne
    have : q.length - 1 + 1 = q.length := by omega
    rw [this]
    exact (List.prefix_iff_eq_take.mp hpre).symm

/-- Members of `prefixes p` are nonempty prefixes of `p`. -/
theorem mem_prefixes_prefix (p q : Path) (h : q ∈ prefixes p) : q <+: p := by
  unfold prefixes at h
  obtain ⟨i, _, hq⟩ := List.mem_map.mp h
  subst hq
  exact List.take_prefix _ _

theorem mem_prefixes_ne_nil (p q : Path) (h : q ∈ prefixes p) : q ≠ [] := by
  unfold prefixes at h
  obtain ⟨i, hi, hq⟩ := List.mem_map.mp h
  subst hq
  have hp : 0 < p.length := by
    rcases Nat.eq_zero_or_pos p.length with h0 | h0
    · rw [List.mem_range] at hi; omega
    · exact h0
  intro hnil
  have := congrArg List.length hnil
  simp only [List.length_take, List.length_nil] at this
  rw [List.mem_range] at hi
  omega

/-- A prefix of the parent is a strict prefix of the whole path. -/
theorem prefix_dropLast_lt (d q : Path) (h : q ∈ prefixes d.dropLast) :
    q <+: d ∧ q ≠ d := by
  have hpre : q <+: d.dropLast := mem_prefixes_prefix _ _ h
  have hlen : q.length ≤ d.dropLast.length := hpre.length_le
  have hd : d ≠ [] := by
    intro hnil
    subst hnil
    exact mem_prefixes_ne_nil _ _ h (List.prefix_nil.mp hpre)
  have hdl : d.dropLast.length < d.length := by
    rw [List.length_dropLast]
    have : 0 < d.length := List.length_pos.mpr hd
    omega
  refine ⟨hpre.trans (List.dropLast_prefix d), fun he => ?_⟩
  subst he
  omega

/-- Files yielded by a walk sit strictly below the root. -/
theorem mem_walkFiles_under (fs : FS) (root p : Path) (h : p ∈ fs.walkFiles root) :
    root <+: p ∧ root ≠ p := by
  unfold walkFiles at h
  obtain ⟨e, _, he⟩ := List.mem_filterMap.mp h
  rcases e with ⟨q, n⟩
  cases n with
  | dir => cases he
  | file =>
    simp only at he
    split at he
    · rename_i hcond
      cases he
      exact ⟨hcond.2, hcond.1⟩
    · cases he
  | symlink t =>
    simp only at he
    split at he
    · rename_i hcond
      cases he
      exact ⟨hcond.2, hcond.1⟩
    · cases he

/-- Index entries sit strictly below the destination root. -/
theorem mem_build_dest_index_under (fs : FS) (destDir p : Path)
    (h : p ∈ build_dest_index fs destDir) : IsUnder destDir p := by
  unfold build_dest_index at h
  obtain ⟨e, _, he⟩ := List.mem_filterMap.mp h
  rcases e with ⟨q, n⟩
  cases n with
  | dir => cases he
  | file => cases he
  | symlink t =>
    simp only at he
    split at he
    · rename_i hcond
      cases he
      exact ⟨hcond.2, hcond.1⟩
    · cases he

/-- A live link corresponds to a link entry. -/
theorem readlink_mem_entry (fs : FS) (p t : Path) (h : fs.readlink p = some t) :
    (p, FNode.symlink t) ∈ fs.entries := by
  unfold readlink lookup at h
  cases hf : fs.entries.find? (fun e => e.1 == p) with
  | none => rw [hf] at h; cases h
  | some e =>
    rw [hf] at h
    have hmem := List.mem_of_find?_eq_some hf
    have hkey : e.1 = p := by
      have := List.find?_some hf
      simpa using this
    rcases e with ⟨q, n⟩
    simp only at hkey
    subst hkey
    cases n with
    | dir => cases h
    | file => cases h
    | symlink t2 =>
      simp only [Option.map_some'] at h
      cases h
      exact hmem

/-- Entry paths stay duplicate-free across every mutation used here. -/
def pathsNodup (fs : FS) : Prop :=
  (fs.entries.map Prod.fst).Nodup

theorem pathsNodup_set (fs : FS) (p : Path) (n : FNode) (h : pathsNodup fs) :
    pathsNodup (fs.set p n) := by
  unfold pathsNodup at h ⊢
  show ((p, n) :: fs.entries.filter _).map Prod.fst |>.Nodup
  rw [List.map_cons, List.nodup_cons]
  constructor
  · intro hmem
    obtain ⟨e, he, hk⟩ := List.mem_map.mp hmem
    have := List.mem_filter.mp he
    simp [hk] at this
  · exact List.Nodup.sublist ((List.filter_sublist _).map Prod.fst) h

theorem pathsNodup_mkdirStep (fs : FS) (q : Path) (h : pathsNodup fs) :
    pathsNodup (fs.mkdirStep q) := by
  unfold mkdirStep
  cases fs.lookup q with
  | some n => exact h
  | none => exact pathsNodup_set fs q .dir h

theorem pathsNodup_mkdirp (fs : FS) (p : Path) (h : pathsNodup fs) :
    pathsNodup (fs.mkdirp p) := by
  unfold mkdirp
  generalize prefixes p = L
  induction L generalizing fs with
  | nil => exact h
  | cons x rest ih =>
    simp only [List.foldl_cons]
    exact ih (fs.mkdirStep x) (pathsNodup_mkdirStep fs x h)

/-- The files a walk yields form a sub-multiset of the entry paths. -/
theorem walkFiles_sublist (fs : FS) (root : Path) :
    List.Sublist (fs.walkFiles root) (fs.entries.map Prod.fst) := by
  unfold walkFiles
  induction fs.entries with
  | nil => simp
  | cons e rest ih =>
    rcases e with ⟨p1, n⟩
    rw [List.filterMap_cons, List.map_cons]
    cases n with
    | dir => exact ih.cons _
    | file =>
      dsimp only
      split
      · exact ih.cons _
      · rename_i b heq
        have hb : b = p1 := by
          split at heq
          · cases heq; rfl
          · cases heq
        subst hb
        exact ih.cons₂ _
    | symlink t =>
      dsimp only
      split
      · exact ih.cons _
      · rename_i b heq
        have hb : b = p1 := by
          split at heq
          · cases heq; rfl
          · cases heq
        subst hb
        exact ih.cons₂ _

theorem walkFiles_nodup (fs : FS) (root : Path) (h : pathsNodup fs) :
    (fs.walkFiles root).Nodup :=
  (walkFiles_sublist fs root).nodup h

end FS

/-- An unsupported extension routes to `unknown`. -/
theorem routeOf_unknown_eq (env : Env) (cs : CSArgs) (src : Path)
    (hk : env.knownType (lastStr src) = false) : routeOf env cs src = .unknown := by
  simp [routeOf, hk]

/-- A classification rejection routes to `rejected`. -/
theorem routeOf_rejected_eq (env : Env) (cs : CSArgs) (src : Path)
    (hk : env.knownType (lastStr src) = true) (ev : List Event)
    (hcl : pfClassify env (mkTaskArgs cs [] src) = .error ev) :
    routeOf env cs src = .rejected := by
  simp [routeOf, hk, hcl]

/-- A raising resolver routes to `raisedR`. -/
theorem routeOf_raised_eq (env : Env) (cs : CSArgs) (src : Path)
    (hk : env.knownType (lastStr src) = true) (det : Detect)
    (hcl : pfClassify env (mkTaskArgs cs [] src) = .ok det) (e : String)
    (hres : pfResolve env (mkTaskArgs cs [] src) det.isShow det.isAnime = .raisedR e) :
    routeOf env cs src = .raisedR e := by
  simp [routeOf, hk, hcl, hres]

/-- An extras skip routes to `extra`. -/
theorem routeOf_extra_eq (env : Env) (cs : CSArgs) (src : Path)
    (hk : env.knownType (lastStr src) = true) (det : Detect)
    (hcl : pfClassify env (mkTaskArgs cs [] src) = .ok det) (ev : List Event)
    (hres : pfResolve env (mkTaskArgs cs [] src) det.isShow det.isAnime = .extraSkip ev) :
    routeOf env cs src = .extra := by
  simp [routeOf, hk, hcl, hres]

/-- An unresolved destination routes to `noDest`. -/
theorem routeOf_noDest_eq (env : Env) (cs : CSArgs) (src : Path)
    (hk : env.knownType (lastStr src) = true) (det : Detect)
    (hcl : pfClassify env (mkTaskArgs cs [] src) = .ok det) (tm sn : Option Nat)
    (hres : pfResolve env (mkTaskArgs cs [] src) det.isShow det.isAnime =
      .resolved none tm sn) :
    routeOf env cs src = .noDest := by
  simp [routeOf, hk, hcl, hres]

/-- A resolved destination routes to `dest`. -/
theorem routeOf_dest_eq (env : Env) (cs : CSArgs) (src : Path)
    (hk : env.knownType (lastStr src) = true) (det : Detect)
    (hcl : pfClassify env (mkTaskArgs cs [] src) = .ok det) (d : Path) (tm sn : Option Nat)
    (hres : pfResolve env (mkTaskArgs cs [] src) det.isShow det.isAnime =
      .resolved (some d) tm sn) :
    routeOf env cs src = .dest d := by
  simp [routeOf, hk, hcl, hres]

/-- A source that does not route to a destination is settled anywhere. -/
theorem Settled_of_not_dest (env : Env) (cs : CSArgs) (s : St) (src : Path)
    (h : ∀ d, routeOf env cs src ≠ Route.dest d) : Settled env cs s src :=
  fun d hd _ => absurd hd (h d)

/-- A recorded source is settled. -/
theorem Settled_of_mem (env : Env) (cs : CSArgs) (s : St) (src : Path)
    (h : src ∈ ledgerKeys s.ledger) : Settled env cs s src :=
  fun _ _ hn => absurd h hn

/-- An exiting ledger check keeps the filesystem, the flag and the key set,
and fires only for a recorded source. -/
theorem pfLedgerCheck_exit_inv (st : St) (src : Path) (force : Bool) (st2 : St)
    (ev : List Event) (h : pfLedgerCheck st src force = .exit st2 ev) :
    st2.fs = st.fs ∧ st2.errorFlag = st.errorFlag ∧
    ledgerKeys st2.ledger = ledgerKeys st.ledger ∧ src ∈ ledgerKeys st.ledger := by
  unfold pfLedgerCheck at h
  cases hg : get_destination_path st.ledger src with
  | none => rw [hg] at h; cases h
  | some d =>
    rw [hg] at h
    dsimp only at h
    have hmem : src ∈ ledgerKeys st.ledger := by
      by_contra hn
      have := (gdp_eq_none_iff st.ledger src).mpr hn
      rw [this] at hg
      cases hg
    split at h
    · cases h
    · split at h
      · split at h
        · obtain ⟨h1, -⟩ := Flow.exit.inj h
          rw [← h1]
          exact ⟨rfl, rfl, keys_update_renamed _ _ _, hmem⟩
        · cases h
      · obtain ⟨h1, -⟩ := Flow.exit.inj h
        subst h1
        exact ⟨rfl, rfl, rfl, hmem⟩

/-- A falling-through ledger check carries the state unchanged. -/
theorem pfLedgerCheck_cont_inv (st : St) (src : Path) (force : Bool) (st2 : St)
    (ev : List Event) (h : pfLedgerCheck st src force = .cont st2 ev) : st2 = st := by
  unfold pfLedgerCheck at h
  cases hg : get_destination_path st.ledger src with
  | none =>
    rw [hg] at h
    obtain ⟨h1, -⟩ := Flow.cont.inj h
    exact h1.symm
  | some d =>
    rw [hg] at h
    dsimp only at h
    split at h
    · obtain ⟨h1, -⟩ := Flow.cont.inj h
      exact h1.symm
    · split at h
      · split at h
        · cases h
        · obtain ⟨h1, -⟩ := Flow.cont.inj h
          exact h1.symm
      · cases h

/-- An exiting index check keeps the filesystem and the flag, grows the key
set, and records the task's source. -/
theorem pfIndexCheck_exit_inv (st : St) (a : Args) (force : Bool) (st3 : St)
    (ev : List Event) (h : pfIndexCheck st a force = .exit st3 ev) :
    st3.fs = st.fs ∧ st3.errorFlag = st.errorFlag ∧
    (∀ k, k ∈ ledgerKeys st.ledger → k ∈ ledgerKeys st3.ledger) ∧
    a.src ∈ ledgerKeys st3.ledger := by
  unfold pfIndexCheck at h
  split at h
  · cases h
  · split at h
    · cases h
    · obtain ⟨h1, -⟩ := Flow.exit.inj h
      rw [← h1]
      exact ⟨rfl, rfl, fun k hk => (mem_keys_save _ _ _ _ _ _).mpr (Or.inr hk),
        (mem_keys_save _ _ _ _ _ _).mpr (Or.inl rfl)⟩

/-- A falling-through index check carries the state unchanged. -/
theorem pfIndexCheck_cont_inv (st : St) (a : Args) (force : Bool) (st3 : St)
    (ev : List Event) (h : pfIndexCheck st a force = .cont st3 ev) : st3 = st := by
  unfold pfIndexCheck at h
  split at h
  · obtain ⟨h1, -⟩ := Flow.cont.inj h
    exact h1.symm
  · split at h
    · obtain ⟨h1, -⟩ := Flow.cont.inj h
      exact h1.symm
    · cases h

/-- The invariant transfers along an unchanged filesystem and a grown key
set. -/
theorem Inv_mono_keys (env : Env) (cs : CSArgs) (W : List Path) (s s' : St)
    (hfs : s'.fs = s.fs)
    (hkeys : ∀ k, k ∈ ledgerKeys s.ledger → k ∈ ledgerKeys s'.ledger)
    (hInv : Inv env cs W s) : Inv env cs W s' := by
  refine ⟨fun q hq => by rw [hfs]; exact hInv.1 q hq, fun p t hp hr => ?_⟩
  rw [FS.readlink_congr s'.fs s.fs p (by rw [hfs])] at hr
  obtain ⟨h1, h2, h3⟩ := hInv.2 p t hp hr
  exact ⟨hkeys _ h1, h2, h3⟩

/-- `StepOK` for a step that leaves the filesystem untouched. -/
theorem StepOK_of_fs_eq (env : Env) (cs : CSArgs) (W : List Path) (src : Path)
    (s s' : St) (hfs : s'.fs = s.fs)
    (hkeys : ∀ k, k ∈ ledgerKeys s.ledger → k ∈ ledgerKeys s'.ledger)
    (hset : Settled env cs s' src) (hInv : Inv env cs W s) :
    StepOK env cs W src s s' := by
  refine ⟨Inv_mono_keys env cs W s s' hfs hkeys hInv, hkeys,
    fun q n h => by rw [hfs]; exact h,
    fun q _ => by rw [hfs],
    fun q h0 h1 => absurd (by rw [hfs]; exact h0) h1,
    fun root _ _ => by rw [hfs],
    hset⟩

/-- Below a destination root with a complete prefix chain, `os.makedirs`
for a destination's parent touches no path that is not strictly below that
root. -/
theorem FS.lookup_mkdirp_sep (fs : FS) (destDir d q : Path)
    (hPD : ∀ x ∈ FS.prefixes destDir, (fs.lookup x).isSome = true)
    (hdd : destDir <+: d)
    (hq : ¬ IsUnder destDir q) :
    (fs.mkdirp d.dropLast).lookup q = fs.lookup q := by
  cases hl : fs.lookup q with
  | some n => exact FS.lookup_mkdirp_of_some fs d.dropLast q n hl
  | none =>
    by_cases hmem : q ∈ FS.prefixes d.dropLast
    · exfalso
      have hqd : q <+: d := (FS.prefix_dropLast_lt d q hmem).1
      have hqn : q ≠ [] := FS.mem_prefixes_ne_nil _ _ hmem
      rcases List.prefix_or_prefix_of_prefix hqd hdd with hc | hc
      · have hmem2 : q ∈ FS.prefixes destDir := FS.mem_prefixes_of_prefix _ _ hqn hc
        have h2 := hPD q hmem2
        rw [hl] at h2
        cases h2
      · by_cases he : q = destDir
        · subst he
          have hmem2 : q ∈ FS.prefixes q :=
            FS.mem_prefixes_of_prefix _ _ hqn (List.prefix_refl q)
          have h2 := hPD q hmem2
          rw [hl] at h2
          cases h2
        · exact hq (show destDir <+: q ∧ destDir ≠ q from ⟨hc, fun hh => he hh.symm⟩)
    · exact (FS.lookup_mkdirp_not_prefix fs d.dropLast q hmem).trans hl

/-- Settledness of one source survives another source's step. -/
theorem Settled_mono (env : Env) (cs : CSArgs) (W : List Path) (s s' : St)
    (x src : Path) (hxW : x ∈ W) (hsW : src ∈ W) (hne : x ≠ src)
    (hinj : ∀ s1 ∈ W, ∀ s2 ∈ W, ∀ d, routeOf env cs s1 = .dest d →
      routeOf env cs s2 = .dest d → s1 = s2)
    (hnn : ∀ s1 ∈ W, ∀ s2 ∈ W, ∀ d1 d2, routeOf env cs s1 = .dest d1 →
      routeOf env cs s2 = .dest d2 → d1 ≠ d2 → ¬ d1 <+: d2)
    (hkeys : ∀ k, k ∈ ledgerKeys s.ledger → k ∈ ledgerKeys s'.ledger)
    (hsome : ∀ q n, s.fs.lookup q = some n → s'.fs.lookup q = some n)
    (hnew : ∀ q, s.fs.lookup q = none → s'.fs.lookup q ≠ none →
      ∃ d, routeOf env cs src = .dest d ∧ (q ∈ FS.prefixes d.dropLast ∨ q = d))
    (hset : Settled env cs s x) : Settled env cs s' x := by
  intro d0 hx hn'
  have hnk : x ∉ ledgerKeys s.ledger := fun hh => hn' (hkeys _ hh)
  obtain ⟨hpre, hdisj⟩ := hset d0 hx hnk
  refine ⟨fun q hq => ?_, ?_⟩
  · have := hpre q hq
    cases hl : s.fs.lookup q with
    | none => rw [hl] at this; cases this
    | some n => rw [hsome q n hl]; rfl
  · rcases hdisj with ⟨n, hl, hnl⟩ | ⟨hl, hf⟩
    · exact Or.inl ⟨n, hsome _ _ hl, hnl⟩
    · refine Or.inr ⟨?_, hf⟩
      by_contra hne2
      obtain ⟨d, hd, hcase⟩ := hnew d0 hl hne2
      rcases hcase with hc | hc
      · obtain ⟨hpre2, hned⟩ := FS.prefix_dropLast_lt d d0 hc
        exact (hnn x hxW src hsW d0 d hx hd hned) hpre2
      · subst hc
        exact hne (hinj x hxW src hsW d0 hx hd)

/-- `StepOK` for a step whose filesystem effect is exactly the `makedirs`
of its own destination's parent. -/
theorem StepOK_mkdirp (env : Env) (cs : CSArgs) (W : List Path) (src : Path)
    (s : St) (d : Path) (led' : Ledger)
    (hund : IsUnder cs.destDir d)
    (hroute : routeOf env cs src = .dest d)
    (hkeys : ∀ k, k ∈ ledgerKeys s.ledger → k ∈ ledgerKeys led')
    (hset : Settled env cs ⟨s.fs.mkdirp d.dropLast, led', s.errorFlag⟩ src)
    (hInv : Inv env cs W s) :
    StepOK env cs W src s ⟨s.fs.mkdirp d.dropLast, led', s.errorFlag⟩ := by
  refine ⟨⟨fun q hq => ?_, fun p t hp hr => ?_⟩, hkeys, ?_, ?_, ?_, ?_, hset⟩
  · have h1 := hInv.1 q hq
    cases hl : s.fs.lookup q with
    | none => rw [hl] at h1; cases h1
    | some n =>
      show ((s.fs.mkdirp d.dropLast).lookup q).isSome = true
      rw [FS.lookup_mkdirp_of_some s.fs d.dropLast q n hl]
      rfl
  · have hr2 : s.fs.readlink p = some t := by
      rw [← FS.readlink_mkdirp s.fs d.dropLast p]
      exact hr
    obtain ⟨h1, h2, h3⟩ := hInv.2 p t hp hr2
    exact ⟨hkeys _ h1, h2, h3⟩
  · exact fun q n h => FS.lookup_mkdirp_of_some s.fs d.dropLast q n h
  · exact fun q hq => FS.lookup_mkdirp_sep s.fs cs.destDir d q hInv.1 hund.1 hq
  · intro q h0 h1
    refine ⟨d, hroute, Or.inl ?_⟩
    by_contra hmem
    exact h1 ((FS.lookup_mkdirp_not_prefix s.fs d.dropLast q hmem).trans h0)
  · exact fun root _ _ => FS.walkFiles_mkdirp s.fs d.dropLast root

/-- `StepOK` for a successful link creation at the step's own
destination. -/
theorem StepOK_create (env : Env) (cs : CSArgs) (W : List Path) (src : Path)
    (s : St) (d : Path) (tm sn : Option Nat)
    (hund : IsUnder cs.destDir d)
    (hroute : routeOf env cs src = .dest d)
    (hW : src ∈ W)
    (hld1 : (s.fs.mkdirp d.dropLast).lookup d = none)
    (hInv : Inv env cs W s) :
    StepOK env cs W src s
      ⟨(s.fs.mkdirp d.dropLast).symlink d src,
       save_processed_file s.ledger src d tm sn, s.errorFlag⟩ := by
  have hld0 : s.fs.lookup d = none := FS.lookup_mkdirp_none s.fs d.dropLast d hld1
  have hdd : cs.destDir <+: d := hund.1
  have hkeys : ∀ k, k ∈ ledgerKeys s.ledger →
      k ∈ ledgerKeys (save_processed_file s.ledger src d tm sn) :=
    fun k hk => (mem_keys_save _ _ _ _ _ _).mpr (Or.inr hk)
  have hsrcmem : src ∈ ledgerKeys (save_processed_file s.ledger src d tm sn) :=
    (mem_keys_save _ _ _ _ _ _).mpr (Or.inl rfl)
  have hdne : ∀ q, q ∈ FS.prefixes cs.destDir → q ≠ d := by
    intro q hq he
    have hle := FS.mem_prefixes_length_le cs.destDir q hq
    rw [he] at hle
    have hge : cs.destDir.length ≤ d.length := hdd.length_le
    have hlen : cs.destDir.length = d.length := Nat.le_antisymm hge hle
    exact hund.2 (List.IsPrefix.eq_of_length hdd hlen)
  refine ⟨⟨fun q hq => ?_, fun p t hp hr => ?_⟩, hkeys, ?_, ?_, ?_, ?_,
    Settled_of_mem env cs _ src hsrcmem⟩
  · have h1 := hInv.1 q hq
    show (((s.fs.mkdirp d.dropLast).symlink d src).lookup q).isSome = true
    rw [FS.lookup_symlink, if_neg (hdne q hq)]
    cases hl : s.fs.lookup q with
    | none => rw [hl] at h1; cases h1
    | some n =>
      rw [FS.lookup_mkdirp_of_some s.fs d.dropLast q n hl]
      rfl
  · by_cases hpd : p = d
    · subst hpd
      have : ((s.fs.mkdirp p.dropLast).symlink p src).readlink p = some src := by
        unfold FS.readlink
        rw [FS.lookup_symlink, if_pos rfl]
      rw [this] at hr
      cases hr
      exact ⟨hsrcmem, hW, hroute⟩
    · have hr2 : s.fs.readlink p = some t := by
        rw [← FS.readlink_mkdirp s.fs d.dropLast p]
        have hcongr : ((s.fs.mkdirp d.dropLast).symlink d src).lookup p =
            (s.fs.mkdirp d.dropLast).lookup p := by
          rw [FS.lookup_symlink, if_neg hpd]
        rw [← FS.readlink_congr _ _ p hcongr]
        exact hr
      obtain ⟨h1, h2, h3⟩ := hInv.2 p t hp hr2
      exact ⟨hkeys _ h1, h2, h3⟩
  · intro q n h
    have hqd : q ≠ d := fun he => by rw [he, hld0] at h; cases h
    show (((s.fs.mkdirp d.dropLast).symlink d src).lookup q) = some n
    rw [FS.lookup_symlink, if_neg hqd]
    exact FS.lookup_mkdirp_of_some s.fs d.dropLast q n h
  · intro q hq
    have hqd : q ≠ d := fun he => hq (he ▸ hund)
    show (((s.fs.mkdirp d.dropLast).symlink d src).lookup q) = s.fs.lookup q
    rw [FS.lookup_symlink, if_neg hqd]
    exact FS.lookup_mkdirp_sep s.fs cs.destDir d q hInv.1 hdd hq
  · intro q h0 h1
    refine ⟨d, hroute, ?_⟩
    by_cases hqd : q = d
    · exact Or.inr hqd
    · refine Or.inl ?_
      by_contra hmem
      rw [FS.lookup_symlink, if_neg hqd,
        FS.lookup_mkdirp_not_prefix s.fs d.dropLast q hmem, h0] at h1
      exact h1 rfl
  · intro root hr1 hr2
    have hnu : ¬ (root ≠ d ∧ root <+: d) := by
      rintro ⟨hne2, hpre2⟩
      rcases List.prefix_or_prefix_of_prefix hpre2 hdd with hc | hc
      · exact hr1 hc
      · exact hr2 hc
    show ((s.fs.mkdirp d.dropLast).symlink d src).walkFiles root = s.fs.walkFiles root
    rw [FS.walkFiles_symlink_not_under _ d src root hld1 hnu]
    exact FS.walkFiles_mkdirp s.fs d.dropLast root

/-- The effect of one non-force reconciliation step on a clean, separated
state: the invariant survives, entries and ledger keys only grow, new
entries sit only on the step's own route, separated walks are unchanged,
the step's own source ends settled, and a raising route either surfaces as
a raised result or the source was already recorded. -/
theorem pf_step (env : Env) (cs : CSArgs) (W : List Path) (s : St)
    (idx : List Path) (src : Path)
    (hdu : ∀ x ∈ W, ∀ d, routeOf env cs x = .dest d → IsUnder cs.destDir d)
    (hinj : ∀ s1 ∈ W, ∀ s2 ∈ W, ∀ d, routeOf env cs s1 = .dest d →
      routeOf env cs s2 = .dest d → s1 = s2)
    (hW : src ∈ W)
    (hflag : s.errorFlag = false)
    (hInv : Inv env cs W s) :
    StepOK env cs W src s (process_file env s (mkTaskArgs cs idx src) false).1 ∧
    (∀ e, routeOf env cs src = .raisedR e →
      (process_file env s (mkTaskArgs cs idx src) false).2.2 = .raised e ∨
      src ∈ ledgerKeys (process_file env s (mkTaskArgs cs idx src) false).1.ledger) := by
  by_cases hk : env.knownType (lastStr src) = true
  · rw [process_file_noforce env s (mkTaskArgs cs idx src) hflag hk]
    unfold pfMain
    cases hLC : pfLedgerCheck s (mkTaskArgs cs idx src).src false with
    | exit st2 ev2 =>
      dsimp only
      obtain ⟨hfs, _, hkeys2, hmemsrc⟩ :=
        pfLedgerCheck_exit_inv s (mkTaskArgs cs idx src).src false st2 ev2 hLC
      have hsrc2 : src ∈ ledgerKeys st2.ledger := by rw [hkeys2]; exact hmemsrc
      exact ⟨StepOK_of_fs_eq env cs W src s st2 hfs
        (fun k hk2 => by rw [hkeys2]; exact hk2)
        (Settled_of_mem env cs st2 src hsrc2) hInv, fun e _ => Or.inr hsrc2⟩
    | cont st2 ev2 =>
      dsimp only
      have h2 := pfLedgerCheck_cont_inv s (mkTaskArgs cs idx src).src false st2 ev2 hLC
      rw [h2]
      cases hIC : pfIndexCheck s (mkTaskArgs cs idx src) false with
      | exit st3 ev3 =>
        dsimp only
        obtain ⟨hfs, _, hkeys3, hmem3⟩ :=
          pfIndexCheck_exit_inv s (mkTaskArgs cs idx src) false st3 ev3 hIC
        exact ⟨StepOK_of_fs_eq env cs W src s st3 hfs hkeys3
          (Settled_of_mem env cs st3 src hmem3) hInv, fun e _ => Or.inr hmem3⟩
      | cont st3 ev3 =>
        dsimp only
        have h3 := pfIndexCheck_cont_inv s (mkTaskArgs cs idx src) false st3 ev3 hIC
        rw [h3]
        cases hcl : pfClassify env (mkTaskArgs cs idx src) with
        | error ev4 =>
          dsimp only
          have hcl0 : pfClassify env (mkTaskArgs cs [] src) = .error ev4 := by
            rw [← pfClassify_idx env cs idx src]
            exact hcl
          have hroute : routeOf env cs src = .rejected :=
            routeOf_rejected_eq env cs src hk ev4 hcl0
          refine ⟨StepOK_of_fs_eq env cs W src s s rfl (fun k h => h)
            (Settled_of_not_dest env cs s src ?_) hInv, fun e he => ?_⟩
          · rw [hroute]
            intro d h
            cases h
          · rw [hroute] at he
            cases he
        | ok det =>
          dsimp only
          cases hres : pfResolve env (mkTaskArgs cs idx src) det.isShow det.isAnime with
          | raisedR e =>
            dsimp only
            have hres0 : pfResolve env (mkTaskArgs cs [] src) det.isShow det.isAnime =
                .raisedR e := by
              rw [← pfResolve_idx env cs idx src]
              exact hres
            have hcl0 : pfClassify env (mkTaskArgs cs [] src) = .ok det := by
              rw [← pfClassify_idx env cs idx src]
              exact hcl
            have hroute : routeOf env cs src = .raisedR e :=
              routeOf_raised_eq env cs src hk det hcl0 e hres0
            refine ⟨StepOK_of_fs_eq env cs W src s s rfl (fun k h => h)
              (Settled_of_not_dest env cs s src ?_) hInv, fun e2 he2 => ?_⟩
            · rw [hroute]
              intro d h
              cases h
            · left
              obtain he3 := Route.raisedR.inj (hroute.symm.trans he2)
              rw [he3]
          | extraSkip ev5 =>
            dsimp only
            have hres0 : pfResolve env (mkTaskArgs cs [] src) det.isShow det.isAnime =
                .extraSkip ev5 := by
              rw [← pfResolve_idx env cs idx src]
              exact hres
            have hcl0 : pfClassify env (mkTaskArgs cs [] src) = .ok det := by
              rw [← pfClassify_idx env cs idx src]
              exact hcl
            have hroute : routeOf env cs src = .extra :=
              routeOf_extra_eq env cs src hk det hcl0 ev5 hres0
            refine ⟨StepOK_of_fs_eq env cs W src s s rfl (fun k h => h)
              (Settled_of_not_dest env cs s src ?_) hInv, fun e he => ?_⟩
            · rw [hroute]
              intro d h
              cases h
            · rw [hroute] at he
              cases he
          | resolved dst tm sn =>
            dsimp only
            have hcl0 : pfClassify env (mkTaskArgs cs [] src) = .ok det := by
              rw [← pfClassify_idx env cs idx src]
              exact hcl
            cases dst with
            | none =>
              have hres0 : pfResolve env (mkTaskArgs cs [] src) det.isShow det.isAnime =
                  .resolved none tm sn := by
                rw [← pfResolve_idx env cs idx src]
                exact hres
              have hroute : routeOf env cs src = .noDest :=
                routeOf_noDest_eq env cs src hk det hcl0 tm sn hres0
              simp only [pfMaterialize]
              refine ⟨StepOK_of_fs_eq env cs W src s s rfl (fun k h => h)
                (Settled_of_not_dest env cs s src ?_) hInv, fun e he => ?_⟩
              · rw [hroute]
                intro d h
                cases h
              · rw [hroute] at he
                cases he
            | some d =>
              have hres0 : pfResolve env (mkTaskArgs cs [] src) det.isShow det.isAnime =
                  .resolved (some d) tm sn := by
                rw [← pfResolve_idx env cs idx src]
                exact hres
              have hroute : routeOf env cs src = .dest d :=
                routeOf_dest_eq env cs src hk det hcl0 d tm sn hres0
              have hund : IsUnder cs.destDir d := hdu src hW d hroute
              have hnr : ∀ e, routeOf env cs src = .raisedR e → False := by
                intro e he
                rw [hroute] at he
                cases he
              simp only [pfMaterialize]
              rw [FS.readlink_mkdirp s.fs d.dropLast d]
              cases hrl : s.fs.readlink d with
              | some tgt =>
                dsimp only
                have hG := hInv.2 d tgt hund hrl
                have htgt : tgt = src := hinj tgt hG.2.1 src hW d hG.2.2 hroute
                subst htgt
                rw [if_pos (show tgt = (mkTaskArgs cs idx tgt).src from rfl)]
                dsimp only
                refine ⟨StepOK_mkdirp env cs W tgt s d
                  (save_processed_file s.ledger (mkTaskArgs cs idx tgt).src d tm none)
                  hund hroute
                  (fun k hk2 => (mem_keys_save _ _ _ _ _ _).mpr (Or.inr hk2))
                  (Settled_of_mem env cs _ tgt
                    ((mem_keys_save _ _ _ _ _ _).mpr (Or.inl rfl)))
                  hInv, fun e he => (hnr e he).elim⟩
              | none =>
                dsimp only
                have hil : (s.fs.mkdirp d.dropLast).islink d = false := by
                  rw [FS.islink_eq_isSome_readlink, FS.readlink_mkdirp, hrl]
                  rfl
                by_cases hex : (s.fs.mkdirp d.dropLast).pexists d = true
                · rw [if_pos ⟨hex, by rw [hil]; simp⟩]
                  have hocc : ∃ n, (s.fs.mkdirp d.dropLast).lookup d = some n ∧
                      ∀ t, n ≠ FNode.symlink t := by
                    cases hld : (s.fs.mkdirp d.dropLast).lookup d with
                    | none =>
                      exfalso
                      unfold FS.pexists at hex
                      rw [hld] at hex
                      cases hex
                    | some n =>
                      cases n with
                      | file => exact ⟨.file, rfl, fun t h => by cases h⟩
                      | dir => exact ⟨.dir, rfl, fun t h => by cases h⟩
                      | symlink t =>
                        exfalso
                        have : (s.fs.mkdirp d.dropLast).readlink d = some t := by
                          unfold FS.readlink
                          rw [hld]
                        rw [FS.readlink_mkdirp, hrl] at this
                        cases this
                  refine ⟨StepOK_mkdirp env cs W src s d s.ledger hund hroute
                    (fun k hk2 => hk2) ?_ hInv, fun e he => (hnr e he).elim⟩
                  intro d0 hd0 _
                  obtain hd0d := Route.dest.inj (hroute.symm.trans hd0)
                  subst hd0d
                  exact ⟨fun q hq => FS.mkdirp_ready s.fs d.dropLast q hq, Or.inl hocc⟩
                · rw [if_neg (fun hc => hex hc.1)]
                  have hld1 : (s.fs.mkdirp d.dropLast).lookup d = none := by
                    cases hld : (s.fs.mkdirp d.dropLast).lookup d with
                    | none => rfl
                    | some n =>
                      exfalso
                      cases n with
                      | file =>
                        refine hex ?_
                        unfold FS.pexists
                        rw [hld]
                      | dir =>
                        refine hex ?_
                        unfold FS.pexists
                        rw [hld]
                      | symlink t =>
                        have : (s.fs.mkdirp d.dropLast).readlink d = some t := by
                          unfold FS.readlink
                          rw [hld]
                        rw [FS.readlink_mkdirp, hrl] at this
                        cases this
                  cases hof : env.osFault src d with
                  | none =>
                    rw [pfCreate_ok env _ (mkTaskArgs cs idx src) d tm sn hof]
                    dsimp only
                    exact ⟨StepOK_create env cs W src s d tm sn hund hroute hW hld1 hInv,
                      fun e he => (hnr e he).elim⟩
                  | some f =>
                    have hfault := pfCreate_fault env
                      ⟨s.fs.mkdirp d.dropLast, s.ledger, s.errorFlag⟩
                      (mkTaskArgs cs idx src) d tm sn f hof
                    dsimp only
                    rw [hfault.1]
                    refine ⟨StepOK_mkdirp env cs W src s d s.ledger hund hroute
                      (fun k hk2 => hk2) ?_ hInv, fun e he => (hnr e he).elim⟩
                    intro d0 hd0 _
                    obtain hd0d := Route.dest.inj (hroute.symm.trans hd0)
                    subst hd0d
                    refine ⟨fun q hq => FS.mkdirp_ready s.fs d.dropLast q hq,
                      Or.inr ⟨hld1, by rw [hof]; simp⟩⟩
  · have hkf : env.knownType (lastStr src) = false := by
      cases hv : env.knownType (lastStr src)
      · rfl
      · exact absurd hv hk
    have hroute := routeOf_unknown_eq env cs src hkf
    unfold process_file
    rw [if_neg (by simp [hflag]),
      if_pos (show ¬ env.knownType (mkTaskArgs cs idx src).file = true from
        fun hc => hk hc)]
    dsimp only
    refine ⟨StepOK_of_fs_eq env cs W src s s rfl (fun k h => h)
      (Settled_of_not_dest env cs s src ?_) hInv, fun e he => ?_⟩
    · rw [hroute]
      intro d h
      cases h
    · rw [hroute] at he
      cases he

/-- The completion loop of a clean batch run: the invariant survives,
entries and ledger keys only grow, walks of separated trees are unchanged,
settledness of sources outside the task list survives, the flag can only
be raised, and when the flag ends clear every executed task's source is
either recorded in the final ledger or settled with a non-raising route. -/
theorem completeTasks_run1 (env : Env) (cs : CSArgs) (W : List Path)
    (hforce : cs.force = false)
    (hdu : ∀ x ∈ W, ∀ d, routeOf env cs x = .dest d → IsUnder cs.destDir d)
    (hinj : ∀ s1 ∈ W, ∀ s2 ∈ W, ∀ d, routeOf env cs s1 = .dest d →
      routeOf env cs s2 = .dest d → s1 = s2)
    (hnn : ∀ s1 ∈ W, ∀ s2 ∈ W, ∀ d1 d2, routeOf env cs s1 = .dest d1 →
      routeOf env cs s2 = .dest d2 → d1 ≠ d2 → ¬ d1 <+: d2) :
    ∀ (tasks : List Args) (acc : CompAcc),
      (∀ t ∈ tasks, ∃ src ∈ W, ∃ idx2, t = mkTaskArgs cs idx2 src) →
      (tasks.map Args.src).Nodup →
      Inv env cs W acc.st →
      Inv env cs W (completeTasks env cs tasks acc).st ∧
      (∀ k, k ∈ ledgerKeys acc.st.ledger →
        k ∈ ledgerKeys (completeTasks env cs tasks acc).st.ledger) ∧
      (∀ q n, acc.st.fs.lookup q = some n →
        (completeTasks env cs tasks acc).st.fs.lookup q = some n) ∧
      (∀ q, ¬ IsUnder cs.destDir q →
        (completeTasks env cs tasks acc).st.fs.lookup q = acc.st.fs.lookup q) ∧
      (∀ root, ¬ root <+: cs.destDir → ¬ cs.destDir <+: root →
        (completeTasks env cs tasks acc).st.fs.walkFiles root =
          acc.st.fs.walkFiles root) ∧
      (∀ x, x ∈ W → x ∉ tasks.map Args.src → Settled env cs acc.st x →
        Settled env cs (completeTasks env cs tasks acc).st x) ∧
      ((completeTasks env cs tasks acc).st.errorFlag = false →
        acc.st.errorFlag = false) ∧
      ((completeTasks env cs tasks acc).st.errorFlag = false →
        ∀ t ∈ tasks,
          t.src ∈ ledgerKeys (completeTasks env cs tasks acc).st.ledger ∨
          (Settled env cs (completeTasks env cs tasks acc).st t.src ∧
           ∀ e, routeOf env cs t.src ≠ .raisedR e)) := by
  intro tasks
  induction tasks with
  | nil =>
    intro acc _ _ hInv
    exact ⟨hInv, fun k h => h, fun q n h => h, fun q _ => rfl, fun root _ _ => rfl,
      fun x _ _ h => h, fun h => h, fun _ t ht => absurd ht (List.not_mem_nil t)⟩
  | cons t rest ih =>
    intro acc hform hnd hInv
    obtain ⟨src, hsrcW, idx2, rfl⟩ := hform t (List.mem_cons_self t rest)
    have hform' : ∀ t2 ∈ rest, ∃ src2 ∈ W, ∃ idx3, t2 = mkTaskArgs cs idx3 src2 :=
      fun t2 ht2 => hform t2 (List.mem_cons_of_mem _ ht2)
    have hnd2 : ((mkTaskArgs cs idx2 src).src :: rest.map Args.src).Nodup := by
      rw [← List.map_cons]
      exact hnd
    have hnd' : (rest.map Args.src).Nodup := (List.nodup_cons.mp hnd2).2
    have hnotin : src ∉ rest.map Args.src := (List.nodup_cons.mp hnd2).1
    simp only [completeTasks]
    rw [hforce]
    by_cases hflag : acc.st.errorFlag = true
    · rw [if_pos hflag]
      dsimp only
      refine ⟨hInv, fun k h => h, fun q n h => h, fun q _ => rfl, fun root _ _ => rfl,
        fun x _ _ h => h, fun h => h, fun hff => ?_⟩
      rw [hflag] at hff
      cases hff
    · have hflagf : acc.st.errorFlag = false := by
        cases hv : acc.st.errorFlag
        · rfl
        · exact absurd hv hflag
      rw [if_neg hflag]
      obtain ⟨hstep, hraisecl⟩ :=
        pf_step env cs W acc.st idx2 src hdu hinj hsrcW hflagf hInv
      obtain ⟨hInv', hkeys', hsome', hout', hnew', hwalk', hset'⟩ := hstep
      have hflag' := process_file_flag env acc.st (mkTaskArgs cs idx2 src) false
      cases heq : (process_file env acc.st (mkTaskArgs cs idx2 src) false).2.2 with
      | raised e =>
        dsimp only
        obtain ⟨iInv, ikeys, isome, iout, iwalk, ispres, iflag, iset⟩ := ih
          ⟨⟨(process_file env acc.st (mkTaskArgs cs idx2 src) false).1.fs,
            (process_file env acc.st (mkTaskArgs cs idx2 src) false).1.ledger, true⟩,
           acc.ctr,
           acc.evs ++ (process_file env acc.st (mkTaskArgs cs idx2 src) false).2.1 ++
             [mE ("Error processing task: " ++ e)],
           acc.results ++ [PFResult.raised e], acc.halted⟩
          hform' hnd' hInv'
        refine ⟨iInv, fun k hk => ikeys k (hkeys' k hk),
          fun q n hq => isome q n (hsome' q n hq),
          fun q hq => (iout q hq).trans (hout' q hq),
          fun root h1 h2 => (iwalk root h1 h2).trans (hwalk' root h1 h2),
          fun x hxW hxn hxs => ?_, fun hff => ?_, fun hff => ?_⟩
        · have hxne : x ≠ src := by
            intro he
            subst he
            exact hxn (by simp [mkTaskArgs])
          have hxn' : x ∉ rest.map Args.src := fun hh => hxn (by
            rw [List.map_cons]
            exact List.mem_cons_of_mem _ hh)
          exact ispres x hxW hxn'
            (Settled_mono env cs W acc.st _ x src hxW hsrcW hxne hinj hnn
              hkeys' hsome' hnew' hxs)
        · have hc : (true : Bool) = false := iflag hff
          cases hc
        · have hc : (true : Bool) = false := iflag hff
          cases hc
      | created d2 s2 =>
        dsimp only
        obtain ⟨iInv, ikeys, isome, iout, iwalk, ispres, iflag, iset⟩ := ih
          ⟨(process_file env acc.st (mkTaskArgs cs idx2 src) false).1,
           acc.ctr + 1,
           acc.evs ++ (process_file env acc.st (mkTaskArgs cs idx2 src) false).2.1 ++
             [mI ("Successfully processed: " ++ lastStr d2),
              mD ("Created symlink: " ++ pathStr d2 ++ " -> " ++ pathStr s2)],
           acc.results ++ [PFResult.created d2 s2], acc.halted⟩
          hform' hnd' hInv'
        refine ⟨iInv, fun k hk => ikeys k (hkeys' k hk),
          fun q n hq => isome q n (hsome' q n hq),
          fun q hq => (iout q hq).trans (hout' q hq),
          fun root h1 h2 => (iwalk root h1 h2).trans (hwalk' root h1 h2),
          fun x hxW hxn hxs => ?_, fun hff => hflag'.symm.trans (iflag hff), fun hff => ?_⟩
        · have hxne : x ≠ src := by
            intro he
            subst he
            exact hxn (by simp [mkTaskArgs])
          have hxn' : x ∉ rest.map Args.src := fun hh => hxn (by
            rw [List.map_cons]
            exact List.mem_cons_of_mem _ hh)
          exact ispres x hxW hxn'
            (Settled_mono env cs W acc.st _ x src hxW hsrcW hxne hinj hnn
              hkeys' hsome' hnew' hxs)
        · intro t2 ht2
          rcases List.mem_cons.mp ht2 with ht2 | ht2
          · subst ht2
            show src ∈ _ ∨ (Settled env cs _ src ∧ ∀ e, routeOf env cs src ≠ Route.raisedR e)
            cases hr : routeOf env cs src with
            | raisedR e =>
              rcases hraisecl e hr with hc | hc
              · rw [heq] at hc
                cases hc
              · exact Or.inl (ikeys _ hc)
            | unknown =>
              refine Or.inr ⟨ispres src hsrcW hnotin hset', fun e he => ?_⟩
              cases he
            | rejected =>
              refine Or.inr ⟨ispres src hsrcW hnotin hset', fun e he => ?_⟩
              cases he
            | extra =>
              refine Or.inr ⟨ispres src hsrcW hnotin hset', fun e he => ?_⟩
              cases he
            | noDest =>
              refine Or.inr ⟨ispres src hsrcW hnotin hset', fun e he => ?_⟩
              cases he
            | dest d3 =>
              refine Or.inr ⟨ispres src hsrcW hnotin hset', fun e he => ?_⟩
              cases he
          · exact iset hff t2 ht2
      | pynone =>
        dsimp only
        obtain ⟨iInv, ikeys, isome, iout, iwalk, ispres, iflag, iset⟩ := ih
          ⟨(process_file env acc.st (mkTaskArgs cs idx2 src) false).1,
           acc.ctr,
           acc.evs ++ (process_file env acc.st (mkTaskArgs cs idx2 src) false).2.1,
           acc.results ++ [PFResult.pynone], acc.halted⟩
          hform' hnd' hInv'
        refine ⟨iInv, fun k hk => ikeys k (hkeys' k hk),
          fun q n hq => isome q n (hsome' q n hq),
          fun q hq => (iout q hq).trans (hout' q hq),
          fun root h1 h2 => (iwalk root h1 h2).trans (hwalk' root h1 h2),
          fun x hxW hxn hxs => ?_, fun hff => hflag'.symm.trans (iflag hff), fun hff => ?_⟩
        · have hxne : x ≠ src := by
            intro he
            subst he
            exact hxn (by simp [mkTaskArgs])
          have hxn' : x ∉ rest.map Args.src := fun hh => hxn (by
            rw [List.map_cons]
            exact List.mem_cons_of_mem _ hh)
          exact ispres x hxW hxn'
            (Settled_mono env cs W acc.st _ x src hxW hsrcW hxne hinj hnn
              hkeys' hsome' hnew' hxs)
        · intro t2 ht2
          rcases List.mem_cons.mp ht2 with ht2 | ht2
          · subst ht2
            show src ∈ _ ∨ (Settled env cs _ src ∧ ∀ e, routeOf env cs src ≠ Route.raisedR e)
            cases hr : routeOf env cs src with
            | raisedR e =>
              rcases hraisecl e hr with hc | hc
              · rw [heq] at hc
                cases hc
              · exact Or.inl (ikeys _ hc)
            | unknown =>
              refine Or.inr ⟨ispres src hsrcW hnotin hset', fun e he => ?_⟩
              cases he
            | rejected =>
              refine Or.inr ⟨ispres src hsrcW hnotin hset', fun e he => ?_⟩
              cases he
            | extra =>
              refine Or.inr ⟨ispres src hsrcW hnotin hset', fun e he => ?_⟩
              cases he
            | noDest =>
              refine Or.inr ⟨ispres src hsrcW hnotin hset', fun e he => ?_⟩
              cases he
            | dest d3 =>
              refine Or.inr ⟨ispres src hsrcW hnotin hset', fun e he => ?_⟩
              cases he
          · exact iset hff t2 ht2

/-- A settled, unrecorded source is a complete no-op for the non-force
reconciler: the state is returned unchanged, the call returns `None`, and
no link-creation event is emitted. -/
theorem pf_noop (env : Env) (cs : CSArgs) (s : St) (idx : List Path) (src : Path)
    (hflag : s.errorFlag = false)
    (hled : src ∉ ledgerKeys s.ledger)
    (hidx : ∀ p ∈ idx, ¬ (s.fs.islink p = true ∧ s.fs.readlink p = some src))
    (hnr : ∀ e, routeOf env cs src ≠ .raisedR e)
    (hdest : ∀ d, routeOf env cs src = .dest d →
      (∀ q ∈ FS.prefixes d.dropLast, (s.fs.lookup q).isSome = true) ∧
      ((∃ n, s.fs.lookup d = some n ∧ ∀ t, n ≠ FNode.symlink t) ∨
       (s.fs.lookup d = none ∧ env.osFault src d ≠ none))) :
    (process_file env s (mkTaskArgs cs idx src) false).1 = s ∧
    (process_file env s (mkTaskArgs cs idx src) false).2.2 = .pynone ∧
    hasSymlinkEv (process_file env s (mkTaskArgs cs idx src) false).2.1 = false := by
  by_cases hk : env.knownType (lastStr src) = true
  · rw [process_file_noforce env s (mkTaskArgs cs idx src) hflag hk]
    unfold pfMain
    have hgdp : get_destination_path s.ledger (mkTaskArgs cs idx src).src = none :=
      (gdp_eq_none_iff _ _).mpr hled
    rw [pfLedgerCheck_none s (mkTaskArgs cs idx src).src false hgdp]
    dsimp only
    have hfind : (mkTaskArgs cs idx src).destIndex.find?
        (fun p => s.fs.islink p && s.fs.readlink p == some (mkTaskArgs cs idx src).src)
        = none := by
      rw [List.find?_eq_none]
      intro p hp hb
      rw [Bool.and_eq_true] at hb
      refine hidx p hp ⟨hb.1, ?_⟩
      have hb2 := hb.2
      rwa [beq_iff_eq] at hb2
    rw [pfIndexCheck_none s (mkTaskArgs cs idx src) false hfind]
    dsimp only
    cases hcl : pfClassify env (mkTaskArgs cs idx src) with
    | error ev4 =>
      dsimp only
      exact ⟨rfl, rfl, pfClassify_error_no_symlink env _ ev4 hcl⟩
    | ok det =>
      dsimp only
      have hcl0 : pfClassify env (mkTaskArgs cs [] src) = .ok det := by
        rw [← pfClassify_idx env cs idx src]
        exact hcl
      have hdet : hasSymlinkEv det.ev = false := by
        rw [pfClassify_ok_det env _ det hcl]
        exact pfDetect_no_symlink env _
      cases hres : pfResolve env (mkTaskArgs cs idx src) det.isShow det.isAnime with
      | raisedR e =>
        exfalso
        refine hnr e (routeOf_raised_eq env cs src hk det hcl0 e ?_)
        rw [← pfResolve_idx env cs idx src]
        exact hres
      | extraSkip ev5 =>
        dsimp only
        refine ⟨rfl, rfl, ?_⟩
        have h5 := pfResolve_extraSkip_no_symlink env (mkTaskArgs cs idx src)
          det.isShow det.isAnime ev5 hres
        simp [hasSymlinkEv_append, hdet, h5]
      | resolved dst tm sn =>
        dsimp only
        cases dst with
        | none =>
          refine ⟨rfl, rfl, ?_⟩
          simp only [List.nil_append, hasSymlinkEv_append, hdet, Bool.false_or]
          rfl
        | some d =>
          have hroute : routeOf env cs src = .dest d := by
            refine routeOf_dest_eq env cs src hk det hcl0 d tm sn ?_
            rw [← pfResolve_idx env cs idx src]
            exact hres
          obtain ⟨hpre, hdisj⟩ := hdest d hroute
          have hmk : s.fs.mkdirp d.dropLast = s.fs := FS.mkdirp_eq_self s.fs d.dropLast hpre
          simp only [pfMaterialize]
          rw [hmk]
          rcases hdisj with ⟨n, hld, hnl⟩ | ⟨hld, hf⟩
          · have hrd : s.fs.readlink d = none := by
              unfold FS.readlink
              rw [hld]
              cases n with
              | file => rfl
              | dir => rfl
              | symlink t => exact absurd rfl (hnl t)
            rw [hrd]
            dsimp only
            have hpex : s.fs.pexists d = true := by
              unfold FS.pexists
              rw [hld]
              cases n with
              | file => rfl
              | dir => rfl
              | symlink t => exact absurd rfl (hnl t)
            have hil : s.fs.islink d = false := by
              rw [FS.islink_eq_isSome_readlink, hrd]
              rfl
            rw [if_pos ⟨hpex, by rw [hil]; simp⟩]
            refine ⟨rfl, rfl, ?_⟩
            simp only [List.nil_append, hasSymlinkEv_append, hdet, Bool.false_or]
            rfl
          · have hrd : s.fs.readlink d = none := by
              unfold FS.readlink
              rw [hld]
            rw [hrd]
            dsimp only
            have hpex : s.fs.pexists d = false := by
              unfold FS.pexists
              rw [hld]
            rw [if_neg (fun hc => by rw [hpex] at hc; cases hc.1)]
            cases hof : env.osFault src d with
            | none => exact absurd hof hf
            | some f =>
              have hfa := pfCreate_fault env ⟨s.fs, s.ledger, s.errorFlag⟩
                (mkTaskArgs cs idx src) d tm sn f hof
              refine ⟨?_, hfa.2.1, ?_⟩
              · rw [hfa.1]
              · simp only [List.nil_append, hasSymlinkEv_append, hdet, hfa.2.2,
                  Bool.false_or, Bool.or_false]
                rfl
  · unfold process_file
    rw [if_neg (by simp [hflag]),
      if_pos (show ¬ env.knownType (mkTaskArgs cs idx src).file = true from
        fun hc => hk hc)]
    exact ⟨rfl, rfl, by simp [hasSymlinkEv, mI]⟩

/-- A completion loop whose every task is a no-op leaves the state exactly
unchanged, never halts, and emits no link event. -/
theorem completeTasks_noop (env : Env) (cs : CSArgs) (s0 : St)
    (hflag : s0.errorFlag = false) :
    ∀ (tasks : List Args) (acc : CompAcc),
      (∀ t ∈ tasks, (process_file env s0 t cs.force).1 = s0 ∧
        (process_file env s0 t cs.force).2.2 = .pynone ∧
        hasSymlinkEv (process_file env s0 t cs.force).2.1 = false) →
      acc.st = s0 → acc.halted = false → hasSymlinkEv acc.evs = false →
      (completeTasks env cs tasks acc).st = s0 ∧
      (completeTasks env cs tasks acc).halted = false ∧
      hasSymlinkEv (completeTasks env cs tasks acc).evs = false := by
  intro tasks
  induction tasks with
  | nil =>
    intro acc _ h1 h2 h3
    exact ⟨h1, h2, h3⟩
  | cons t rest ih =>
    intro acc hT h1 h2 h3
    obtain ⟨ht1, ht2, ht3⟩ := hT t (List.mem_cons_self t rest)
    simp only [completeTasks]
    rw [if_neg (by rw [h1, hflag]; simp)]
    rw [h1, ht2]
    dsimp only
    refine ih ⟨(process_file env s0 t cs.force).1, acc.ctr,
      acc.evs ++ (process_file env s0 t cs.force).2.1,
      acc.results ++ [PFResult.pynone], acc.halted⟩
      (fun t2 hm => hT t2 (List.mem_cons_of_mem _ hm)) ht1 h2 ?_
    show hasSymlinkEv (acc.evs ++ (process_file env s0 t cs.force).2.1) = false
    rw [hasSymlinkEv_append, h3, ht3]
    rfl

/-- With the flag clear in create (non-monitor, non-force) mode, the
per-file dispatch loop submits exactly the walked files missing from the
already-processed log, in order, and never aborts. -/
theorem dispatchFiles_tasks_eq (cs : CSArgs) (log : List Path) (total : Nat)
    (idx : List Path) (hmon : cs.monitor = false) (hforce : cs.force = false) :
    ∀ (files : List Path) (acc : DispAcc),
      (dispatchFiles cs false log total idx files acc).tasks =
        acc.tasks ++
          (files.filter (fun p => !(decide (p ∈ log)))).map (mkTaskArgs cs idx) ∧
      (dispatchFiles cs false log total idx files acc).aborted = acc.aborted := by
  intro files
  induction files with
  | nil =>
    intro acc
    exact ⟨by simp [dispatchFiles], rfl⟩
  | cons p rest ih =>
    intro acc
    simp only [dispatchFiles]
    rw [if_neg (by simp)]
    by_cases hlog : p ∈ log
    · rw [if_pos ⟨by simp [hmon], hlog, by simp [hforce]⟩]
      obtain ⟨iht, iha⟩ := ih acc
      rw [iht, List.filter_cons, if_neg (by simp [hlog])]
      exact ⟨rfl, iha⟩
    · rw [if_neg (fun hc => hlog hc.2.1)]
      obtain ⟨iht, iha⟩ := ih
        ⟨acc.tasks ++ [mkTaskArgs cs idx p], acc.ctr + 1,
         acc.evs ++ [mI ("Processing file " ++ toString (acc.ctr + 1) ++ "/" ++
                         toString total ++ ": " ++ lastStr p)],
         acc.aborted⟩
      rw [iht, List.filter_cons, if_pos (by simp [hlog]), List.map_cons]
      exact ⟨by simp [List.append_assoc], iha⟩

/-- With the flag clear, the dispatch phase over directory roots submits
exactly the walked, unlogged files of every root, in order. -/
theorem dispatchDirs_tasks_eq (cs : CSArgs) (fs : FS) (log : List Path) (total : Nat)
    (hmon : cs.monitor = false) (hforce : cs.force = false) :
    ∀ (dirs : List Path) (acc : DispAcc),
      (∀ d ∈ dirs, fs.isfile d = false) →
      acc.aborted = false →
      (dispatchDirs cs fs false log total dirs acc).tasks =
        acc.tasks ++ dirs.flatMap (fun dd =>
          ((fs.walkFiles dd).filter (fun p => !(decide (p ∈ log)))).map
            (mkTaskArgs cs (build_dest_index fs cs.destDir))) ∧
      (dispatchDirs cs fs false log total dirs acc).aborted = false := by
  intro dirs
  induction dirs with
  | nil =>
    intro acc _ ha
    exact ⟨by simp [dispatchDirs], ha⟩
  | cons dd rest ih =>
    intro acc hf ha
    simp only [dispatchDirs]
    rw [if_neg (by simp [ha]), if_neg (by simp [hf dd (List.mem_cons_self dd rest)])]
    obtain ⟨ht, habort⟩ := dispatchFiles_tasks_eq cs log total
      (build_dest_index fs cs.destDir) hmon hforce (fs.walkFiles dd)
      ⟨acc.tasks, acc.ctr,
       acc.evs ++ [mI ("Scanning source directory: " ++ pathStr dd)], acc.aborted⟩
    obtain ⟨iht, iha⟩ := ih
      (dispatchFiles cs false log total (build_dest_index fs cs.destDir)
        (fs.walkFiles dd)
        ⟨acc.tasks, acc.ctr,
         acc.evs ++ [mI ("Scanning source directory: " ++ pathStr dd)], acc.aborted⟩)
      (fun d2 h2 => hf d2 (List.mem_cons_of_mem _ h2))
      (by rw [habort]; exact ha)
    rw [iht, ht]
    exact ⟨by simp [List.flatMap_cons, List.append_assoc], iha⟩

/-- The per-file dispatch loop emits only messages. -/
theorem dispatchFiles_evs_nosym (cs : CSArgs) (flag : Bool) (log : List Path)
    (total : Nat) (idx : List Path) :
    ∀ (files : List Path) (acc : DispAcc), hasSymlinkEv acc.evs = false →
      hasSymlinkEv (dispatchFiles cs flag log total idx files acc).evs = false := by
  intro files
  induction files with
  | nil => intro acc h; exact h
  | cons p rest ih =>
    intro acc h
    simp only [dispatchFiles]
    split
    · show hasSymlinkEv (acc.evs ++ [mW _]) = false
      rw [hasSymlinkEv_append, h]
      rfl
    · split
      · exact ih acc h
      · refine ih _ ?_
        show hasSymlinkEv (acc.evs ++ [mI _]) = false
        rw [hasSymlinkEv_append, h]
        rfl

/-- The dispatch phase emits only messages. -/
theorem dispatchDirs_evs_nosym (cs : CSArgs) (fs : FS) (flag : Bool)
    (log : List Path) (total : Nat) :
    ∀ (dirs : List Path) (acc : DispAcc), hasSymlinkEv acc.evs = false →
      hasSymlinkEv (dispatchDirs cs fs flag log total dirs acc).evs = false := by
  intro dirs
  induction dirs with
  | nil => intro acc h; exact h
  | cons dd rest ih =>
    intro acc h
    simp only [dispatchDirs]
    split
    · exact h
    · split
      · exact ih _ h
      · refine ih _ (dispatchFiles_evs_nosym cs flag log total _ _ _ ?_)
        show hasSymlinkEv (acc.evs ++ [mI _]) = false
        rw [hasSymlinkEv_append, h]
        rfl

/-- When the flag is already set, the completion loop emits only its
halting message. -/
theorem completeTasks_flagtrue_evs (env : Env) (cs : CSArgs) (tasks : List Args)
    (acc : CompAcc) (hf : acc.st.errorFlag = true)
    (he : hasSymlinkEv acc.evs = false) :
    hasSymlinkEv (completeTasks env cs tasks acc).evs = false := by
  cases tasks with
  | nil => exact he
  | cons t rest =>
    unfold completeTasks
    rw [if_pos hf]
    show hasSymlinkEv (acc.evs ++ [mE _]) = false
    rw [hasSymlinkEv_append, he]
    rfl

/-- Rebuilding a state from its fields and its known flag value. -/
theorem St_eta_flag (x : St) (b : Bool) (h : x.errorFlag = b) :
    (⟨x.fs, x.ledger, b⟩ : St) = x := by
  subst h
  rfl

/-- A flattened map over disjoint duplicate-free blocks is
duplicate-free. -/
theorem nodup_flatMap_of_disjoint {α β : Type} (l : List α) (f : α → List β)
    (hl : l.Nodup) (hn : ∀ a ∈ l, (f a).Nodup)
    (hd : ∀ a1 ∈ l, ∀ a2 ∈ l, a1 ≠ a2 → ∀ x, x ∈ f a1 → x ∈ f a2 → False) :
    (l.flatMap f).Nodup := by
  induction l with
  | nil => simp
  | cons a rest ih =>
    rw [List.flatMap_cons, List.nodup_append]
    obtain ⟨hna, hrest⟩ := List.nodup_cons.mp hl
    refine ⟨hn a (List.mem_cons_self a rest), ih hrest
      (fun a2 h2 => hn a2 (List.mem_cons_of_mem _ h2))
      (fun a1 h1 a2 h2 hne => hd a1 (List.mem_cons_of_mem _ h1)
        a2 (List.mem_cons_of_mem _ h2) hne), ?_⟩
    intro x hx1 hx2
    obtain ⟨a2, ha2, hxa2⟩ := List.mem_flatMap.mp hx2
    have hne : a ≠ a2 := fun he => hna (he ▸ ha2)
    exact hd a (List.mem_cons_self a rest) a2 (List.mem_cons_of_mem _ ha2) hne x hx1 hxa2

/-- The tasks a clean batch dispatch submits: for each source root in
order, the walked files missing from the already-processed log. -/
def runTasks (cs : CSArgs) (fs : FS) (led : Ledger) : List Args :=
  cs.srcDirs.flatMap (fun dd =>
    ((fs.walkFiles dd).filter (fun p => !(decide (p ∈ load_processed_files led)))).map
      (mkTaskArgs cs (build_dest_index fs cs.destDir)))

/-- Task-list membership, forward direction. -/
theorem runTasks_mem (cs : CSArgs) (fs : FS) (led : Ledger) (t : Args)
    (ht : t ∈ runTasks cs fs led) :
    ∃ dd ∈ cs.srcDirs, ∃ src, src ∈ fs.walkFiles dd ∧
      src ∉ load_processed_files led ∧
      t = mkTaskArgs cs (build_dest_index fs cs.destDir) src := by
  unfold runTasks at ht
  obtain ⟨dd, hdd, hmem⟩ := List.mem_flatMap.mp ht
  obtain ⟨src, hsrc, heq⟩ := List.mem_map.mp hmem
  obtain ⟨hsrcw, hkeep⟩ := List.mem_filter.mp hsrc
  refine ⟨dd, hdd, src, hsrcw, ?_, heq.symm⟩
  simpa using hkeep

/-- Task-list membership, backward direction. -/
theorem runTasks_mem_of (cs : CSArgs) (fs : FS) (led : Ledger) (dd src : Path)
    (hdd : dd ∈ cs.srcDirs) (hsrc : src ∈ fs.walkFiles dd)
    (hnl : src ∉ load_processed_files led) :
    mkTaskArgs cs (build_dest_index fs cs.destDir) src ∈ runTasks cs fs led := by
  unfold runTasks
  exact List.mem_flatMap.mpr ⟨dd, hdd,
    List.mem_map.mpr ⟨src, List.mem_filter.mpr ⟨hsrc, by simpa⟩, rfl⟩⟩

/-- With duplicate-free entry paths and pairwise non-nested source roots,
the dispatched sources are duplicate-free. -/
theorem runTasks_srcs_nodup (cs : CSArgs) (fs : FS) (led : Ledger)
    (hnd : FS.pathsNodup fs) (hdnd : cs.srcDirs.Nodup)
    (hpair : ∀ d1 ∈ cs.srcDirs, ∀ d2 ∈ cs.srcDirs, d1 ≠ d2 → ¬ d1 <+: d2) :
    ((runTasks cs fs led).map Args.src).Nodup := by
  have hmap : (runTasks cs fs led).map Args.src =
      cs.srcDirs.flatMap (fun dd =>
        (fs.walkFiles dd).filter (fun p => !(decide (p ∈ load_processed_files led)))) := by
    unfold runTasks
    rw [List.map_flatMap]
    congr 1
    funext dd
    rw [List.map_map]
    have : (Args.src ∘ mkTaskArgs cs (build_dest_index fs cs.destDir)) = id := by
      funext p
      rfl
    rw [this, List.map_id]
  rw [hmap]
  refine nodup_flatMap_of_disjoint cs.srcDirs _ hdnd
    (fun dd _ => (FS.walkFiles_nodup fs dd hnd).filter _)
    (fun d1 h1 d2 h2 hne x hx1 hx2 => ?_)
  have hm1 := (List.mem_filter.mp hx1).1
  have hm2 := (List.mem_filter.mp hx2).1
  obtain ⟨hp1, _⟩ := FS.mem_walkFiles_under fs d1 x hm1
  obtain ⟨hp2, _⟩ := FS.mem_walkFiles_under fs d2 x hm2
  rcases List.prefix_or_prefix_of_prefix hp1 hp2 with hc | hc
  · exact hpair d1 h1 d2 h2 hne hc
  · exact hpair d2 h2 d1 h1 (Ne.symm hne) hc

/-- A clean, non-aborting batch run is the completion loop over the
dispatched tasks, started from the post-`makedirs` state. -/
theorem create_symlinks_spec (env : Env) (cs : CSArgs) (s : St)
    (hmon : cs.monitor = false) (hforce : cs.force = false)
    (hflag : s.errorFlag = false)
    (hisf : ∀ d ∈ cs.srcDirs, (s.fs.mkdirp cs.destDir).isfile d = false) :
    ∃ ctr,
      (create_symlinks env cs s).st =
        (completeTasks env cs (runTasks cs (s.fs.mkdirp cs.destDir) s.ledger)
          ⟨⟨s.fs.mkdirp cs.destDir, s.ledger, false⟩, ctr, [], [], false⟩).st ∧
      (hasSymlinkEv
          (completeTasks env cs (runTasks cs (s.fs.mkdirp cs.destDir) s.ledger)
            ⟨⟨s.fs.mkdirp cs.destDir, s.ledger, false⟩, ctr, [], [], false⟩).evs =
          false →
        hasSymlinkEv (create_symlinks env cs s).events = false) := by
  have hd := dispatchDirs_tasks_eq cs (s.fs.mkdirp cs.destDir)
    (load_processed_files s.ledger)
    (countTotal env (s.fs.mkdirp cs.destDir) cs.srcDirs) hmon hforce cs.srcDirs
    ⟨[], 0, [], false⟩ hisf rfl
  simp only [create_symlinks]
  rw [hflag]
  rw [if_neg (by rw [hd.2]; simp)]
  have hrt : (dispatchDirs cs (s.fs.mkdirp cs.destDir) false
      (load_processed_files s.ledger)
      (countTotal env (s.fs.mkdirp cs.destDir) cs.srcDirs) cs.srcDirs
      ⟨[], 0, [], false⟩).tasks = runTasks cs (s.fs.mkdirp cs.destDir) s.ledger := by
    rw [hd.1]
    rfl
  refine ⟨(dispatchDirs cs (s.fs.mkdirp cs.destDir) false
    (load_processed_files s.ledger)
    (countTotal env (s.fs.mkdirp cs.destDir) cs.srcDirs) cs.srcDirs
    ⟨[], 0, [], false⟩).ctr, ?_, ?_⟩
  · rw [hrt]
  · intro hc
    show hasSymlinkEv ([mI _] ++ _ ++ _ ++ _) = false
    rw [hasSymlinkEv_append, hasSymlinkEv_append, hasSymlinkEv_append, hrt]
    have h0 : hasSymlinkEv [mI ("Starting to process " ++
        toString (countTotal env (s.fs.mkdirp cs.destDir) cs.srcDirs) ++
        " files...")] = false := rfl
    have h1 : hasSymlinkEv (dispatchDirs cs (s.fs.mkdirp cs.destDir) false
        (load_processed_files s.ledger)
        (countTotal env (s.fs.mkdirp cs.destDir) cs.srcDirs) cs.srcDirs
        ⟨[], 0, [], false⟩).evs = false :=
      dispatchDirs_evs_nosym cs _ false _ _ cs.srcDirs _ rfl
    rw [h0, h1, hc]
    have h3 : ∀ b : Bool, ∀ n : Nat, hasSymlinkEv
        (if b then [] else [mI ("Processing completed. Successfully processed " ++
          toString n ++ " files.")]) = false := by
      intro b n
      cases b
      · rfl
      · rfl
    rw [h3]
    rfl

/-- A batch run entered with the flag already set touches nothing: the
dispatch walk stops before any file and the completion loop never runs. -/
theorem create_symlinks_flagged (env : Env) (cs : CSArgs) (s : St)
    (hflag : s.errorFlag = true)
    (hPD : ∀ q ∈ FS.prefixes cs.destDir, (s.fs.lookup q).isSome = true) :
    (create_symlinks env cs s).st = s ∧
    hasSymlinkEv (create_symlinks env cs s).events = false := by
  have hmk : s.fs.mkdirp cs.destDir = s.fs := FS.mkdirp_eq_self s.fs cs.destDir hPD
  simp only [create_symlinks]
  rw [hflag, hmk]
  have hst : (⟨s.fs, s.ledger, true⟩ : St) = s := St_eta_flag s true hflag
  split
  · refine ⟨hst, ?_⟩
    show hasSymlinkEv ([mI _] ++ _) = false
    rw [hasSymlinkEv_append]
    have h1 : hasSymlinkEv (dispatchDirs cs s.fs true
        (load_processed_files s.ledger) (countTotal env s.fs cs.srcDirs) cs.srcDirs
        ⟨[], 0, [], false⟩).evs = false :=
      dispatchDirs_evs_nosym cs _ true _ _ cs.srcDirs _ rfl
    rw [h1]
    rfl
  · have hstop := completeTasks_flag_stop env cs
      (dispatchDirs cs s.fs true (load_processed_files s.ledger)
        (countTotal env s.fs cs.srcDirs) cs.srcDirs ⟨[], 0, [], false⟩).tasks
      ⟨⟨s.fs, s.ledger, true⟩,
       (dispatchDirs cs s.fs true (load_processed_files s.ledger)
         (countTotal env s.fs cs.srcDirs) cs.srcDirs ⟨[], 0, [], false⟩).ctr,
       [], [], false⟩ rfl
    refine ⟨hstop.1.trans hst, ?_⟩
    show hasSymlinkEv ([mI _] ++ _ ++ _ ++ _) = false
    rw [hasSymlinkEv_append, hasSymlinkEv_append, hasSymlinkEv_append]
    have h1 : hasSymlinkEv (dispatchDirs cs s.fs true
        (load_processed_files s.ledger) (countTotal env s.fs cs.srcDirs) cs.srcDirs
        ⟨[], 0, [], false⟩).evs = false :=
      dispatchDirs_evs_nosym cs _ true _ _ cs.srcDirs _ rfl
    have h2 : hasSymlinkEv (completeTasks env cs
        (dispatchDirs cs s.fs true (load_processed_files s.ledger)
          (countTotal env s.fs cs.srcDirs) cs.srcDirs ⟨[], 0, [], false⟩).tasks
        ⟨⟨s.fs, s.ledger, true⟩,
         (dispatchDirs cs s.fs true (load_processed_files s.ledger)
           (countTotal env s.fs cs.srcDirs) cs.srcDirs ⟨[], 0, [], false⟩).ctr,
         [], [], false⟩).evs = false :=
      completeTasks_flagtrue_evs env cs _ _ rfl rfl
    rw [h1, h2]
    have h3 : ∀ b : Bool, ∀ n : Nat, hasSymlinkEv
        (if b then [] else [mI ("Processing completed. Successfully processed " ++
          toString n ++ " files.")]) = false := by
      intro b n
      cases b
      · rfl
      · rfl
    rw [h3]
    rfl

/-- C9 (amended): over a well-separated world — batch create mode with a
clean error flag, duplicate-free filesystem paths, directory source roots
pairwise non-nested and separated from the destination root, resolved
destinations strictly below the destination root, injective and pairwise
non-nested across walked sources, and every pre-existing link below the
destination root recorded in the ledger for the source it targets — a
second `create_symlinks` run over the unchanged source tree leaves the
filesystem, ledger and flag exactly as the first run left them, and its
trace carries no link-creation event.  Previously linked sources are
skipped at dispatch by the already-processed ledger check; sources the
first run rejected are re-dispatched and re-rejected by the same rule. -/
theorem C9_idempotence (env : Env) (cs : CSArgs) (st0 : St)
    (hforce : cs.force = false)
    (hmon : cs.monitor = false)
    (hflag0 : st0.errorFlag = false)
    (hnd0 : FS.pathsNodup st0.fs)
    (hdirs : ∀ d ∈ cs.srcDirs, st0.fs.isfile d = false)
    (hsep : ∀ d ∈ cs.srcDirs, ¬ d <+: cs.destDir ∧ ¬ cs.destDir <+: d)
    (hpair : ∀ d1 ∈ cs.srcDirs, ∀ d2 ∈ cs.srcDirs, d1 ≠ d2 → ¬ d1 <+: d2)
    (hdnd : cs.srcDirs.Nodup)
    (hdu : ∀ x ∈ walkedSrcs st0.fs cs.srcDirs, ∀ d, routeOf env cs x = .dest d →
      IsUnder cs.destDir d)
    (hinj : ∀ s1 ∈ walkedSrcs st0.fs cs.srcDirs, ∀ s2 ∈ walkedSrcs st0.fs cs.srcDirs,
      ∀ d, routeOf env cs s1 = .dest d → routeOf env cs s2 = .dest d → s1 = s2)
    (hnn : ∀ s1 ∈ walkedSrcs st0.fs cs.srcDirs, ∀ s2 ∈ walkedSrcs st0.fs cs.srcDirs,
      ∀ d1 d2, routeOf env cs s1 = .dest d1 → routeOf env cs s2 = .dest d2 →
      d1 ≠ d2 → ¬ d1 <+: d2)
    (hlinks0 : ∀ e ∈ st0.fs.entries, ∀ t, e.2 = FNode.symlink t →
      IsUnder cs.destDir e.1 →
      t ∈ ledgerKeys st0.ledger ∧ t ∈ walkedSrcs st0.fs cs.srcDirs ∧
      routeOf env cs t = .dest e.1) :
    (create_symlinks env cs (create_symlinks env cs st0).st).st =
      (create_symlinks env cs st0).st ∧
    hasSymlinkEv (create_symlinks env cs (create_symlinks env cs st0).st).events =
      false := by
  have hPD1 : ∀ q ∈ FS.prefixes cs.destDir,
      ((st0.fs.mkdirp cs.destDir).lookup q).isSome = true :=
    fun q hq => FS.mkdirp_ready st0.fs cs.destDir q hq
  have hInv1 : Inv env cs (walkedSrcs st0.fs cs.srcDirs)
      ⟨st0.fs.mkdirp cs.destDir, st0.ledger, false⟩ := by
    refine ⟨hPD1, fun p t hp hr => ?_⟩
    have hr0 : st0.fs.readlink p = some t := by
      rw [← FS.readlink_mkdirp st0.fs cs.destDir p]
      exact hr
    exact hlinks0 (p, FNode.symlink t) (FS.readlink_mem_entry st0.fs p t hr0) t rfl hp
  have hlk1 : ∀ d ∈ cs.srcDirs,
      (st0.fs.mkdirp cs.destDir).lookup d = st0.fs.lookup d := by
    intro d hd
    refine FS.lookup_mkdirp_not_prefix st0.fs cs.destDir d (fun hm => ?_)
    exact (hsep d hd).1 (FS.mem_prefixes_prefix cs.destDir d hm)
  have hisf1 : ∀ d ∈ cs.srcDirs, (st0.fs.mkdirp cs.destDir).isfile d = false := by
    intro d hd
    rw [FS.isfile_congr _ st0.fs d (hlk1 d hd)]
    exact hdirs d hd
  have hwalk1 : ∀ dd, (st0.fs.mkdirp cs.destDir).walkFiles dd = st0.fs.walkFiles dd :=
    FS.walkFiles_mkdirp st0.fs cs.destDir
  obtain ⟨ctr1, ho1st, _⟩ := create_symlinks_spec env cs st0 hmon hforce hflag0 hisf1
  have hform1 : ∀ t ∈ runTasks cs (st0.fs.mkdirp cs.destDir) st0.ledger,
      ∃ src ∈ walkedSrcs st0.fs cs.srcDirs, ∃ idx2, t = mkTaskArgs cs idx2 src := by
    intro t ht
    obtain ⟨dd, hdd, src, hsrcw, _, heq⟩ := runTasks_mem cs _ _ t ht
    rw [hwalk1 dd] at hsrcw
    exact ⟨src, List.mem_flatMap.mpr ⟨dd, hdd, hsrcw⟩, _, heq⟩
  have hnd1 : ((runTasks cs (st0.fs.mkdirp cs.destDir) st0.ledger).map Args.src).Nodup :=
    runTasks_srcs_nodup cs _ _ (FS.pathsNodup_mkdirp st0.fs cs.destDir hnd0) hdnd hpair
  obtain ⟨jInv, jkeys, jsome, jout, jwalk, jspres, jflagm, jset⟩ :=
    completeTasks_run1 env cs (walkedSrcs st0.fs cs.srcDirs) hforce hdu hinj hnn
      (runTasks cs (st0.fs.mkdirp cs.destDir) st0.ledger)
      ⟨⟨st0.fs.mkdirp cs.destDir, st0.ledger, false⟩, ctr1, [], [], false⟩
      hform1 hnd1 hInv1
  rw [ho1st]
  have hPDf := jInv.1
  have hisff : ∀ d ∈ cs.srcDirs,
      (completeTasks env cs (runTasks cs (st0.fs.mkdirp cs.destDir) st0.ledger)
        ⟨⟨st0.fs.mkdirp cs.destDir, st0.ledger, false⟩, ctr1, [], [], false⟩).st.fs.isfile
        d = false := by
    intro d hd
    have hq : ¬ IsUnder cs.destDir d := fun hu => (hsep d hd).2 hu.1
    rw [FS.isfile_congr _ _ d (jout d hq)]
    exact hisf1 d hd
  have hwalkf : ∀ d ∈ cs.srcDirs,
      (completeTasks env cs (runTasks cs (st0.fs.mkdirp cs.destDir) st0.ledger)
        ⟨⟨st0.fs.mkdirp cs.destDir, st0.ledger, false⟩, ctr1, [], [], false⟩).st.fs.walkFiles
        d = st0.fs.walkFiles d := by
    intro d hd
    rw [jwalk d (hsep d hd).1 (hsep d hd).2]
    exact hwalk1 d
  have hmkf :
      (completeTasks env cs (runTasks cs (st0.fs.mkdirp cs.destDir) st0.ledger)
        ⟨⟨st0.fs.mkdirp cs.destDir, st0.ledger, false⟩, ctr1, [], [], false⟩).st.fs.mkdirp
        cs.destDir =
      (completeTasks env cs (runTasks cs (st0.fs.mkdirp cs.destDir) st0.ledger)
        ⟨⟨st0.fs.mkdirp cs.destDir, st0.ledger, false⟩, ctr1, [], [], false⟩).st.fs :=
    FS.mkdirp_eq_self _ cs.destDir hPDf
  cases hF : (completeTasks env cs (runTasks cs (st0.fs.mkdirp cs.destDir) st0.ledger)
      ⟨⟨st0.fs.mkdirp cs.destDir, st0.ledger, false⟩, ctr1, [], [], false⟩).st.errorFlag with
  | true => exact create_symlinks_flagged env cs _ hF hPDf
  | false =>
    have hisf2 : ∀ d ∈ cs.srcDirs,
        ((completeTasks env cs (runTasks cs (st0.fs.mkdirp cs.destDir) st0.ledger)
          ⟨⟨st0.fs.mkdirp cs.destDir, st0.ledger, false⟩, ctr1, [], [],
           false⟩).st.fs.mkdirp cs.destDir).isfile d = false := by
      intro d hd
      rw [hmkf]
      exact hisff d hd
    obtain ⟨ctr2, ho2st, ho2ev⟩ := create_symlinks_spec env cs _ hmon hforce hF hisf2
    have htasks : ∀ t ∈ runTasks cs
        ((completeTasks env cs (runTasks cs (st0.fs.mkdirp cs.destDir) st0.ledger)
          ⟨⟨st0.fs.mkdirp cs.destDir, st0.ledger, false⟩, ctr1, [], [],
           false⟩).st.fs.mkdirp cs.destDir)
        (completeTasks env cs (runTasks cs (st0.fs.mkdirp cs.destDir) st0.ledger)
          ⟨⟨st0.fs.mkdirp cs.destDir, st0.ledger, false⟩, ctr1, [], [],
           false⟩).st.ledger,
        (process_file env
          (completeTasks env cs (runTasks cs (st0.fs.mkdirp cs.destDir) st0.ledger)
            ⟨⟨st0.fs.mkdirp cs.destDir, st0.ledger, false⟩, ctr1, [], [], false⟩).st
          t cs.force).1 =
          (completeTasks env cs (runTasks cs (st0.fs.mkdirp cs.destDir) st0.ledger)
            ⟨⟨st0.fs.mkdirp cs.destDir, st0.ledger, false⟩, ctr1, [], [], false⟩).st ∧
        (process_file env
          (completeTasks env cs (runTasks cs (st0.fs.mkdirp cs.destDir) st0.ledger)
            ⟨⟨st0.fs.mkdirp cs.destDir, st0.ledger, false⟩, ctr1, [], [], false⟩).st
          t cs.force).2.2 = .pynone ∧
        hasSymlinkEv (process_file env
          (completeTasks env cs (runTasks cs (st0.fs.mkdirp cs.destDir) st0.ledger)
            ⟨⟨st0.fs.mkdirp cs.destDir, st0.ledger, false⟩, ctr1, [], [], false⟩).st
          t cs.force).2.1 = false := by
      intro t ht
      rw [hmkf] at ht
      obtain ⟨dd, hdd, src, hsrcw, hnlog, rfl⟩ := runTasks_mem cs _ _ t ht
      have hsrcw0 : src ∈ st0.fs.walkFiles dd := by
        rw [← hwalkf dd hdd]
        exact hsrcw
      have hsrcW : src ∈ walkedSrcs st0.fs cs.srcDirs :=
        List.mem_flatMap.mpr ⟨dd, hdd, hsrcw0⟩
      have hled0 : src ∉ load_processed_files st0.ledger :=
        fun hh => hnlog (jkeys src hh)
      have htwin : mkTaskArgs cs
          (build_dest_index (st0.fs.mkdirp cs.destDir) cs.destDir) src
          ∈ runTasks cs (st0.fs.mkdirp cs.destDir) st0.ledger := by
        refine runTasks_mem_of cs _ _ dd src hdd ?_ hled0
        rw [hwalk1 dd]
        exact hsrcw0
      rcases jset hF _ htwin with hc | ⟨hsettled, hnr⟩
      · exact absurd hc hnlog
      · rw [hforce]
        refine pf_noop env cs _ _ src hF hnlog ?_ hnr ?_
        · intro p hp hcond
          have hup := FS.mem_build_dest_index_under _ cs.destDir p hp
          obtain ⟨hk1, -, -⟩ := jInv.2 p src hup hcond.2
          exact hnlog hk1
        · intro d hd2
          exact hsettled d hd2 hnlog
    have hacc : (⟨(completeTasks env cs (runTasks cs (st0.fs.mkdirp cs.destDir) st0.ledger)
          ⟨⟨st0.fs.mkdirp cs.destDir, st0.ledger, false⟩, ctr1, [], [],
           false⟩).st.fs.mkdirp cs.destDir,
        (completeTasks env cs (runTasks cs (st0.fs.mkdirp cs.destDir) st0.ledger)
          ⟨⟨st0.fs.mkdirp cs.destDir, st0.ledger, false⟩, ctr1, [], [],
           false⟩).st.ledger, false⟩ : St) =
        (completeTasks env cs (runTasks cs (st0.fs.mkdirp cs.destDir) st0.ledger)
          ⟨⟨st0.fs.mkdirp cs.destDir, st0.ledger, false⟩, ctr1, [], [], false⟩).st := by
      rw [hmkf]
      exact St_eta_flag _ false hF
    obtain ⟨hc2st, -, hc2ev⟩ := completeTasks_noop env cs _ hF _
      ⟨⟨(completeTasks env cs (runTasks cs (st0.fs.mkdirp cs.destDir) st0.ledger)
          ⟨⟨st0.fs.mkdirp cs.destDir, st0.ledger, false⟩, ctr1, [], [],
           false⟩).st.fs.mkdirp cs.destDir,
        (completeTasks env cs (runTasks cs (st0.fs.mkdirp cs.destDir) st0.ledger)
          ⟨⟨st0.fs.mkdirp cs.destDir, st0.ledger, false⟩, ctr1, [], [],
           false⟩).st.ledger, false⟩, ctr2, [], [], false⟩
      htasks hacc rfl rfl
    exact ⟨ho2st.trans hc2st, ho2ev hc2ev⟩

/-- The environment for the C9 counterexample: like `envA`, but every file
is below the junk size threshold. -/
def envC9 : Env := { envA with isJunkFile := fun _ _ => true }

/-- The world for the C9 counterexample: one undersized source file. -/
def stC9j : St :=
  ⟨⟨[(["src"], .dir), (["src", "j.mkv"], .file), (["dest"], .dir)]⟩, [], false⟩

/-- Counterexample for C9's parenthetical: the second run over an
unchanged tree does leave the state fixed, but its complete trace shows
the junk file being dispatched again (`Processing file 1/1`) and
re-rejected by the size rule — not by the ledger already-processed check,
the destination-index conflict check, or the existing-correct-symlink
check, none of whose messages appear. -/
theorem C9_counterexample :
    (create_symlinks envC9 csA (create_symlinks envC9 csA stC9j).st).st =
      (create_symlinks envC9 csA stC9j).st ∧
    (create_symlinks envC9 csA (create_symlinks envC9 csA stC9j).st).events =
      [mI "Starting to process 1 files...",
       mI "Scanning source directory: /src",
       mI "Processing file 1/1: j.mkv",
       mD "Processing as show based on anime pattern: /src/j.mkv",
       mD "Skipping Junk files: j.mkv based on size",
       mI "Processing completed. Successfully processed 1 files."] :=
  ⟨by decide, by decide⟩

/-- The world for the C9 witness: one linkable source file and the
destination root. -/
def stC9 : St :=
  ⟨⟨[(["src"], .dir), (["src", "a.mkv"], .file), (["dest"], .dir)]⟩, [], false⟩

/-- Witness for C9 (amended) at a concrete separated world: the first run
links the file, the second run changes nothing and creates no link. -/
theorem C9_idempotence_witness :
    (create_symlinks envA csA (create_symlinks envA csA stC9).st).st =
      (create_symlinks envA csA stC9).st ∧
    hasSymlinkEv (create_symlinks envA csA (create_symlinks envA csA stC9).st).events =
      false :=
  C9_idempotence envA csA stC9 (by decide) (by decide) (by decide)
    (by unfold FS.pathsNodup; decide)
    (by decide) (by decide) (by decide) (by decide)
    (by
      intro x hx d hd
      rw [show walkedSrcs stC9.fs csA.srcDirs = [["src", "a.mkv"]] from by decide] at hx
      rw [List.mem_singleton] at hx
      subst hx
      rw [show routeOf envA csA ["src", "a.mkv"] =
        Route.dest ["dest", "Shows", "A", "S1", "e.mkv"] from by decide] at hd
      obtain h := Route.dest.inj hd
      subst h
      decide)
    (by
      intro s1 h1 s2 h2 d hr1 hr2
      rw [show walkedSrcs stC9.fs csA.srcDirs = [["src", "a.mkv"]] from by decide] at h1 h2
      rw [List.mem_singleton] at h1 h2
      rw [h1, h2])
    (by
      intro s1 h1 s2 h2 d1 d2 hr1 hr2 hne
      rw [show walkedSrcs stC9.fs csA.srcDirs = [["src", "a.mkv"]] from by decide] at h1 h2
      rw [List.mem_singleton] at h1 h2
      subst h1
      subst h2
      rw [hr1] at hr2
      exact absurd (Route.dest.inj hr2) hne)
    (by
      intro e he t het hu
      have he2 : e = (["src"], FNode.dir) ∨ e = (["src", "a.mkv"], FNode.file) ∨
          e = (["dest"], FNode.dir) := by
        simpa [stC9] using he
      rcases he2 with rfl | rfl | rfl <;> cases het)

end CineSync
